import Mathlib

/-!
# The abstract-operation encoding layer of mlir-tv (`src/abstractops.cpp`)

The C++ file builds SMT terms.  The development below embeds it as follows.

* The terms the code builds are data: `Expr` is the type of the term trees, one
  constructor per backend call the source makes (`Expr::mkBV`, `Expr::mkIte`,
  `operator==`, `getMSB`, `extract`, `concat`, `zext`, `select`, `mkLambda`,
  `FnDecl::apply`, bags, ...).  Structural identity of terms (`isIdentical`) is
  equality in `Expr`.
* The file-scope and `aop`-scope variables of the source are the fields of
  `State`; every function of the source is a Lean function taking the state
  and returning an `Outcome` that carries the result and the new state.
* `Outcome` separates a normal return from a failed `assert`, from undefined
  behaviour of the C++ abstract machine, and from running out of fuel in a loop.
* The meaning of a term is given by `eval`, the standard semantics of
  fixed-width bit-vectors, arrays and bags, for an interpretation `Interp` of
  the free symbols and of the uninterpreted functions.
* A `float` is its IEEE-754 binary32 bit pattern (`Float32`).
* Machine integers are natural numbers with explicit wrap-around (`uadd32`,
  `uadd64`); a shift of a 64-bit integer by 64 or more is undefined (`shl64`).
* The states of a session (`Session`) are those reached from a returning
  `setAbstraction` by any calls of the interface; the properties are stated for
  them.  Where the names of the cached declarations matter, the states are
  those of a program that starts in the initial state (`Started`).

The file has three parts: the embedding of the source, the definitions used to
state and prove the properties, and the properties.
-/

namespace AbstractOps

/-! ## Outcomes -/

/-- How a call of a function of the source ends. -/
inductive Outcome (α : Type) where
  /-- normal return -/
  | ok (a : α)
  /-- an `assert` failed -/
  | assertFail
  /-- the C++ abstract machine gives the execution no meaning -/
  | undefined
  /-- the fuel given to a loop ran out before the loop ended -/
  | outOfFuel
deriving Repr, DecidableEq

/-- Sequencing of calls. -/
def Outcome.bind {α β : Type} (x : Outcome α) (f : α → Outcome β) : Outcome β :=
  match x with
  | .ok a => f a
  | .assertFail => .assertFail
  | .undefined => .undefined
  | .outOfFuel => .outOfFuel

/-! ## Machine integers -/

/-- Range of `unsigned`. -/
def U32 : Nat := 4294967296

/-- Range of `uint64_t`. -/
def U64 : Nat := 18446744073709551616

/-- Addition of two `unsigned` values. -/
def uadd32 (a b : Nat) : Nat := (a + b) % U32

/-- Subtraction of two `unsigned` values (`a, b < 2^32`). -/
def usub32 (a b : Nat) : Nat := (a + U32 - b) % U32

/-- Addition of two `uint64_t` values. -/
def uadd64 (a b : Nat) : Nat := (a + b) % U64

/-- The shift `1ull << s`: defined by the language only for `s < 64`. -/
def shl64 (s : Nat) : Outcome Nat :=
  if s < 64 then .ok (2 ^ s) else .undefined

/-- What `1ull << s` yields on hardware that drops the bits shifted out. -/
def shl64Wrap (s : Nat) : Outcome Nat := .ok (2 ^ s % U64)

/-- What `1ull << s` yields on hardware that masks the shift count to six bits
(x86-64, AArch64). -/
def shl64Mask (s : Nat) : Outcome Nat := .ok (2 ^ (s % 64))

/-! ## IEEE-754 binary32 -/

/-- A `float`, as its bit pattern: bit 31 sign, bits 30..23 exponent, bits 22..0
fraction. -/
structure Float32 where
  bits : Nat
  isLt : bits < 4294967296
deriving DecidableEq, Repr

namespace Float32

/-- Bits 30..0: exponent and fraction. -/
def magnitude (f : Float32) : Nat := f.bits % 2147483648

/-- The source's `signbit(f)`. -/
def signbit (f : Float32) : Bool := decide (2147483648 ≤ f.bits)

/-- The source's `isnan(f)`: exponent all ones, fraction nonzero. -/
def isnan (f : Float32) : Bool := decide (2139095040 < f.magnitude)

/-- The source's `isinf(f)`: exponent all ones, fraction zero. -/
def isinf (f : Float32) : Bool := decide (f.magnitude = 2139095040)

/-- The source's `f == 0.0f`: true for both zeros. -/
def isZero (f : Float32) : Bool := decide (f.magnitude = 0)

/-- The source's `abs(f)`: the sign bit cleared. -/
def abs (f : Float32) : Float32 := ⟨f.magnitude, by unfold magnitude; omega⟩

/-- The source's `-f`: the sign bit flipped. -/
def neg (f : Float32) : Float32 := ⟨(f.bits + 2147483648) % 4294967296, by omega⟩

/-- The source's `0.0f`. -/
def zero : Float32 := ⟨0, by decide⟩

/-- The source's `-0.0f`. -/
def negZero : Float32 := ⟨2147483648, by decide⟩

/-- The source's `1.0f`. -/
def one : Float32 := ⟨1065353216, by decide⟩

/-- The source's `INFINITY`. -/
def inf : Float32 := ⟨2139095040, by decide⟩

/-- The source's `-INFINITY`. -/
def negInf : Float32 := ⟨4286578688, by decide⟩

/-- The source's `nanf("0")`: the positive quiet NaN with zero payload. -/
def nan : Float32 := ⟨2143289344, by decide⟩

/-- The position of a non-NaN float on the real line, up to a monotone map:
sign and magnitude read as a signed integer (both zeros give 0). -/
def key (f : Float32) : Int :=
  if f.signbit then - (f.magnitude : Int) else (f.magnitude : Int)

/-- The source's `a < b` on floats: false when either side is a NaN. -/
def lt (a b : Float32) : Bool := !a.isnan && !b.isnan && decide (a.key < b.key)

/-- The source's `a == b` on floats. -/
def feq (a b : Float32) : Bool := !a.isnan && !b.isnan && decide (a.key = b.key)

/-- Neither zero, nor infinite, nor NaN. -/
def isFiniteNonzero (f : Float32) : Bool := !f.isnan && !f.isinf && !f.isZero

end Float32

/-! ## `std::map<float, Expr>` -/

/-- Lookup, as `std::map::find` does it: a key matches when neither it nor the
searched key is less than the other. -/
def mapFind {β : Type} (k : Float32) : List (Float32 × β) → Option β
  | [] => none
  | (k', v) :: rest =>
    if !Float32.lt k k' && !Float32.lt k' k then some v else mapFind k rest

/-- Insertion, as `std::map::emplace` does it: the entries stay in ascending
key order and an entry with an equivalent key is left as it is. -/
def mapEmplace {β : Type} (k : Float32) (v : β) : List (Float32 × β) → List (Float32 × β)
  | [] => [(k, v)]
  | (k', v') :: rest =>
    if Float32.lt k k' then (k, v) :: (k', v') :: rest
    else if Float32.lt k' k then (k', v') :: mapEmplace k v rest
    else (k', v') :: rest

/-! ## Bit-width keyed `std::map<unsigned, FnDecl>` -/

/-- Lookup in an association list keyed by bit width. -/
def widthFind {β : Type} (w : Nat) : List (Nat × β) → Option β
  | [] => none
  | (w', v) :: rest => if w = w' then some v else widthFind w rest

/-! ## The SMT backend: sorts, declarations, terms -/

/-- Modelled from the spec: the sorts of the SMT backend (smt.h is not among
the sources). -/
inductive SmtSort where
  | bv (w : Nat)
  | bool
  | array (dom range : SmtSort)
  | bag (elem : SmtSort)
  | fn (dom range : SmtSort)
deriving DecidableEq, Repr

/-- Modelled from the spec: `Sort::bvSort`. -/
def SmtSort.bvSort (w : Nat) : SmtSort := .bv w

/-- Modelled from the spec: `Sort::bitwidth` (smt.h is not among the sources).
The width of a bit-vector sort; for an array, the width of its elements (the
spec indexes `int_sum<w>` by the element width). -/
def SmtSort.bitwidth : SmtSort → Nat
  | .bv w => w
  | .bool => 1
  | .array _ r => r.bitwidth
  | .bag e => e.bitwidth
  | .fn _ r => r.bitwidth

/-- Modelled from the spec: `Sort::toFnSort`: the function sort of an array sort. -/
def SmtSort.toFnSort : SmtSort → SmtSort
  | .array d r => .fn d r
  | s => s

/-- Modelled from the spec: an uninterpreted function declaration (`FnDecl` of
smt.h): domain sorts, range sort, name. -/
structure FnDecl where
  dom : List SmtSort
  range : SmtSort
  name : String
deriving DecidableEq, Repr

/-- Modelled from the spec: the terms of the SMT backend (`Expr` of smt.h), one
constructor per call the source makes. -/
inductive Expr where
  /-- a bit-vector numeral of the given width -/
  | bv (val width : Nat)
  /-- a Boolean constant, `Expr::mkBool` -/
  | boolLit (b : Bool)
  /-- a free symbol (an input of the driver) -/
  | var (name : String) (sort : SmtSort)
  /-- a bound variable, `Index::var(name, VarType::BOUND)` -/
  | bound (name : String) (sort : SmtSort)
  | ite (c t e : Expr)
  | eq (a b : Expr)
  | and (a b : Expr)
  | or (a b : Expr)
  | not (a : Expr)
  | implies (a b : Expr)
  /-- bit-vector addition, `operator+` -/
  | add (a b : Expr)
  /-- bit-vector multiplication, `operator*` -/
  | mul (a b : Expr)
  /-- unsigned less-than -/
  | ult (a b : Expr)
  | getMSB (a : Expr)
  | extract (hi lo : Nat) (a : Expr)
  | concat (a b : Expr)
  | zext (n : Nat) (a : Expr)
  | select (arr idx : Expr)
  | lambda (v body : Expr)
  | app1 (f : FnDecl) (x : Expr)
  | app2 (f : FnDecl) (x y : Expr)
  | emptyBag (elem : SmtSort)
  | insert (bag x : Expr)
deriving DecidableEq, Repr

namespace Expr

/-- Modelled from the spec: `Expr::mkBV(val, bits)`: the numeral of the given width whose value is
`val` reduced modulo `2^bits`. -/
def mkBV (val bits : Nat) : Expr := .bv (val % 2 ^ bits) bits

/-- Modelled from the spec: `Expr::mkBool`. -/
def mkBool (b : Bool) : Expr := .boolLit b

/-- Modelled from the spec: `Expr::mkIte`. -/
def mkIte (c t e : Expr) : Expr := .ite c t e

/-- Modelled from the spec: `Expr::mkLambda`. -/
def mkLambda (v body : Expr) : Expr := .lambda v body

/-- Modelled from the spec: `Expr::mkEmptyBag`. -/
def mkEmptyBag (elem : SmtSort) : Expr := .emptyBag elem

/-- Modelled from the spec: `Expr::simplify`: the backend rewrites the term into one with the same
meaning; the rewriting itself is not modelled. -/
def simplify (e : Expr) : Expr := e

/-- Modelled from the spec: `Expr::isIdentical`: structural identity. -/
def isIdentical (a b : Expr) : Bool := decide (a = b)

/-- Modelled from the spec: `Expr::isUInt`: the value of a numeral that fits 64 bits. -/
def isUInt : Expr → Option Nat
  | .bv val _ => if val < U64 then some val else none
  | _ => none

/-- Modelled from the spec: `Expr::isNumeral`. -/
def isNumeral : Expr → Bool
  | .bv _ _ => true
  | _ => false

/-- Modelled from the spec: `Expr::sort`. -/
def sort : Expr → SmtSort
  | .bv _ w => .bv w
  | .boolLit _ => .bool
  | .var _ s => s
  | .bound _ s => s
  | .ite _ t _ => t.sort
  | .eq _ _ => .bool
  | .and _ _ => .bool
  | .or _ _ => .bool
  | .not _ => .bool
  | .implies _ _ => .bool
  | .add a _ => a.sort
  | .mul a _ => a.sort
  | .ult _ _ => .bool
  | .getMSB _ => .bv 1
  | .extract hi lo _ => .bv (hi - lo + 1)
  | .concat a b => .bv (a.sort.bitwidth + b.sort.bitwidth)
  | .zext n a => .bv (a.sort.bitwidth + n)
  | .select arr _ =>
    match arr.sort with
    | .array _ r => r
    | s => s
  | .lambda v body => .array v.sort body.sort
  | .app1 f _ => f.range
  | .app2 f _ _ => f.range
  | .emptyBag e => .bag e
  | .insert bag _ => bag.sort

/-- Modelled from the spec: the name a bound variable was created with. -/
def boundName : Expr → String
  | .bound name _ => name
  | _ => ""

end Expr

/-- Modelled from the spec: `FnDecl::apply` with one argument (also `operator()`). -/
def FnDecl.apply1 (f : FnDecl) (x : Expr) : Expr := .app1 f x

/-- Modelled from the spec: `FnDecl::apply` with two arguments. -/
def FnDecl.apply2 (f : FnDecl) (x y : Expr) : Expr := .app2 f x y

/-! ## Meaning of terms -/

/-- Modelled from the spec: a bit-vector value, its width and unsigned value. -/
structure BV where
  width : Nat
  val : Nat
deriving DecidableEq, Repr

namespace BV

/-- Modelled from the spec: addition modulo `2^width`. -/
def add (x y : BV) : BV := ⟨x.width, (x.val + y.val) % 2 ^ x.width⟩

/-- Modelled from the spec: multiplication modulo `2^width`. -/
def mul (x y : BV) : BV := ⟨x.width, (x.val * y.val) % 2 ^ x.width⟩

/-- Modelled from the spec: unsigned less-than. -/
def ult (x y : BV) : Bool := decide (x.val < y.val)

/-- Modelled from the spec: the most significant bit, as a vector of width 1. -/
def getMSB (x : BV) : BV := ⟨1, x.val / 2 ^ (x.width - 1) % 2⟩

/-- Modelled from the spec: bits `hi..lo`. -/
def extract (hi lo : Nat) (x : BV) : BV := ⟨hi - lo + 1, x.val / 2 ^ lo % 2 ^ (hi - lo + 1)⟩

/-- Modelled from the spec: concatenation, `x` in the high bits. -/
def concat (x y : BV) : BV := ⟨x.width + y.width, x.val * 2 ^ y.width + y.val⟩

/-- Modelled from the spec: zero extension by `n` bits. -/
def zext (n : Nat) (x : BV) : BV := ⟨x.width + n, x.val⟩

end BV

/-- Modelled from the spec: the values of the backend, bit-vectors, Booleans, arrays of bit-vectors indexed
by the value of the index, finite bags of bit-vectors. -/
inductive Val where
  | bv (b : BV)
  | bool (b : Bool)
  | arr (f : Nat → BV)
  | bag (m : Multiset BV)

namespace Val

/-- Modelled from the spec: the bit-vector a value is (a zero-width vector for a value of another kind). -/
def toBV : Val → BV
  | .bv b => b
  | _ => ⟨0, 0⟩

/-- Modelled from the spec: the Boolean a value is. -/
def toBool : Val → Bool
  | .bool b => b
  | _ => false

/-- Modelled from the spec: the array a value is. -/
def toArr : Val → Nat → BV
  | .arr f => f
  | _ => fun _ => ⟨0, 0⟩

/-- Modelled from the spec: the bag a value is. -/
def toBag : Val → Multiset BV
  | .bag m => m
  | _ => 0

/-- Modelled from the spec: equality of values as the `=` of the backend decides it; the source only
compares bit-vectors, Booleans and bags. -/
def beq : Val → Val → Bool
  | .bv a, .bv b => decide (a = b)
  | .bool a, .bool b => decide (a = b)
  | .bag a, .bag b => decide (a = b)
  | _, _ => false

/-- Modelled from the spec: a bit-vector forced into the width of a sort. -/
def castBV (s : SmtSort) (b : BV) : BV := ⟨s.bitwidth, b.val % 2 ^ s.bitwidth⟩

/-- Modelled from the spec: a value forced into a sort, what an interpretation yields for a symbol or
an uninterpreted function of that sort. -/
def cast : SmtSort → Val → Val
  | .bv w, v => .bv ⟨w, v.toBV.val % 2 ^ w⟩
  | .bool, v => .bool v.toBool
  | .array _ r, v => .arr (fun k => castBV r (v.toArr k))
  | .bag e, v => .bag (v.toBag.map (castBV e))
  | .fn _ r, v => cast r v

end Val

/-- Modelled from the spec: an interpretation, a value for every free symbol and a function for every
uninterpreted function name. -/
structure Interp where
  sym : String → Val
  fn : String → List Val → Val

/-- Modelled from the spec: the value of a term under an interpretation `I`,
with `env` giving the values of the bound variables (the semantics of
fixed-width bit-vectors, arrays and bags of SMT-LIB). -/
def eval (I : Interp) : Expr → (String → Nat) → Val
  | .bv val width, _ => .bv ⟨width, val⟩
  | .boolLit b, _ => .bool b
  | .var name s, _ => Val.cast s (I.sym name)
  | .bound name s, env => .bv ⟨s.bitwidth, env name⟩
  | .ite c t e, env => if (eval I c env).toBool then eval I t env else eval I e env
  | .eq a b, env => .bool (Val.beq (eval I a env) (eval I b env))
  | .and a b, env => .bool ((eval I a env).toBool && (eval I b env).toBool)
  | .or a b, env => .bool ((eval I a env).toBool || (eval I b env).toBool)
  | .not a, env => .bool (!(eval I a env).toBool)
  | .implies a b, env => .bool (!(eval I a env).toBool || (eval I b env).toBool)
  | .add a b, env => .bv (BV.add (eval I a env).toBV (eval I b env).toBV)
  | .mul a b, env => .bv (BV.mul (eval I a env).toBV (eval I b env).toBV)
  | .ult a b, env => .bool (BV.ult (eval I a env).toBV (eval I b env).toBV)
  | .getMSB a, env => .bv (BV.getMSB (eval I a env).toBV)
  | .extract hi lo a, env => .bv (BV.extract hi lo (eval I a env).toBV)
  | .concat a b, env => .bv (BV.concat (eval I a env).toBV (eval I b env).toBV)
  | .zext n a, env => .bv (BV.zext n (eval I a env).toBV)
  | .select arr idx, env => .bv ((eval I arr env).toArr (eval I idx env).toBV.val)
  | .lambda v body, env =>
    .arr (fun k => (eval I body (Function.update env v.boundName k)).toBV)
  | .app1 f x, env => Val.cast f.range (I.fn f.name [eval I x env])
  | .app2 f x y, env => Val.cast f.range (I.fn f.name [eval I x env, eval I y env])
  | .emptyBag _, _ => .bag 0
  | .insert bag x, env => .bag ((eval I x env).toBV ::ₘ (eval I bag env).toBag)

/-! ## The state of the module -/

/-- Modelled from the spec: the two abstraction levels of the floating-point dot
product (declared in abstractops.h, which is not among the sources). -/
inductive AbsLevelFpDot where
  | FULLY_ABS
  | SUM_MUL
deriving DecidableEq, Repr

/-- Modelled from the spec: the two abstraction levels of the integer dot product
(declared in abstractops.h). -/
inductive AbsLevelIntDot where
  | FULLY_ABS
  | SUM_MUL
deriving DecidableEq, Repr

/-- Modelled from the spec: the usage flags (declared in abstractops.h). -/
structure UsedAbstractOps where
  fpDot : Bool
  fpAdd : Bool
  fpMul : Bool
  fpSum : Bool
  intDot : Bool
  intSum : Bool
deriving DecidableEq, Repr

/-- The variables of the source with static storage duration. -/
structure State where
  /-- the counter of `freshName` -/
  freshNameCount : Nat
  fpconst_zero_pos : Option Expr
  fpconst_zero_neg : Option Expr
  fpconst_nan : Option Expr
  fpconst_inf_pos : Option Expr
  fpconst_inf_neg : Option Expr
  fpconst_absrepr : List (Float32 × Expr)
  fpconst_absrepr_num : Nat
  VALUE_BITS : Nat
  FP_BITS : Nat
  INF_VALUE : Nat
  NAN_VALUE : Nat
  SIGNED_VALUE : Nat
  fp_sumfn : Option FnDecl
  fp_assoc_sumfn : Option FnDecl
  fp_dotfn : Option FnDecl
  fp_addfn : Option FnDecl
  fp_mulfn : Option FnDecl
  int_sumfn : List (Nat × FnDecl)
  int_dotfn : List (Nat × FnDecl)
  alFpDot : AbsLevelFpDot
  alIntDot : AbsLevelIntDot
  isFpAddAssociative : Bool
  usedOps : UsedAbstractOps
  staticArrays : List (Expr × Expr × Expr)
  useMultiset : Bool
deriving DecidableEq, Repr

/-- The constant `SIGN_BITS`. -/
def SIGN_BITS : Nat := 1

/-- The constant `TYPE_BITS`. -/
def TYPE_BITS : Nat := 1

/-- The state at program start: static storage is zero-initialised, and
`VALUE_BITS` starts at 31. -/
def State.init : State where
  freshNameCount := 0
  fpconst_zero_pos := none
  fpconst_zero_neg := none
  fpconst_nan := none
  fpconst_inf_pos := none
  fpconst_inf_neg := none
  fpconst_absrepr := []
  fpconst_absrepr_num := 0
  VALUE_BITS := 31
  FP_BITS := 0
  INF_VALUE := 0
  NAN_VALUE := 0
  SIGNED_VALUE := 0
  fp_sumfn := none
  fp_assoc_sumfn := none
  fp_dotfn := none
  fp_addfn := none
  fp_mulfn := none
  int_sumfn := []
  int_dotfn := []
  alFpDot := .FULLY_ABS
  alIntDot := .FULLY_ABS
  isFpAddAssociative := false
  usedOps := ⟨false, false, false, false, false, false⟩
  staticArrays := []
  useMultiset := false

/-- Reading through a `std::optional` with `*`: undefined when it is empty. -/
def deref {α : Type} : Option α → Outcome α
  | some a => .ok a
  | none => .undefined

/-- The content of an optional declaration after `if (!fn) fn.emplace(d)`: the
declaration it held, or `d` when it was empty. -/
def emplaceIfEmpty (o : Option FnDecl) (d : FnDecl) : FnDecl :=
  match o with
  | some x => x
  | none => d

/-! ## The functions of the source -/

/-- The function `updateConstants`, for a given behaviour `shl` of `1ull << s`. -/
def updateConstantsWith (shl : Nat → Outcome Nat) (st : State) : Outcome State :=
  let FP_BITS := uadd32 (uadd32 SIGN_BITS TYPE_BITS) st.VALUE_BITS
  (shl st.VALUE_BITS).bind fun INF_VALUE =>
  let NAN_VALUE := uadd64 INF_VALUE 1
  (shl (uadd32 TYPE_BITS st.VALUE_BITS)).bind fun SIGNED_VALUE =>
  .ok { st with
    FP_BITS := FP_BITS
    INF_VALUE := INF_VALUE
    NAN_VALUE := NAN_VALUE
    SIGNED_VALUE := SIGNED_VALUE
    fpconst_nan := some (Expr.mkBV NAN_VALUE FP_BITS)
    fpconst_inf_pos := some (Expr.mkBV INF_VALUE FP_BITS)
    fpconst_inf_neg := some (Expr.mkBV (uadd64 SIGNED_VALUE INF_VALUE) FP_BITS)
    fpconst_zero_pos := some (Expr.mkBV 0 FP_BITS)
    fpconst_zero_neg := some (Expr.mkBV (uadd64 SIGNED_VALUE 0) FP_BITS) }

/-- The function `updateConstants`. -/
def updateConstants (st : State) : Outcome State := updateConstantsWith shl64 st

/-- The function `getIntSumFn`. -/
def getIntSumFn (st : State) (bitwidth : Nat) : FnDecl × State :=
  match widthFind bitwidth st.int_sumfn with
  | some d => (d, st)
  | none =>
    let hashfn : FnDecl := ⟨[.bv bitwidth], .bv bitwidth, "int_sum" ++ toString bitwidth⟩
    (hashfn, { st with int_sumfn := st.int_sumfn ++ [(bitwidth, hashfn)] })

/-- The function `getIntDotFn`. -/
def getIntDotFn (st : State) (bitwidth : Nat) : FnDecl × State :=
  match widthFind bitwidth st.int_dotfn with
  | some d => (d, st)
  | none =>
    let hashfn : FnDecl := ⟨[.bv bitwidth], .bv bitwidth, "int_dot" ++ toString bitwidth⟩
    (hashfn, { st with int_dotfn := st.int_dotfn ++ [(bitwidth, hashfn)] })

/-- The function `getUsedAbstractOps`. -/
def getUsedAbstractOps (st : State) : UsedAbstractOps := st.usedOps

/-- The function `setAbstraction`, for a given behaviour `shl` of `1ull << s`. -/
def setAbstractionWith (shl : Nat → Outcome Nat) (st : State)
    (afd : AbsLevelFpDot) (aid : AbsLevelIntDot) (addAssoc : Bool) (fpBits : Nat) :
    Outcome State :=
  let st := { st with
    alFpDot := afd
    alIntDot := aid
    isFpAddAssociative := addAssoc
    usedOps := ⟨false, false, false, false, false, false⟩
    fpconst_absrepr := []
    fpconst_absrepr_num := 0 }
  if ¬ (fpBits > 0) then .assertFail
  else
    let st := { st with VALUE_BITS := if fpBits = 1 then fpBits else usub32 fpBits 1 }
    (updateConstantsWith shl st).bind fun st =>
    .ok { st with staticArrays := [] }

/-- The function `setAbstraction`. -/
def setAbstraction (st : State)
    (afd : AbsLevelFpDot) (aid : AbsLevelIntDot) (addAssoc : Bool) (fpBits : Nat) :
    Outcome State :=
  setAbstractionWith shl64 st afd aid addAssoc fpBits

/-- The function `setEncodingOptions`. -/
def setEncodingOptions (st : State) (use_multiset : Bool) : State :=
  { st with useMultiset := use_multiset }

/-- The function `getFpAddAssociativity`. -/
def getFpAddAssociativity (st : State) : Bool := st.isFpAddAssociative

/-- The function `fpSort`. -/
def fpSort (st : State) : SmtSort := SmtSort.bvSort st.FP_BITS

/-- The function `fpConst`. -/
def fpConst (st : State) (f : Float32) : Outcome (Expr × State) :=
  if f.isnan then
    (deref st.fpconst_nan).bind fun e => .ok (e, st)
  else if f.isinf then
    (if f.signbit then deref st.fpconst_inf_neg else deref st.fpconst_inf_pos).bind
      fun e => .ok (e, st)
  else if Float32.feq f Float32.zero then
    (if f.signbit then deref st.fpconst_zero_neg else deref st.fpconst_zero_pos).bind
      fun e => .ok (e, st)
  else
    match mapFind f st.fpconst_absrepr with
    | some e => .ok (e, st)
    | none =>
      let abs_f := f.abs
      (if Float32.feq abs_f Float32.one then
        (.ok (1, st) : Outcome (Nat × State))
      else if uadd32 2 st.fpconst_absrepr_num < st.INF_VALUE then
        .ok (uadd32 2 st.fpconst_absrepr_num,
          { st with fpconst_absrepr_num := uadd32 st.fpconst_absrepr_num 1 })
      else .assertFail).bind fun (absval, st) =>
      let e_pos := Expr.mkBV absval st.FP_BITS
      let st := { st with fpconst_absrepr := mapEmplace abs_f e_pos st.fpconst_absrepr }
      let e_neg := Expr.mkBV (uadd64 st.SIGNED_VALUE absval) st.FP_BITS
      let st := { st with fpconst_absrepr := mapEmplace abs_f.neg e_neg st.fpconst_absrepr }
      .ok (if f.signbit then e_neg else e_pos, st)

/-- Modelled from the spec: the constructor `Float(f)` of the value wrappers
(value.h is not among the sources); it wraps the term `fpConst(f)`. -/
def Float (st : State) (f : Float32) : Outcome (Expr × State) := fpConst st f

/-- Modelled from the spec: the constructor `Index(i)` of the value wrappers,
the numeral `i` of the index sort; `ib` is the width of the index sort
(`Index::BITS`, declared in value.h). -/
def Index (ib i : Nat) : Expr := Expr.mkBV i ib

/-- Modelled from the spec: `Index::var(name, VarType::BOUND)`, a bound
variable of the index sort. -/
def Index.var (ib : Nat) (name : String) : Expr := .bound name (.bv ib)

/-- The function `mkZeroElemFromArr`. -/
def mkZeroElemFromArr (ib : Nat) (arr : Expr) : Expr :=
  let bvsz := (Expr.select arr (Index ib 0)).sort.bitwidth
  Expr.mkBV 0 bvsz

/-- The function `fpAdd`. -/
def fpAdd (st : State) (f1 f2 : Expr) : Outcome (Expr × State) :=
  let st := { st with usedOps := { st.usedOps with fpAdd := true } }
  let fty := f1.sort
  let fp_value_ty := SmtSort.bvSort (uadd32 SIGN_BITS st.VALUE_BITS)
  let st := { st with
    fp_addfn := some (emplaceIfEmpty st.fp_addfn ⟨[fty, fty], fp_value_ty, "fp_add"⟩) }
  (Float st Float32.zero).bind fun (fp_zero, st) =>
  (Float st Float32.negZero).bind fun (fp_id, st) =>
  (Float st Float32.inf).bind fun (fp_inf_pos, st) =>
  (Float st Float32.negInf).bind fun (fp_inf_neg, st) =>
  (Float st Float32.nan).bind fun (fp_nan, st) =>
  let bv_true := Expr.mkBV 1 1
  let bv_false := Expr.mkBV 0 1
  (deref st.fp_addfn).bind fun fp_addfn =>
  let fp_add_res := Expr.add (fp_addfn.apply2 f1 f2) (fp_addfn.apply2 f2 f1)
  let fp_add_sign := fp_add_res.getMSB
  let fp_add_value := fp_add_res.extract (usub32 st.VALUE_BITS 1) 0
  .ok (
    Expr.mkIte (.eq f1 fp_id) f2
    (Expr.mkIte (.eq f2 fp_id) f1
    (Expr.mkIte (.eq f1 fp_nan) f1
    (Expr.mkIte (.eq f2 fp_nan) f2
    (Expr.mkIte (.or (.and (.eq f1 fp_inf_pos) (.eq f2 fp_inf_neg))
                     (.and (.eq f1 fp_inf_neg) (.eq f2 fp_inf_pos))) fp_nan
    (Expr.mkIte (.or (.eq f1 fp_inf_pos) (.eq f1 fp_inf_neg)) f1
    (Expr.mkIte (.or (.eq f2 fp_inf_pos) (.eq f2 fp_inf_neg)) f2
    (Expr.mkIte (.and (.eq f1.getMSB bv_false) (.eq f2.getMSB bv_false))
      (bv_false.concat (fp_add_value.zext TYPE_BITS))
    (Expr.mkIte (.and (.eq f1.getMSB bv_true) (.eq f2.getMSB bv_true))
      (bv_true.concat (fp_add_value.zext TYPE_BITS))
    (Expr.mkIte (.eq (f1.extract (usub32 st.VALUE_BITS 1) 0)
                     (f2.extract (usub32 st.VALUE_BITS 1) 0))
      fp_zero
      (fp_add_sign.concat (fp_add_value.zext TYPE_BITS))))))))))),
    st)

/-- The function `fpMul`. -/
def fpMul (st : State) (f1 f2 : Expr) : Outcome (Expr × State) :=
  let st := { st with usedOps := { st.usedOps with fpMul := true } }
  let exprSort := f1.sort
  let st := { st with
    fp_mulfn := some (emplaceIfEmpty st.fp_mulfn ⟨[exprSort, exprSort], fpSort st, "fp_mul"⟩) }
  (Float st Float32.one).bind fun (fp_id, st) =>
  (deref st.fp_mulfn).bind fun fp_mulfn =>
  .ok (
    Expr.mkIte (.eq f1 fp_id) f2
    (Expr.mkIte (.eq f2 fp_id) f1
      (Expr.add (fp_mulfn.apply2 f1 f2) (fp_mulfn.apply2 f2 f1))),
    st)

/-- The loop of `fpMultisetSum`: `for (unsigned i = ..; i < length; i ++)`,
entered with the current `i` and `bag`; one unit of fuel per test of the loop
condition. -/
def fpMultisetSumLoop (ib : Nat) (a : Expr) (length : Nat) :
    Nat → Nat → Expr → Outcome Expr
  | 0, _, _ => .outOfFuel
  | fuel + 1, i, bag =>
    if i < length then
      let bag := Expr.insert bag (Expr.select a (Index ib i))
      let bag := bag.simplify
      fpMultisetSumLoop ib a length fuel (uadd32 i 1) bag
    else .ok bag

/-- The function `fpMultisetSum`.  The `assert` of the source has a string
literal as its condition, which is never null: it cannot fail, and when
`isUInt` fails the loop reads `length` uninitialised. -/
def fpMultisetSum (ib fuel : Nat) (st : State) (a n : Expr) : Outcome (Expr × State) :=
  (match n.isUInt with
   | some length => (.ok length : Outcome Nat)
   | none => .undefined).bind fun length =>
  let bag := Expr.mkEmptyBag (fpSort st)
  (fpMultisetSumLoop ib a length fuel 0 bag).bind fun bag =>
  let st := { st with
    fp_assoc_sumfn :=
      some (emplaceIfEmpty st.fp_assoc_sumfn ⟨[bag.sort], fpSort st, "fp_assoc_sum"⟩) }
  (deref st.fp_assoc_sumfn).bind fun fp_assoc_sumfn =>
  let result := fp_assoc_sumfn.apply1 bag
  let st :=
    if n.isNumeral then { st with staticArrays := st.staticArrays ++ [(bag, n, result)] }
    else st
  .ok (result, st)

/-- The function `fpSum`. -/
def fpSum (ib fuel : Nat) (st : State) (a n : Expr) : Outcome (Expr × State) :=
  let st := { st with usedOps := { st.usedOps with fpSum := true } }
  if st.isFpAddAssociative && st.useMultiset then
    fpMultisetSum ib fuel st a n
  else
    let st := { st with
      fp_sumfn := some (emplaceIfEmpty st.fp_sumfn ⟨[a.sort], fpSort st, "fp_sum"⟩) }
    let i := Index.var ib "idx"
    let ai := Expr.select a i
    let zero := mkZeroElemFromArr ib a
    (deref st.fp_sumfn).bind fun fp_sumfn =>
    let result := fp_sumfn.apply1 (Expr.mkLambda i (Expr.mkIte (.ult i n) ai zero))
    let st :=
      if st.isFpAddAssociative && n.isNumeral then
        { st with staticArrays := st.staticArrays ++ [(a, n, result)] }
      else st
    .ok (result, st)

/-- The function `fpDot`. -/
def fpDot (ib fuel : Nat) (st : State) (a b n : Expr) : Outcome (Expr × State) :=
  match st.alFpDot with
  | .FULLY_ABS =>
    let st := { st with usedOps := { st.usedOps with fpDot := true } }
    let i := Index.var ib "idx"
    let fnSort := a.sort.toFnSort
    let st := { st with
      fp_dotfn := some (emplaceIfEmpty st.fp_dotfn ⟨[fnSort, fnSort], fpSort st, "fp_dot"⟩) }
    let ai := Expr.select a i
    let bi := Expr.select b i
    let zero := mkZeroElemFromArr ib a
    (deref st.fp_dotfn).bind fun fp_dotfn =>
    let lhs := fp_dotfn.apply2
      (Expr.mkLambda i (Expr.mkIte (.ult i n) ai zero))
      (Expr.mkLambda i (Expr.mkIte (.ult i n) bi zero))
    let rhs := fp_dotfn.apply2
      (Expr.mkLambda i (Expr.mkIte (.ult i n) bi zero))
      (Expr.mkLambda i (Expr.mkIte (.ult i n) ai zero))
    .ok (Expr.add lhs rhs, st)
  | .SUM_MUL =>
    let i := Index.var ib "idx"
    let ai := Expr.select a i
    let bi := Expr.select b i
    (fpMul st ai bi).bind fun (m, st) =>
    let arr := Expr.mkLambda i m
    fpSum ib fuel st arr n

/-- The function `intSum`. -/
def intSum (ib : Nat) (st : State) (a n : Expr) : Outcome (Expr × State) :=
  let st := { st with usedOps := { st.usedOps with intSum := true } }
  let (sumfn, st) := getIntSumFn st a.sort.bitwidth
  let i := Index.var ib "idx"
  let ai := Expr.select a i
  let zero := mkZeroElemFromArr ib a
  let result := sumfn.apply1 (Expr.mkLambda i (Expr.mkIte (.ult i n) ai zero))
  .ok (result, st)

/-- The function `intDot`. -/
def intDot (ib : Nat) (st : State) (a b n : Expr) : Outcome (Expr × State) :=
  match st.alIntDot with
  | .FULLY_ABS =>
    let st := { st with usedOps := { st.usedOps with intDot := true } }
    let i := Index.var ib "idx"
    let (dotfn, st) := getIntDotFn st a.sort.bitwidth
    let ai := Expr.select a i
    let bi := Expr.select b i
    let zero := mkZeroElemFromArr ib a
    let lhs := dotfn.apply2
      (Expr.mkLambda i (Expr.mkIte (.ult i n) ai zero))
      (Expr.mkLambda i (Expr.mkIte (.ult i n) bi zero))
    let rhs := dotfn.apply2
      (Expr.mkLambda i (Expr.mkIte (.ult i n) bi zero))
      (Expr.mkLambda i (Expr.mkIte (.ult i n) ai zero))
    .ok (Expr.add lhs rhs, st)
  | .SUM_MUL =>
    let i := Index.var ib "idx"
    let ai := Expr.select a i
    let bi := Expr.select b i
    let arr := Expr.mkLambda i (Expr.mul ai bi)
    intSum ib st arr n

/-- The function `fpPossibleConsts`. -/
def fpPossibleConsts (st : State) (e : Expr) : List Float32 :=
  let vec := (st.fpconst_absrepr.filter (fun kv => kv.2.isIdentical e)).map Prod.fst
  let identical (o : Option Expr) : Bool :=
    match o with
    | some c => c.isIdentical e
    | none => false
  if identical st.fpconst_nan then vec ++ [Float32.nan]
  else if identical st.fpconst_zero_pos then vec ++ [Float32.zero]
  else if identical st.fpconst_zero_neg then vec ++ [Float32.negZero]
  else if identical st.fpconst_inf_pos then vec ++ [Float32.inf]
  else if identical st.fpconst_inf_neg then vec ++ [Float32.negInf]
  else vec

/-- The function `freshName`: the prefix followed by the value of a counter of
type `int`, which is then incremented (undefined when it overflows). -/
def freshName (st : State) (pre : String) : Outcome (String × State) :=
  if st.freshNameCount < 2147483647 then
    .ok (pre ++ toString st.freshNameCount,
      { st with freshNameCount := st.freshNameCount + 1 })
  else .undefined

/-- The loops `for (unsigned k = ..; k < len; k ++) val = val + hashfn(a[k])` of
`getFpAssociativePrecondition`, entered with the current `k` and `val`; one
unit of fuel per test of the loop condition. -/
def hashSumLoop (ib : Nat) (hashfn : FnDecl) (a : Expr) (len : Nat) :
    Nat → Nat → Expr → Outcome Expr
  | 0, _, _ => .outOfFuel
  | fuel + 1, k, val =>
    if k < len then
      hashSumLoop ib hashfn a len fuel (uadd32 k 1)
        (Expr.add val (hashfn.apply1 (Expr.select a (Index ib k))))
    else .ok val

/-- The body of the inner loop of `getFpAssociativePrecondition` in multiset
mode, for the entries `staticArrays[i]` and `staticArrays[j]`. -/
def multisetPairStep (precond : Expr) (x y : Expr × Expr × Expr) : Expr :=
  let (abag, an, asum) := x
  let (bbag, bn, bsum) := y
  match an.isUInt, bn.isUInt with
  | some alen, some blen =>
    if alen ≠ blen then precond
    else Expr.and precond (Expr.implies (.eq abag bbag) (.eq asum bsum))
  | _, _ => precond

/-- The body of the inner loop of `getFpAssociativePrecondition` outside
multiset mode, for the entries `staticArrays[i]` and `staticArrays[j]`. -/
def hashPairStep (ib fuel : Nat) (acc : Expr × State) (x y : Expr × Expr × Expr) :
    Outcome (Expr × State) :=
  let (precond, st) := acc
  let (a, an, asum) := x
  let (b, bn, bsum) := y
  match an.isUInt, bn.isUInt with
  | some alen, some blen =>
    if alen ≠ blen then .ok (precond, st)
    else
      (freshName st "fp_hash").bind fun (name, st) =>
      let hashfn : FnDecl := ⟨[fpSort st], .bv ib, name⟩
      let aVal := hashfn.apply1 (Expr.select a (Index ib 0))
      (hashSumLoop ib hashfn a alen fuel 1 aVal).bind fun aVal =>
      let bVal := hashfn.apply1 (Expr.select b (Index ib 0))
      (hashSumLoop ib hashfn b blen fuel 1 bVal).bind fun bVal =>
      let associativity := Expr.implies (.not (.eq asum bsum)) (.not (.eq aVal bVal))
      .ok (Expr.and precond associativity, st)
  | _, _ => .ok (precond, st)

/-- The inner loop `for (j = i + 1; j < size; j ++)` outside multiset mode:
`x` is `staticArrays[i]`, the list holds the entries after it. -/
def hashInnerLoop (ib fuel : Nat) (x : Expr × Expr × Expr) :
    List (Expr × Expr × Expr) → Expr × State → Outcome (Expr × State)
  | [], acc => .ok acc
  | y :: rest, acc => (hashPairStep ib fuel acc x y).bind (hashInnerLoop ib fuel x rest)

/-- The outer loop `for (i = 0; i < size; i ++)` outside multiset mode, over
the entries that remain. -/
def hashOuterLoop (ib fuel : Nat) :
    List (Expr × Expr × Expr) → Expr × State → Outcome (Expr × State)
  | [], acc => .ok acc
  | x :: rest, acc => (hashInnerLoop ib fuel x rest acc).bind (hashOuterLoop ib fuel rest)

/-- The two nested loops in multiset mode, over the entries that remain. -/
def multisetOuterLoop : List (Expr × Expr × Expr) → Expr → Expr
  | [], precond => precond
  | x :: rest, precond => multisetOuterLoop rest (rest.foldl (fun p y => multisetPairStep p x y) precond)

/-- The function `getFpAssociativePrecondition`.  The loop counters `i`, `j`
are `unsigned`; the registry is taken to hold fewer than `2^32` entries. -/
def getFpAssociativePrecondition (ib fuel : Nat) (st : State) : Outcome (Expr × State) :=
  if !st.isFpAddAssociative then .assertFail
  else if st.useMultiset then
    let precond := multisetOuterLoop st.staticArrays (Expr.mkBool true)
    .ok (precond.simplify, st)
  else
    (hashOuterLoop ib fuel st.staticArrays (Expr.mkBool true, st)).bind fun (precond, st) =>
    .ok (precond.simplify, st)

/-! ## Definitions used to state and prove the properties -/

/-- The encoding of a finite value: sign bit `s`, type bit 0, value field `a`,
for `v` value bits. -/
def encFinite (v : Nat) (s : Bool) (a : Nat) : Expr :=
  .bv ((if s then 2 ^ (v + 1) else 0) + a) (v + 2)

/-- What `updateConstants` establishes: the widths and the five reserved
encodings, for a number of value bits from 1 to 62. -/
structure ConstsOK (st : State) : Prop where
  v_pos : 1 ≤ st.VALUE_BITS
  v_le : st.VALUE_BITS ≤ 62
  fp_bits : st.FP_BITS = st.VALUE_BITS + 2
  inf_value : st.INF_VALUE = 2 ^ st.VALUE_BITS
  nan_value : st.NAN_VALUE = 2 ^ st.VALUE_BITS + 1
  signed_value : st.SIGNED_VALUE = 2 ^ (st.VALUE_BITS + 1)
  zero_pos : st.fpconst_zero_pos = some (.bv 0 (st.VALUE_BITS + 2))
  zero_neg : st.fpconst_zero_neg = some (.bv (2 ^ (st.VALUE_BITS + 1)) (st.VALUE_BITS + 2))
  nan : st.fpconst_nan = some (.bv (2 ^ st.VALUE_BITS + 1) (st.VALUE_BITS + 2))
  inf_pos : st.fpconst_inf_pos = some (.bv (2 ^ st.VALUE_BITS) (st.VALUE_BITS + 2))
  inf_neg : st.fpconst_inf_neg =
    some (.bv (2 ^ (st.VALUE_BITS + 1) + 2 ^ st.VALUE_BITS) (st.VALUE_BITS + 2))

/-- What the constant pool satisfies during a session. -/
structure PoolOK (st : State) : Prop where
  keys : ∀ p ∈ st.fpconst_absrepr, p.1.isFiniteNonzero = true
  nodup : (st.fpconst_absrepr.map Prod.fst).Nodup
  count : 2 * st.fpconst_absrepr_num ≤ st.fpconst_absrepr.length
  val : ∀ k e, k.isFiniteNonzero = true → mapFind k st.fpconst_absrepr = some e →
    ∃ a, 1 ≤ a ∧ a < 2 ^ st.VALUE_BITS ∧ (a = 1 ↔ k.abs = Float32.one) ∧
      (a ≠ 1 → a < 2 + st.fpconst_absrepr_num) ∧
      e = encFinite st.VALUE_BITS k.signbit a ∧
      mapFind k.neg st.fpconst_absrepr = some (encFinite st.VALUE_BITS (!k.signbit) a)
  inj : ∀ k k' s s' a, a < 2 ^ st.VALUE_BITS →
    k.isFiniteNonzero = true → k'.isFiniteNonzero = true →
    mapFind k st.fpconst_absrepr = some (encFinite st.VALUE_BITS s a) →
    mapFind k' st.fpconst_absrepr = some (encFinite st.VALUE_BITS s' a) → k.abs = k'.abs

/-- The invariant of a session. -/
structure Inv (st : State) : Prop where
  consts : ConstsOK st
  pool : PoolOK st

/-- The state `setAbstraction` returns for `1 ≤ fpBits ≤ 63`. -/
def sessionStart (st : State) (afd : AbsLevelFpDot) (aid : AbsLevelIntDot) (addAssoc : Bool)
    (v : Nat) : State :=
  { st with
    alFpDot := afd
    alIntDot := aid
    isFpAddAssociative := addAssoc
    usedOps := ⟨false, false, false, false, false, false⟩
    fpconst_absrepr := []
    fpconst_absrepr_num := 0
    VALUE_BITS := v
    FP_BITS := v + 2
    INF_VALUE := 2 ^ v
    NAN_VALUE := 2 ^ v + 1
    SIGNED_VALUE := 2 ^ (v + 1)
    fpconst_nan := some (.bv (2 ^ v + 1) (v + 2))
    fpconst_inf_pos := some (.bv (2 ^ v) (v + 2))
    fpconst_inf_neg := some (.bv (2 ^ (v + 1) + 2 ^ v) (v + 2))
    fpconst_zero_pos := some (.bv 0 (v + 2))
    fpconst_zero_neg := some (.bv (2 ^ (v + 1)) (v + 2))
    staticArrays := [] }

/-- The number of value bits `setAbstraction` configures. -/
def valueBitsOf (fpBits : Nat) : Nat := if fpBits = 1 then 1 else fpBits - 1

/-- The state after `fpConst` has given the magnitude `m` the value field `a`. -/
def allocState (st : State) (m : Float32) (a num : Nat) : State :=
  { st with
    fpconst_absrepr_num := num
    fpconst_absrepr :=
      mapEmplace m.neg (encFinite st.VALUE_BITS true a)
        (mapEmplace m (encFinite st.VALUE_BITS false a) st.fpconst_absrepr) }

/-- The encoding of a float that is not finite nonzero. -/
def reservedEnc (v : Nat) (f : Float32) : Expr :=
  if f.isnan then .bv (2 ^ v + 1) (v + 2)
  else if f.isinf then .bv ((if f.signbit then 2 ^ (v + 1) else 0) + 2 ^ v) (v + 2)
  else .bv (if f.signbit then 2 ^ (v + 1) else 0) (v + 2)

/-- The later state has the same configuration and knows every constant the
earlier one knows, with the same encoding. -/
structure Extends (st st' : State) : Prop where
  value_bits : st'.VALUE_BITS = st.VALUE_BITS
  find : ∀ k e, k.isFiniteNonzero = true → mapFind k st.fpconst_absrepr = some e →
    mapFind k st'.fpconst_absrepr = some e

/-- The declaration `fpAdd` applies: the cached one, or a new one. -/
def fpAddDecl (st : State) (f1 : Expr) : FnDecl :=
  emplaceIfEmpty st.fp_addfn ⟨[f1.sort, f1.sort], .bv (1 + st.VALUE_BITS), "fp_add"⟩

/-- The term `fpAdd` returns in a session with `v` value bits, `d` being the
declaration of `fp_add`. -/
def fpAddTerm (v : Nat) (d : FnDecl) (f1 f2 : Expr) : Expr :=
  let fp_zero : Expr := .bv 0 (v + 2)
  let fp_id : Expr := .bv (2 ^ (v + 1)) (v + 2)
  let fp_inf_pos : Expr := .bv (2 ^ v) (v + 2)
  let fp_inf_neg : Expr := .bv (2 ^ (v + 1) + 2 ^ v) (v + 2)
  let fp_nan : Expr := .bv (2 ^ v + 1) (v + 2)
  let bv_true : Expr := .bv 1 1
  let bv_false : Expr := .bv 0 1
  let fp_add_res := Expr.add (.app2 d f1 f2) (.app2 d f2 f1)
  let fp_add_sign := fp_add_res.getMSB
  let fp_add_value := fp_add_res.extract (v - 1) 0
  .ite (.eq f1 fp_id) f2
  (.ite (.eq f2 fp_id) f1
  (.ite (.eq f1 fp_nan) f1
  (.ite (.eq f2 fp_nan) f2
  (.ite (.or (.and (.eq f1 fp_inf_pos) (.eq f2 fp_inf_neg))
             (.and (.eq f1 fp_inf_neg) (.eq f2 fp_inf_pos))) fp_nan
  (.ite (.or (.eq f1 fp_inf_pos) (.eq f1 fp_inf_neg)) f1
  (.ite (.or (.eq f2 fp_inf_pos) (.eq f2 fp_inf_neg)) f2
  (.ite (.and (.eq f1.getMSB bv_false) (.eq f2.getMSB bv_false))
    (bv_false.concat (fp_add_value.zext 1))
  (.ite (.and (.eq f1.getMSB bv_true) (.eq f2.getMSB bv_true))
    (bv_true.concat (fp_add_value.zext 1))
  (.ite (.eq (f1.extract (v - 1) 0) (f2.extract (v - 1) 0))
    fp_zero
    (fp_add_sign.concat (fp_add_value.zext 1)))))))))))

/-- The state `fpAdd` leaves. -/
def fpAddState (st : State) (f1 : Expr) : State :=
  { st with
    usedOps := { st.usedOps with fpAdd := true }
    fp_addfn := some (fpAddDecl st f1) }

/-- The declaration `fpMul` applies: the cached one, or a new one. -/
def fpMulDecl (st : State) (f1 : Expr) : FnDecl :=
  emplaceIfEmpty st.fp_mulfn ⟨[f1.sort, f1.sort], .bv st.FP_BITS, "fp_mul"⟩

/-- The term `fpMul` returns in a session with `v` value bits, `d` being the
declaration of `fp_mul`. -/
def fpMulTerm (v : Nat) (d : FnDecl) (f1 f2 : Expr) : Expr :=
  let fp_id : Expr := .bv 1 (v + 2)
  .ite (.eq f1 fp_id) f2 (.ite (.eq f2 fp_id) f1 (.add (.app2 d f1 f2) (.app2 d f2 f1)))

/-- The state `fpMul` passes to `Float(1.0)`. -/
def fpMulState (st : State) (f1 : Expr) : State :=
  { st with
    usedOps := { st.usedOps with fpMul := true }
    fp_mulfn := some (fpMulDecl st f1) }

/-- The two states agree on the widths, the reserved constants and the pool. -/
structure SameCore (st st' : State) : Prop where
  zero_pos : st'.fpconst_zero_pos = st.fpconst_zero_pos
  zero_neg : st'.fpconst_zero_neg = st.fpconst_zero_neg
  nan : st'.fpconst_nan = st.fpconst_nan
  inf_pos : st'.fpconst_inf_pos = st.fpconst_inf_pos
  inf_neg : st'.fpconst_inf_neg = st.fpconst_inf_neg
  absrepr : st'.fpconst_absrepr = st.fpconst_absrepr
  num : st'.fpconst_absrepr_num = st.fpconst_absrepr_num
  value_bits : st'.VALUE_BITS = st.VALUE_BITS
  fp_bits : st'.FP_BITS = st.FP_BITS
  inf_value : st'.INF_VALUE = st.INF_VALUE
  nan_value : st'.NAN_VALUE = st.NAN_VALUE
  signed_value : st'.SIGNED_VALUE = st.SIGNED_VALUE

/-- One call of the interface, made in state `st` and leaving state `st'`. -/
inductive Step : State → State → Prop where
  | fpConst {st st' : State} {f : Float32} {e : Expr} :
      fpConst st f = .ok (e, st') → Step st st'
  | fpAdd {st st' : State} {f1 f2 e : Expr} :
      fpAdd st f1 f2 = .ok (e, st') → Step st st'
  | fpMul {st st' : State} {f1 f2 e : Expr} :
      fpMul st f1 f2 = .ok (e, st') → Step st st'
  | fpSum {st st' : State} {ib fuel : Nat} {a n e : Expr} :
      fpSum ib fuel st a n = .ok (e, st') → Step st st'
  | fpDot {st st' : State} {ib fuel : Nat} {a b n e : Expr} :
      fpDot ib fuel st a b n = .ok (e, st') → Step st st'
  | intSum {st st' : State} {ib : Nat} {a n e : Expr} :
      intSum ib st a n = .ok (e, st') → Step st st'
  | intDot {st st' : State} {ib : Nat} {a b n e : Expr} :
      intDot ib st a b n = .ok (e, st') → Step st st'
  | setEncodingOptions {st : State} {use_multiset : Bool} :
      Step st (setEncodingOptions st use_multiset)
  | getFpAssociativePrecondition {st st' : State} {ib fuel : Nat} {e : Expr} :
      getFpAssociativePrecondition ib fuel st = .ok (e, st') → Step st st'

/-- The state `st'` is reached from `st` by calls of the interface other than
`setAbstraction`. -/
inductive Later : State → State → Prop where
  | refl (st : State) : Later st st
  | step {st st' st'' : State} : Later st st' → Step st' st'' → Later st st''

/-- The states of a session: `setAbstraction` has returned, and any calls of
the interface other than `setAbstraction` have followed. -/
inductive Session : State → Prop where
  | start {st0 st : State} {afd : AbsLevelFpDot} {aid : AbsLevelIntDot} {addAssoc : Bool}
      {fpBits : Nat} : fpBits < U32 →
      setAbstraction st0 afd aid addAssoc fpBits = .ok st → Session st
  | step {st st' : State} : Session st → Step st st' → Session st'

/-- The value of the symmetrised application `d(f1, f2) + d(f2, f1)`. -/
def symApp (I : Interp) (d : FnDecl) (x y : Val) : BV :=
  BV.add (Val.cast d.range (I.fn d.name [x, y])).toBV
    (Val.cast d.range (I.fn d.name [y, x])).toBV

/-- The value of the term `fpAdd` returns, from the values `x`, `y` of its
operands and the value `r` of `fp_add(f1, f2) + fp_add(f2, f1)`. -/
def fpAddVal (v : Nat) (r : BV) (x y : Val) : Val :=
  if x.beq (.bv ⟨v + 2, 2 ^ (v + 1)⟩) then y
  else if y.beq (.bv ⟨v + 2, 2 ^ (v + 1)⟩) then x
  else if x.beq (.bv ⟨v + 2, 2 ^ v + 1⟩) then x
  else if y.beq (.bv ⟨v + 2, 2 ^ v + 1⟩) then y
  else if (x.beq (.bv ⟨v + 2, 2 ^ v⟩) && y.beq (.bv ⟨v + 2, 2 ^ (v + 1) + 2 ^ v⟩)) ||
      (x.beq (.bv ⟨v + 2, 2 ^ (v + 1) + 2 ^ v⟩) && y.beq (.bv ⟨v + 2, 2 ^ v⟩)) then
    .bv ⟨v + 2, 2 ^ v + 1⟩
  else if x.beq (.bv ⟨v + 2, 2 ^ v⟩) || x.beq (.bv ⟨v + 2, 2 ^ (v + 1) + 2 ^ v⟩) then x
  else if y.beq (.bv ⟨v + 2, 2 ^ v⟩) || y.beq (.bv ⟨v + 2, 2 ^ (v + 1) + 2 ^ v⟩) then y
  else if decide (BV.getMSB x.toBV = ⟨1, 0⟩) && decide (BV.getMSB y.toBV = ⟨1, 0⟩) then
    .bv (BV.concat ⟨1, 0⟩ (BV.zext 1 (BV.extract (v - 1) 0 r)))
  else if decide (BV.getMSB x.toBV = ⟨1, 1⟩) && decide (BV.getMSB y.toBV = ⟨1, 1⟩) then
    .bv (BV.concat ⟨1, 1⟩ (BV.zext 1 (BV.extract (v - 1) 0 r)))
  else if decide (BV.extract (v - 1) 0 x.toBV = BV.extract (v - 1) 0 y.toBV) then
    .bv ⟨v + 2, 0⟩
  else .bv (BV.concat (BV.getMSB r) (BV.zext 1 (BV.extract (v - 1) 0 r)))

/-- The value of the term `fpMul` returns. -/
def fpMulVal (v : Nat) (r : BV) (x y : Val) : Val :=
  if x.beq (.bv ⟨v + 2, 1⟩) then y
  else if y.beq (.bv ⟨v + 2, 1⟩) then x
  else .bv r

/-- The five reserved encodings of a state: `+0`, `-0`, `+inf`, `-inf`, `NaN`. -/
def reservedEncodings (st : State) : List (Option Expr) :=
  [st.fpconst_zero_pos, st.fpconst_zero_neg, st.fpconst_inf_pos, st.fpconst_inf_neg,
    st.fpconst_nan]

/-- The five reserved encodings are set and pairwise distinct. -/
def ReservedDistinct (st : State) : Prop :=
  (∀ o ∈ reservedEncodings st, o.isSome = true) ∧ (reservedEncodings st).Nodup

/-- The value of a numeral (0 for a term that is not a numeral). -/
def Expr.numeralVal : Expr → Nat
  | .bv val _ => val
  | _ => 0

/-- The width of a numeral (0 for a term that is not a numeral). -/
def Expr.numeralWidth : Expr → Nat
  | .bv _ width => width
  | _ => 0

/-- The most significant bit of a numeral. -/
def Expr.msb (e : Expr) : Nat := e.numeralVal / 2 ^ (e.numeralWidth - 1) % 2

/-- The numeral with its most significant bit flipped and every other bit kept. -/
def flipMSB : Expr → Expr
  | .bv val width =>
    if val / 2 ^ (width - 1) % 2 = 1 then .bv (val - 2 ^ (width - 1)) width
    else .bv (val + 2 ^ (width - 1)) width
  | e => e

/-- The type bit (bit `v`) of a numeral, for `v` value bits. -/
def typeBit (v : Nat) (e : Expr) : Nat := e.numeralVal / 2 ^ v % 2

/-- The value field (bits `v-1..0`) of a numeral, for `v` value bits. -/
def valueField (v : Nat) (e : Expr) : Nat := e.numeralVal % 2 ^ v

/-- A float that is finite: neither a NaN nor an infinity. -/
def Float32.isFinite (f : Float32) : Bool := !f.isnan && !f.isinf

/-- The float `2.0f`. -/
def Float32.two : Float32 := ⟨1073741824, by decide⟩

/-- The float `3.0f`. -/
def Float32.three : Float32 := ⟨1077936128, by decide⟩

/-- The state after `setAbstraction(SUM_MUL, SUM_MUL, false, 8)` at program start. -/
def session8 : State := sessionStart State.init .SUM_MUL .SUM_MUL false 7

/-- The state after `setAbstraction(SUM_MUL, SUM_MUL, false, 3)` at program start. -/
def session3 : State := sessionStart State.init .SUM_MUL .SUM_MUL false 2

/-- The call `fpAdd(f1, f2)` made in state `st` returns a term whose value,
under `I` and `env`, is `val`. -/
def AddGives (st : State) (I : Interp) (env : String → Nat) (f1 f2 : Expr) (val : Val) : Prop :=
  ∃ e st', fpAdd st f1 f2 = .ok (e, st') ∧ eval I e env = val

/-- The call `fpMul(f1, f2)` made in state `st` returns a term whose value,
under `I` and `env`, is `val`. -/
def MulGives (st : State) (I : Interp) (env : String → Nat) (f1 f2 : Expr) (val : Val) : Prop :=
  ∃ e st', fpMul st f1 f2 = .ok (e, st') ∧ eval I e env = val

/-- The value is none of `-0`, `NaN`, `+inf`, `-inf` for `v` value bits. -/
def NotSpecial (v : Nat) (x : Val) : Prop :=
  x ≠ .bv ⟨v + 2, 2 ^ (v + 1)⟩ ∧ x ≠ .bv ⟨v + 2, 2 ^ v + 1⟩ ∧
  x ≠ .bv ⟨v + 2, 2 ^ v⟩ ∧ x ≠ .bv ⟨v + 2, 2 ^ (v + 1) + 2 ^ v⟩

/-- A sample interpretation: every symbol is the bit-vector 5 of width 9,
every uninterpreted function returns 3. -/
def sampleInterp : Interp := ⟨fun _ => .bv ⟨9, 5⟩, fun _ _ => .bv ⟨9, 3⟩⟩

/-- A sample environment: every bound variable is 0. -/
def sampleEnv : String → Nat := fun _ => 0

/-- A symbolic floating-point operand for 7 value bits. -/
def sampleX : Expr := .var "x" (.bv 9)

/-- The two calls end the same way, and when they return, the terms they
return have the same value under `I` and `env`. -/
def SameValue (I : Interp) (env : String → Nat) :
    Outcome (Expr × State) → Outcome (Expr × State) → Prop
  | .ok (e1, _), .ok (e2, _) => eval I e1 env = eval I e2 env
  | .assertFail, .assertFail => True
  | .undefined, .undefined => True
  | .outOfFuel, .outOfFuel => True
  | _, _ => False

/-- The masked operand `λ idx. ite (idx <u n) a[idx] zero` of a reduction. -/
def maskedLambda (ib : Nat) (a n zero : Expr) : Expr :=
  Expr.mkLambda (Index.var ib "idx")
    (Expr.mkIte (.ult (Index.var ib "idx") n) (Expr.select a (Index.var ib "idx")) zero)

/-- The terms `a` and `b` denote arrays whose elements have the same width. -/
def SameElemWidth (I : Interp) (a b : Expr) : Prop :=
  ∀ (env : String → Nat) (k : Nat),
    ((eval I a env).toArr k).width = ((eval I b env).toArr k).width

/-- A second symbolic floating-point operand for 7 value bits. -/
def sampleY : Expr := .var "y" (.bv 9)

/-- A symbolic array of floats for 7 value bits, indexed by 32-bit indices. -/
def sampleA : Expr := .var "a" (.array (.bv 32) (.bv 9))

/-- A second symbolic array of floats. -/
def sampleB : Expr := .var "b" (.array (.bv 32) (.bv 9))

/-- A symbolic length. -/
def sampleN : Expr := .var "n" (.bv 32)

/-- The float `fpPossibleConsts` reports for an encoded `f`: `f` itself, or
`nanf("0")` when `f` is a NaN. -/
def reported (f : Float32) : Float32 := if f.isnan then Float32.nan else f

/-- The five reserved encodings for `v` value bits. -/
def isReservedEnc (v : Nat) (e : Expr) : Prop :=
  e = .bv 0 (v + 2) ∨ e = .bv (2 ^ (v + 1)) (v + 2) ∨ e = .bv (2 ^ v) (v + 2) ∨
  e = .bv (2 ^ (v + 1) + 2 ^ v) (v + 2) ∨ e = .bv (2 ^ v + 1) (v + 2)

/-- The reserved part of the answer of `fpPossibleConsts`, for `v` value bits. -/
def reservedFloats (v : Nat) (e : Expr) : List Float32 :=
  if Expr.bv (2 ^ v + 1) (v + 2) = e then [Float32.nan]
  else if Expr.bv 0 (v + 2) = e then [Float32.zero]
  else if Expr.bv (2 ^ (v + 1)) (v + 2) = e then [Float32.negZero]
  else if Expr.bv (2 ^ v) (v + 2) = e then [Float32.inf]
  else if Expr.bv (2 ^ (v + 1) + 2 ^ v) (v + 2) = e then [Float32.negInf]
  else []

/-- The state after `setAbstraction(SUM_MUL, SUM_MUL, false, 2)` at program
start: one value bit. -/
def session2 : State := sessionStart State.init .SUM_MUL .SUM_MUL false 1

/-- The declaration `fpSum` applies outside multiset mode: the cached one, or
a new one. -/
def fpSumDecl (st : State) (a : Expr) : FnDecl :=
  emplaceIfEmpty st.fp_sumfn ⟨[a.sort], fpSort st, "fp_sum"⟩

/-- The term `fpSum` returns outside multiset mode. -/
def fpSumTerm (ib : Nat) (st : State) (a n : Expr) : Expr :=
  (fpSumDecl st a).apply1 (maskedLambda ib a n (mkZeroElemFromArr ib a))

/-- The state `fpSum` leaves outside multiset mode. -/
def fpSumState (ib : Nat) (st : State) (a n : Expr) : State :=
  { st with
    usedOps := { st.usedOps with fpSum := true }
    fp_sumfn := some (fpSumDecl st a)
    staticArrays :=
      if st.isFpAddAssociative && n.isNumeral then
        st.staticArrays ++ [(a, n, fpSumTerm ib st a n)]
      else st.staticArrays }

/-- The declaration `intSum` applies for the bit width `w`: the cached one, or
a new one. -/
def intSumDecl (st : State) (w : Nat) : FnDecl :=
  match widthFind w st.int_sumfn with
  | some d => d
  | none => ⟨[.bv w], .bv w, "int_sum" ++ toString w⟩

/-- The term `intSum` returns. -/
def intSumTerm (ib : Nat) (st : State) (a n : Expr) : Expr :=
  (intSumDecl st a.sort.bitwidth).apply1 (maskedLambda ib a n (mkZeroElemFromArr ib a))

/-- The state `intSum` leaves. -/
def intSumState (st : State) (a : Expr) : State :=
  { st with
    usedOps := { st.usedOps with intSum := true }
    int_sumfn :=
      match widthFind a.sort.bitwidth st.int_sumfn with
      | some _ => st.int_sumfn
      | none => st.int_sumfn ++
          [(a.sort.bitwidth, ⟨[.bv a.sort.bitwidth], .bv a.sort.bitwidth,
            "int_sum" ++ toString a.sort.bitwidth⟩)] }

/-- The state after `setAbstraction(SUM_MUL, SUM_MUL, true, 8)` at program
start followed by `setEncodingOptions(true)`: multiset mode. -/
def sessionMultiset : State :=
  setEncodingOptions (sessionStart State.init .SUM_MUL .SUM_MUL true 7) true

/-- The pairs `(l[i], l[j])` with `i < j` of a list, each once, ordered by `i`
and then by `j`. -/
def orderedPairs {α : Type} : List α → List (α × α)
  | [] => []
  | x :: rest => rest.map (fun y => (x, y)) ++ orderedPairs rest

/-- The lengths recorded in two registry entries are equal numeric literals
(each fits 64 bits, as `isUInt` requires). -/
def equalLiteralLengths (x y : Expr × Expr × Expr) : Bool :=
  match x.2.1.isUInt, y.2.1.isUInt with
  | some alen, some blen => decide (alen = blen)
  | _, _ => false

/-- The formula `bag_i == bag_j ⇒ sum_i == sum_j` of a pair of registry entries. -/
def bagConjunct (p : (Expr × Expr × Expr) × (Expr × Expr × Expr)) : Expr :=
  Expr.implies (.eq p.1.1 p.2.1) (.eq p.1.2.2 p.2.2.2)

/-- The conjunction of a list of formulas, built from `true` with `&`. -/
def conjunction (cs : List Expr) : Expr := cs.foldl Expr.and (Expr.mkBool true)

/-- The precondition of multiset mode as the specification words it: the
conjunction, over the registry pairs `i < j` whose lengths are equal numeric
literals, of `bag_i == bag_j ⇒ sum_i == sum_j`. -/
def multisetPreconditionSpec (regs : List (Expr × Expr × Expr)) : Expr :=
  conjunction (((orderedPairs regs).filter (fun p => equalLiteralLengths p.1 p.2)).map bagConjunct)

/-- The registry after `fpSum(a, 3)` and `fpSum(b, 3)` in multiset mode. -/
def sampleBagRegistry : List (Expr × Expr × Expr) :=
  let bag (x : Expr) : Expr :=
    .insert (.insert (.insert (.emptyBag (.bv 9)) (.select x (.bv 0 32)))
      (.select x (.bv 1 32))) (.select x (.bv 2 32))
  let d : FnDecl := ⟨[.bag (.bv 9)], .bv 9, "fp_assoc_sum"⟩
  [(bag sampleA, .bv 3 32, .app1 d (bag sampleA)), (bag sampleB, .bv 3 32, .app1 d (bag sampleB))]

/-- The declarations of the reductions that a state caches are the ones the
source creates: `fp_sum`, `fp_assoc_sum`, and `int_sum<w>` under the width `w`. -/
structure DeclsOK (st : State) : Prop where
  fp_sum : ∀ d, st.fp_sumfn = some d → d.name = "fp_sum"
  fp_assoc_sum : ∀ d, st.fp_assoc_sumfn = some d → d.name = "fp_assoc_sum"
  int_sum : ∀ w d, widthFind w st.int_sumfn = some d →
    d = ⟨[.bv w], .bv w, "int_sum" ++ toString w⟩

/-- Every declaration of a reduction cached in `st` is still cached in `st'`. -/
structure KeepsDecls (st st' : State) : Prop where
  fp_sum : ∀ d, st.fp_sumfn = some d → st'.fp_sumfn = some d
  fp_assoc_sum : ∀ d, st.fp_assoc_sumfn = some d → st'.fp_assoc_sumfn = some d
  int_sum : ∀ w d, widthFind w st.int_sumfn = some d → widthFind w st'.int_sumfn = some d

/-- The two states cache the same declarations of the reductions. -/
structure SameDecls (st st' : State) : Prop where
  fp_sum : st'.fp_sumfn = st.fp_sumfn
  fp_assoc_sum : st'.fp_assoc_sumfn = st.fp_assoc_sumfn
  int_sum : st'.int_sumfn = st.int_sumfn

/-- The states of a program that begins with a returning `setAbstraction`:
those after that call, after any further calls of the interface, and after
further calls of `setAbstraction`. -/
inductive Started : State → Prop where
  | first {st : State} {afd : AbsLevelFpDot} {aid : AbsLevelIntDot} {addAssoc : Bool}
      {fpBits : Nat} : fpBits < U32 →
      setAbstraction State.init afd aid addAssoc fpBits = .ok st → Started st
  | again {st0 st : State} {afd : AbsLevelFpDot} {aid : AbsLevelIntDot} {addAssoc : Bool}
      {fpBits : Nat} : Started st0 → fpBits < U32 →
      setAbstraction st0 afd aid addAssoc fpBits = .ok st → Started st
  | step {st st' : State} : Started st → Step st st' → Started st'

/-- The term `λ idx. ite (idx <u n) a[idx] 0`, the zero having the width of
the elements of `a` (the width of the sort of `a[0]`). -/
def maskedArg (ib : Nat) (a n : Expr) : Expr :=
  .lambda (.bound "idx" (.bv ib))
    (.ite (.ult (.bound "idx" (.bv ib)) n) (.select a (.bound "idx" (.bv ib)))
      (.bv 0 (Expr.select a (.bv 0 ib)).sort.bitwidth))

/-- The arrays `a` and `b` have the same element at every index below `n`
(unsigned), under `I`; `env` gives the other bound variables. -/
def AgreeBelow (I : Interp) (env : String → Nat) (a b n : Expr) : Prop :=
  ∀ k : Nat, k < (eval I n (Function.update env "idx" k)).toBV.val →
    (eval I a (Function.update env "idx" k)).toArr k
      = (eval I b (Function.update env "idx" k)).toArr k

/-- The multiset of the values of `a[0], ..., a[len - 1]` under `I` and `env`. -/
def elems (I : Interp) (env : String → Nat) (ib : Nat) (a : Expr) (len : Nat) : Multiset BV :=
  Multiset.ofList ((List.range len).map fun k => (eval I (.select a (Index ib k)) env).toBV)

/-- The bag term the loop of `fpMultisetSum` builds from `bag` by inserting
`a[k]` for the indices `k` of the list, in order. -/
def insertAll (ib : Nat) (a : Expr) (ks : List Nat) (bag : Expr) : Expr :=
  ks.foldl (fun bag k => Expr.insert bag (Expr.select a (Index ib k))) bag

/-- The bag term `fpMultisetSum` builds for an array `a` of literal length `len`. -/
def bagTerm (ib : Nat) (st : State) (a : Expr) (len : Nat) : Expr :=
  insertAll ib a (List.range' 0 len) (Expr.mkEmptyBag (fpSort st))

/-- The declaration `fpMultisetSum` applies: the cached one, or a new one. -/
def assocDecl (st : State) : FnDecl :=
  emplaceIfEmpty st.fp_assoc_sumfn ⟨[.bag (fpSort st)], fpSort st, "fp_assoc_sum"⟩

/-- The state `fpSum` leaves in multiset mode for a literal length. -/
def assocState (ib : Nat) (st : State) (a n : Expr) (len : Nat) : State :=
  { st with
    usedOps := { st.usedOps with fpSum := true }
    fp_assoc_sumfn := some (assocDecl st)
    staticArrays := st.staticArrays ++
      [(bagTerm ib st a len, n, .app1 (assocDecl st) (bagTerm ib st a len))] }

namespace Float32

theorem eq_of_bits {a b : Float32} (h : a.bits = b.bits) : a = b := by
  cases a; cases b; simp_all

theorem finiteNonzero_iff (f : Float32) :
    f.isFiniteNonzero = true ↔ 0 < f.bits % 2147483648 ∧ f.bits % 2147483648 < 2139095040 := by
  simp only [isFiniteNonzero, isnan, isinf, isZero, magnitude, Bool.and_eq_true,
    Bool.not_eq_true', decide_eq_false_iff_not, decide_eq_true_eq]
  omega

theorem key_eq (f : Float32) :
    f.key = if 2147483648 ≤ f.bits then - ((f.bits % 2147483648 : Nat) : Int)
      else ((f.bits % 2147483648 : Nat) : Int) := by
  simp [key, signbit, magnitude]

theorem lt_eq_of_finite {a b : Float32} (ha : a.isFiniteNonzero = true)
    (hb : b.isFiniteNonzero = true) : Float32.lt a b = decide (a.key < b.key) := by
  rw [finiteNonzero_iff] at ha hb
  have h1 : a.isnan = false := by simp [isnan, magnitude]; omega
  have h2 : b.isnan = false := by simp [isnan, magnitude]; omega
  simp [Float32.lt, h1, h2]

theorem key_inj {a b : Float32} (ha : a.isFiniteNonzero = true)
    (hb : b.isFiniteNonzero = true) (h : a.key = b.key) : a = b := by
  rw [finiteNonzero_iff] at ha hb
  apply eq_of_bits
  have h3 := a.isLt
  have h4 := b.isLt
  rw [key_eq, key_eq] at h
  split_ifs at h <;> omega

theorem equiv_iff {a b : Float32} (ha : a.isFiniteNonzero = true)
    (hb : b.isFiniteNonzero = true) :
    (!Float32.lt a b && !Float32.lt b a) = true ↔ a = b := by
  rw [lt_eq_of_finite ha hb, lt_eq_of_finite hb ha]
  constructor
  · intro h
    simp only [Bool.and_eq_true, Bool.not_eq_true', decide_eq_false_iff_not] at h
    exact key_inj ha hb (by omega)
  · rintro rfl
    simp

theorem neg_neg (f : Float32) : f.neg.neg = f := by
  apply eq_of_bits
  have := f.isLt
  simp only [neg]
  omega

theorem neg_finiteNonzero {f : Float32} (h : f.isFiniteNonzero = true) :
    f.neg.isFiniteNonzero = true := by
  rw [finiteNonzero_iff] at *
  have := f.isLt
  simp only [neg]
  omega

theorem abs_finiteNonzero {f : Float32} (h : f.isFiniteNonzero = true) :
    f.abs.isFiniteNonzero = true := by
  rw [finiteNonzero_iff] at *
  have := f.isLt
  simp only [abs, magnitude]
  omega

theorem signbit_abs (f : Float32) : f.abs.signbit = false := by
  simp [signbit, abs, magnitude]
  omega

theorem signbit_neg (f : Float32) : f.neg.signbit = !f.signbit := by
  have := f.isLt
  by_cases h : 2147483648 ≤ f.bits
  · have : ¬ (2147483648 ≤ (f.bits + 2147483648) % 4294967296) := by omega
    simp [signbit, neg, h, this]
  · have : (2147483648 ≤ (f.bits + 2147483648) % 4294967296) := by omega
    simp [signbit, neg, h, this]

theorem abs_neg (f : Float32) : f.neg.abs = f.abs := by
  apply eq_of_bits
  have := f.isLt
  simp only [neg, abs, magnitude]
  omega

theorem abs_abs (f : Float32) : f.abs.abs = f.abs := by
  apply eq_of_bits
  simp only [abs, magnitude]
  omega

theorem eq_abs_of_pos {f : Float32} (h : f.signbit = false) : f.abs = f := by
  apply eq_of_bits
  simp only [signbit, decide_eq_false_iff_not] at h
  simp only [abs, magnitude]
  omega

theorem eq_neg_abs_of_neg {f : Float32} (h : f.signbit = true) : f.abs.neg = f := by
  apply eq_of_bits
  have := f.isLt
  simp only [signbit, decide_eq_true_eq] at h
  simp only [abs, magnitude, neg]
  omega

theorem neg_ne (f : Float32) : f.neg ≠ f := by
  intro h
  have h2 := congrArg Float32.bits h
  have := f.isLt
  simp only [neg] at h2
  omega

theorem isnan_of_finiteNonzero {f : Float32} (h : f.isFiniteNonzero = true) :
    f.isnan = false := by
  rw [finiteNonzero_iff] at h
  simp [isnan, magnitude]; omega

theorem isinf_of_finiteNonzero {f : Float32} (h : f.isFiniteNonzero = true) :
    f.isinf = false := by
  rw [finiteNonzero_iff] at h
  simp [isinf, magnitude]; omega

theorem feq_zero_of_finiteNonzero {f : Float32} (h : f.isFiniteNonzero = true) :
    Float32.feq f Float32.zero = false := by
  have hn := isnan_of_finiteNonzero h
  rw [finiteNonzero_iff] at h
  have hz : zero.isnan = false := by decide
  have hk : zero.key = 0 := by decide
  simp only [feq, hn, hz, hk, Bool.not_false, Bool.true_and, decide_eq_false_iff_not, key_eq]
  split_ifs <;> omega

theorem finiteNonzero_of_not {f : Float32} (h1 : f.isnan = false) (h2 : f.isinf = false)
    (h3 : Float32.feq f Float32.zero = false) : f.isFiniteNonzero = true := by
  rw [finiteNonzero_iff]
  have hz : zero.isnan = false := by decide
  have hk : zero.key = 0 := by decide
  simp only [feq, h1, hz, hk, Bool.not_false, Bool.true_and, decide_eq_false_iff_not, key_eq] at h3
  simp only [isnan, isinf, magnitude, decide_eq_false_iff_not] at h1 h2
  split_ifs at h3 <;> omega

theorem feq_abs_one_iff {f : Float32} (h : f.isFiniteNonzero = true) :
    Float32.feq f.abs Float32.one = true ↔ f.abs = Float32.one := by
  have ha := abs_finiteNonzero h
  have hn := isnan_of_finiteNonzero ha
  have h1 : one.isFiniteNonzero = true := by decide
  have hz : one.isnan = false := by decide
  simp only [feq, hn, hz, Bool.not_false, Bool.true_and, decide_eq_true_eq]
  constructor
  · exact key_inj ha h1
  · intro h; rw [h]

end Float32

/-! ## Facts about the constant pool as a map -/

theorem mapFind_cons {β : Type} (k k' : Float32) (v : β) (l : List (Float32 × β))
    (hk : k.isFiniteNonzero = true) (hk' : k'.isFiniteNonzero = true) :
    mapFind k ((k', v) :: l) = if k = k' then some v else mapFind k l := by
  simp only [mapFind]
  by_cases h : k = k'
  · rw [if_pos ((Float32.equiv_iff hk hk').2 h), if_pos h]
  · rw [if_neg (fun hh => h ((Float32.equiv_iff hk hk').1 hh)), if_neg h]

theorem mapFind_eq_none_iff {β : Type} (k : Float32) (l : List (Float32 × β))
    (hk : k.isFiniteNonzero = true) (hl : ∀ p ∈ l, p.1.isFiniteNonzero = true) :
    mapFind k l = none ↔ k ∉ l.map Prod.fst := by
  induction l with
  | nil => simp [mapFind]
  | cons p rest ih =>
    obtain ⟨k', v⟩ := p
    have hk' : k'.isFiniteNonzero = true := hl (k', v) (List.mem_cons_self _ _)
    have hrest : ∀ p ∈ rest, p.1.isFiniteNonzero = true :=
      fun p hp => hl p (List.mem_cons_of_mem _ hp)
    rw [mapFind_cons k k' v rest hk hk']
    by_cases h : k = k'
    · simp [h]
    · simp only [if_neg h, ih hrest, List.map_cons, List.mem_cons, not_or]
      exact ⟨fun hh => ⟨h, hh⟩, fun hh => hh.2⟩

theorem mapFind_mem {β : Type} (k : Float32) (e : β) (l : List (Float32 × β))
    (hk : k.isFiniteNonzero = true) (hl : ∀ p ∈ l, p.1.isFiniteNonzero = true)
    (h : mapFind k l = some e) : (k, e) ∈ l := by
  induction l with
  | nil => simp [mapFind] at h
  | cons p rest ih =>
    obtain ⟨k', v⟩ := p
    have hk' : k'.isFiniteNonzero = true := hl (k', v) (List.mem_cons_self _ _)
    have hrest : ∀ p ∈ rest, p.1.isFiniteNonzero = true :=
      fun p hp => hl p (List.mem_cons_of_mem _ hp)
    rw [mapFind_cons k k' v rest hk hk'] at h
    by_cases hkk : k = k'
    · rw [if_pos hkk] at h
      cases h
      rw [hkk]
      exact List.mem_cons_self _ _
    · rw [if_neg hkk] at h
      exact List.mem_cons_of_mem _ (ih hrest h)

theorem mapEmplace_perm {β : Type} (k : Float32) (v : β) (l : List (Float32 × β))
    (hk : k.isFiniteNonzero = true) (hl : ∀ p ∈ l, p.1.isFiniteNonzero = true)
    (hnone : mapFind k l = none) : (mapEmplace k v l).Perm ((k, v) :: l) := by
  induction l with
  | nil => simp [mapEmplace]
  | cons p rest ih =>
    obtain ⟨k', v'⟩ := p
    have hk' : k'.isFiniteNonzero = true := hl (k', v') (List.mem_cons_self _ _)
    have hrest : ∀ p ∈ rest, p.1.isFiniteNonzero = true :=
      fun p hp => hl p (List.mem_cons_of_mem _ hp)
    rw [mapFind_cons k k' v' rest hk hk'] at hnone
    have hne : k ≠ k' := by
      intro h; rw [if_pos h] at hnone; cases hnone
    rw [if_neg hne] at hnone
    simp only [mapEmplace]
    by_cases h1 : Float32.lt k k' = true
    · rw [if_pos h1]
    · rw [if_neg h1]
      by_cases h2 : Float32.lt k' k = true
      · rw [if_pos h2]
        exact ((ih hrest hnone).cons (k', v')).trans (List.Perm.swap _ _ _)
      · exfalso
        apply hne
        apply (Float32.equiv_iff hk hk').1
        simp only [Bool.not_eq_true] at h1 h2
        simp [h1, h2]

theorem mapFind_perm {β : Type} (k : Float32) (l l' : List (Float32 × β))
    (hk : k.isFiniteNonzero = true) (hl : ∀ p ∈ l, p.1.isFiniteNonzero = true)
    (hnd : (l.map Prod.fst).Nodup) (hp : l.Perm l') : mapFind k l' = mapFind k l := by
  have hl' : ∀ p ∈ l', p.1.isFiniteNonzero = true := fun p h => hl p (hp.mem_iff.2 h)
  have hnd' : (l'.map Prod.fst).Nodup := (hp.map Prod.fst).nodup_iff.1 hnd
  -- a key has at most one value in a list with distinct keys
  have uniq : ∀ (m : List (Float32 × β)), (m.map Prod.fst).Nodup →
      ∀ a b, (k, a) ∈ m → (k, b) ∈ m → a = b := by
    intro m hm a b ha hb
    induction m with
    | nil => cases ha
    | cons q rest ih =>
      simp only [List.map_cons, List.nodup_cons, List.mem_map, not_exists, not_and] at hm
      rcases List.mem_cons.1 ha with ha | ha <;> rcases List.mem_cons.1 hb with hb | hb
      · rw [← hb] at ha; exact (Prod.mk.inj ha).2
      · exact absurd rfl (by rw [← ha] at hm; exact hm.1 (k, b) hb)
      · exact absurd rfl (by rw [← hb] at hm; exact hm.1 (k, a) ha)
      · exact ih hm.2 ha hb
  cases h : mapFind k l with
  | none =>
    rw [mapFind_eq_none_iff k l hk hl] at h
    rw [mapFind_eq_none_iff k l' hk hl']
    intro hm; exact h ((hp.map Prod.fst).mem_iff.2 hm)
  | some e =>
    have hm := hp.mem_iff.1 (mapFind_mem k e l hk hl h)
    cases h' : mapFind k l' with
    | none =>
      rw [mapFind_eq_none_iff k l' hk hl'] at h'
      exact absurd (List.mem_map_of_mem Prod.fst hm) h'
    | some e' =>
      have hm' := mapFind_mem k e' l' hk hl' h'
      rw [uniq l' hnd' e e' hm hm']

theorem mapFind_emplace {β : Type} (k k' : Float32) (v : β) (l : List (Float32 × β))
    (hk : k.isFiniteNonzero = true) (hk' : k'.isFiniteNonzero = true)
    (hl : ∀ p ∈ l, p.1.isFiniteNonzero = true) (hnone : mapFind k' l = none) :
    mapFind k (mapEmplace k' v l) = if k = k' then some v else mapFind k l := by
  induction l with
  | nil => simp only [mapEmplace]; rw [mapFind_cons k k' v [] hk hk']
  | cons p rest ih =>
    obtain ⟨k'', v''⟩ := p
    have hk'' : k''.isFiniteNonzero = true := hl (k'', v'') (List.mem_cons_self _ _)
    have hrest : ∀ p ∈ rest, p.1.isFiniteNonzero = true :=
      fun p hp => hl p (List.mem_cons_of_mem _ hp)
    rw [mapFind_cons k' k'' v'' rest hk' hk''] at hnone
    have hne : k' ≠ k'' := by
      intro h; rw [if_pos h] at hnone; cases hnone
    rw [if_neg hne] at hnone
    simp only [mapEmplace]
    by_cases h1 : Float32.lt k' k'' = true
    · rw [if_pos h1, mapFind_cons k k' v _ hk hk']
    · rw [if_neg h1]
      by_cases h2 : Float32.lt k'' k' = true
      · rw [if_pos h2, mapFind_cons k k'' v'' _ hk hk'', ih hrest hnone,
          mapFind_cons k k'' v'' _ hk hk'']
        by_cases h3 : k = k''
        · have : k ≠ k' := fun h => hne (h ▸ h3)
          simp [h3, hne.symm]
        · simp [h3]
      · exfalso
        apply hne
        apply (Float32.equiv_iff hk' hk'').1
        simp only [Bool.not_eq_true] at h1 h2
        simp [h1, h2]

theorem mapEmplace_keys {β : Type} (k : Float32) (v : β) (l : List (Float32 × β))
    (hk : k.isFiniteNonzero = true) (hl : ∀ p ∈ l, p.1.isFiniteNonzero = true) :
    ∀ p ∈ mapEmplace k v l, p.1.isFiniteNonzero = true := by
  induction l with
  | nil => intro p hp; simp only [mapEmplace, List.mem_singleton] at hp; rw [hp]; exact hk
  | cons q rest ih =>
    obtain ⟨k', v'⟩ := q
    have hrest : ∀ p ∈ rest, p.1.isFiniteNonzero = true :=
      fun p hp => hl p (List.mem_cons_of_mem _ hp)
    intro p hp
    simp only [mapEmplace] at hp
    split_ifs at hp
    · rcases List.mem_cons.1 hp with h | h
      · rw [h]; exact hk
      · exact hl p h
    · rcases List.mem_cons.1 hp with h | h
      · exact hl p (h ▸ List.mem_cons_self _ _)
      · exact ih hrest p h
    · exact hl p hp

/-! ## The invariant of a session -/

theorem two_pow_succ (v : Nat) : 2 ^ (v + 1) = 2 * 2 ^ v := by
  rw [pow_succ]; ring

theorem two_pow_le_U64 {v : Nat} (h : v ≤ 64) : 2 ^ v ≤ U64 := by
  have : U64 = 2 ^ 64 := by norm_num [U64]
  rw [this]
  exact Nat.pow_le_pow_right (by norm_num) h

theorem two_pow_pos (v : Nat) : 0 < 2 ^ v := Nat.pow_pos (by norm_num)

theorem two_le_two_pow {v : Nat} (h : 1 ≤ v) : 2 ≤ 2 ^ v := by
  calc 2 = 2 ^ 1 := by norm_num
    _ ≤ 2 ^ v := Nat.pow_le_pow_right (by norm_num) h

theorem encFinite_inj {v : Nat} {s s' : Bool} {a a' : Nat} (ha : a < 2 ^ v) (ha' : a' < 2 ^ v)
    (h : encFinite v s a = encFinite v s' a') : s = s' ∧ a = a' := by
  simp only [encFinite, Expr.bv.injEq, and_true] at h
  have hp := two_pow_succ v
  cases s <;> cases s' <;> simp at h ⊢ <;> omega

theorem mkBV_of_lt {val bits : Nat} (h : val < 2 ^ bits) : Expr.mkBV val bits = .bv val bits := by
  simp [Expr.mkBV, Nat.mod_eq_of_lt h]

/-! ### `setAbstraction` -/

theorem updateConstants_ok (st : State) (h1 : 1 ≤ st.VALUE_BITS) (h2 : st.VALUE_BITS ≤ 62) :
    updateConstants st = .ok { st with
      FP_BITS := st.VALUE_BITS + 2
      INF_VALUE := 2 ^ st.VALUE_BITS
      NAN_VALUE := 2 ^ st.VALUE_BITS + 1
      SIGNED_VALUE := 2 ^ (st.VALUE_BITS + 1)
      fpconst_nan := some (.bv (2 ^ st.VALUE_BITS + 1) (st.VALUE_BITS + 2))
      fpconst_inf_pos := some (.bv (2 ^ st.VALUE_BITS) (st.VALUE_BITS + 2))
      fpconst_inf_neg :=
        some (.bv (2 ^ (st.VALUE_BITS + 1) + 2 ^ st.VALUE_BITS) (st.VALUE_BITS + 2))
      fpconst_zero_pos := some (.bv 0 (st.VALUE_BITS + 2))
      fpconst_zero_neg := some (.bv (2 ^ (st.VALUE_BITS + 1)) (st.VALUE_BITS + 2)) } := by
  have e1 : uadd32 (uadd32 SIGN_BITS TYPE_BITS) st.VALUE_BITS = st.VALUE_BITS + 2 := by
    simp only [uadd32, SIGN_BITS, TYPE_BITS, U32]; omega
  have e2 : uadd32 TYPE_BITS st.VALUE_BITS = st.VALUE_BITS + 1 := by
    simp only [uadd32, TYPE_BITS, U32]; omega
  have hp1 := two_pow_succ st.VALUE_BITS
  have hp2 : 2 ^ (st.VALUE_BITS + 2) = 4 * 2 ^ st.VALUE_BITS := by rw [pow_add]; ring
  have hp3 : 2 ^ (st.VALUE_BITS + 2) ≤ U64 := two_pow_le_U64 (by omega)
  have hp4 := two_pow_pos st.VALUE_BITS
  have hp5 := two_le_two_pow h1
  have s1 : shl64 st.VALUE_BITS = .ok (2 ^ st.VALUE_BITS) := by
    simp only [shl64]; rw [if_pos (by omega)]
  have s2 : shl64 (st.VALUE_BITS + 1) = .ok (2 ^ (st.VALUE_BITS + 1)) := by
    simp only [shl64]; rw [if_pos (by omega)]
  have a1 : uadd64 (2 ^ st.VALUE_BITS) 1 = 2 ^ st.VALUE_BITS + 1 := by
    simp only [uadd64]; exact Nat.mod_eq_of_lt (by omega)
  have a2 : uadd64 (2 ^ (st.VALUE_BITS + 1)) (2 ^ st.VALUE_BITS)
      = 2 ^ (st.VALUE_BITS + 1) + 2 ^ st.VALUE_BITS := by
    simp only [uadd64]; exact Nat.mod_eq_of_lt (by omega)
  have a3 : uadd64 (2 ^ (st.VALUE_BITS + 1)) 0 = 2 ^ (st.VALUE_BITS + 1) := by
    simp only [uadd64]; exact Nat.mod_eq_of_lt (by omega)
  have m1 : Expr.mkBV (2 ^ st.VALUE_BITS + 1) (st.VALUE_BITS + 2)
      = .bv (2 ^ st.VALUE_BITS + 1) (st.VALUE_BITS + 2) := mkBV_of_lt (by omega)
  have m2 : Expr.mkBV (2 ^ st.VALUE_BITS) (st.VALUE_BITS + 2)
      = .bv (2 ^ st.VALUE_BITS) (st.VALUE_BITS + 2) := mkBV_of_lt (by omega)
  have m3 : Expr.mkBV (2 ^ (st.VALUE_BITS + 1) + 2 ^ st.VALUE_BITS) (st.VALUE_BITS + 2)
      = .bv (2 ^ (st.VALUE_BITS + 1) + 2 ^ st.VALUE_BITS) (st.VALUE_BITS + 2) :=
    mkBV_of_lt (by omega)
  have m4 : Expr.mkBV 0 (st.VALUE_BITS + 2) = .bv 0 (st.VALUE_BITS + 2) :=
    mkBV_of_lt (by omega)
  have m5 : Expr.mkBV (2 ^ (st.VALUE_BITS + 1)) (st.VALUE_BITS + 2)
      = .bv (2 ^ (st.VALUE_BITS + 1)) (st.VALUE_BITS + 2) := mkBV_of_lt (by omega)
  simp only [updateConstants, updateConstantsWith, e1, e2, s1, s2, Outcome.bind, a1, a2, a3,
    m1, m2, m3, m4, m5]

theorem updateConstants_undefined (st : State) (h1 : st.VALUE_BITS < U32 - 1)
    (h2 : 63 ≤ st.VALUE_BITS) : updateConstants st = .undefined := by
  have e2 : uadd32 TYPE_BITS st.VALUE_BITS = st.VALUE_BITS + 1 := by
    simp only [uadd32, TYPE_BITS, U32] at *; omega
  have s2 : shl64 (st.VALUE_BITS + 1) = .undefined := by
    simp only [shl64]; rw [if_neg (by omega)]
  simp only [updateConstants, updateConstantsWith, e2, s2]
  by_cases h : st.VALUE_BITS < 64
  · simp only [shl64, if_pos h]; rfl
  · simp only [shl64, if_neg h]; rfl

theorem setAbstraction_ok (st : State) (afd : AbsLevelFpDot) (aid : AbsLevelIntDot)
    (addAssoc : Bool) (fpBits : Nat) (h1 : 1 ≤ fpBits) (h2 : fpBits ≤ 63) :
    setAbstraction st afd aid addAssoc fpBits
      = .ok (sessionStart st afd aid addAssoc (valueBitsOf fpBits)) := by
  have hv : (if fpBits = 1 then fpBits else usub32 fpBits 1) = valueBitsOf fpBits := by
    simp only [valueBitsOf, usub32, U32]
    split_ifs <;> omega
  have hv1 : 1 ≤ valueBitsOf fpBits := by simp only [valueBitsOf]; split_ifs <;> omega
  have hv2 : valueBitsOf fpBits ≤ 62 := by simp only [valueBitsOf]; split_ifs <;> omega
  simp only [setAbstraction, setAbstractionWith, gt_iff_lt, not_lt, Nat.le_zero]
  rw [if_neg (by omega), hv]
  have := updateConstants_ok { st with
    alFpDot := afd
    alIntDot := aid
    isFpAddAssociative := addAssoc
    usedOps := ⟨false, false, false, false, false, false⟩
    fpconst_absrepr := []
    fpconst_absrepr_num := 0
    VALUE_BITS := valueBitsOf fpBits } hv1 hv2
  simp only [updateConstants] at this
  rw [this]
  rfl

theorem setAbstraction_zero (st : State) (afd : AbsLevelFpDot) (aid : AbsLevelIntDot)
    (addAssoc : Bool) : setAbstraction st afd aid addAssoc 0 = .assertFail := by
  simp [setAbstraction, setAbstractionWith]

theorem setAbstraction_large (st : State) (afd : AbsLevelFpDot) (aid : AbsLevelIntDot)
    (addAssoc : Bool) (fpBits : Nat) (h1 : 64 ≤ fpBits) (h2 : fpBits < U32) :
    setAbstraction st afd aid addAssoc fpBits = .undefined := by
  have hv : (if fpBits = 1 then fpBits else usub32 fpBits 1) = fpBits - 1 := by
    simp only [usub32, U32] at *
    split_ifs <;> omega
  simp only [setAbstraction, setAbstractionWith, gt_iff_lt, not_lt, Nat.le_zero]
  rw [if_neg (by omega), hv]
  have := updateConstants_undefined { st with
    alFpDot := afd
    alIntDot := aid
    isFpAddAssociative := addAssoc
    usedOps := ⟨false, false, false, false, false, false⟩
    fpconst_absrepr := []
    fpconst_absrepr_num := 0
    VALUE_BITS := fpBits - 1 } (by simp only [U32] at *; omega) (by simp only []; omega)
  simp only [updateConstants] at this
  rw [this]
  rfl

theorem setAbstraction_eq_ok_iff (st st' : State) (afd : AbsLevelFpDot) (aid : AbsLevelIntDot)
    (addAssoc : Bool) (fpBits : Nat) (h : fpBits < U32) :
    setAbstraction st afd aid addAssoc fpBits = .ok st' ↔
      1 ≤ fpBits ∧ fpBits ≤ 63 ∧ st' = sessionStart st afd aid addAssoc (valueBitsOf fpBits) := by
  constructor
  · intro hr
    rcases Nat.lt_or_ge fpBits 1 with h0 | h0
    · have : fpBits = 0 := by omega
      subst this
      rw [setAbstraction_zero] at hr
      cases hr
    · rcases Nat.lt_or_ge fpBits 64 with h1 | h1
      · rw [setAbstraction_ok st afd aid addAssoc fpBits h0 (by omega)] at hr
        cases hr
        exact ⟨h0, by omega, rfl⟩
      · rw [setAbstraction_large st afd aid addAssoc fpBits h1 h] at hr
        cases hr
  · rintro ⟨h1, h2, rfl⟩
    exact setAbstraction_ok st afd aid addAssoc fpBits h1 h2

theorem sessionStart_inv (st : State) (afd : AbsLevelFpDot) (aid : AbsLevelIntDot)
    (addAssoc : Bool) (v : Nat) (h1 : 1 ≤ v) (h2 : v ≤ 62) :
    Inv (sessionStart st afd aid addAssoc v) := by
  constructor
  · constructor <;> first | assumption | rfl
  · constructor
    · intro p hp; cases hp
    · exact List.nodup_nil
    · simp [sessionStart]
    · intro k e _ h; simp [sessionStart, mapFind] at h
    · intro k k' s s' a _ _ _ h; simp [sessionStart, mapFind] at h

/-! ### `fpConst` on the reserved values -/

theorem fpConst_nan (st : State) (f : Float32) (h : ConstsOK st) (hf : f.isnan = true) :
    fpConst st f = .ok (.bv (2 ^ st.VALUE_BITS + 1) (st.VALUE_BITS + 2), st) := by
  simp only [fpConst, hf, if_true, h.nan, deref, Outcome.bind]

theorem fpConst_inf (st : State) (f : Float32) (h : ConstsOK st) (hf : f.isinf = true) :
    fpConst st f = .ok (.bv ((if f.signbit then 2 ^ (st.VALUE_BITS + 1) else 0)
      + 2 ^ st.VALUE_BITS) (st.VALUE_BITS + 2), st) := by
  have hn : f.isnan = false := by
    simp only [Float32.isinf, decide_eq_true_eq] at hf
    simp [Float32.isnan, hf]
  cases hs : f.signbit <;>
    simp [fpConst, hf, hn, hs, h.inf_pos, h.inf_neg, deref, Outcome.bind]

theorem fpConst_zero (st : State) (f : Float32) (h : ConstsOK st)
    (hf : Float32.feq f Float32.zero = true) :
    fpConst st f = .ok (.bv (if f.signbit then 2 ^ (st.VALUE_BITS + 1) else 0)
      (st.VALUE_BITS + 2), st) := by
  have hz : Float32.zero.key = 0 := by decide
  simp only [Float32.feq, Bool.and_eq_true, Bool.not_eq_true', decide_eq_true_eq, hz] at hf
  have hn : f.isnan = false := hf.1.1
  have hi : f.isinf = false := by
    have h3 := hf.2
    rw [Float32.key_eq] at h3
    simp only [Float32.isinf, Float32.magnitude, decide_eq_false_iff_not]
    split_ifs at h3 <;> omega
  have hfz : Float32.feq f Float32.zero = true := by
    simp [Float32.feq, hn, hz, hf.2]; decide
  cases hs : f.signbit <;>
    simp [fpConst, hfz, hi, hn, hs, h.zero_pos, h.zero_neg, deref, Outcome.bind]

theorem fpConst_found (st : State) (f : Float32) (e : Expr) (hf : f.isFiniteNonzero = true)
    (hm : mapFind f st.fpconst_absrepr = some e) : fpConst st f = .ok (e, st) := by
  simp only [fpConst, Float32.isnan_of_finiteNonzero hf, Float32.isinf_of_finiteNonzero hf,
    Float32.feq_zero_of_finiteNonzero hf, hm]
  simp

/-! ### `fpConst` allocating a new constant -/

theorem pool_length_le (st : State) (h : PoolOK st) : st.fpconst_absrepr.length ≤ U32 := by
  have h1 : ((st.fpconst_absrepr.map Prod.fst).map Float32.bits).Nodup := by
    apply List.Nodup.map _ h.nodup
    intro a b hab
    exact Float32.eq_of_bits hab
  have h2 : ((st.fpconst_absrepr.map Prod.fst).map Float32.bits).toFinset ⊆ Finset.range U32 := by
    intro x hx
    simp only [List.mem_toFinset, List.mem_map] at hx
    obtain ⟨f, _, rfl⟩ := hx
    exact Finset.mem_range.2 f.isLt
  have h3 := Finset.card_le_card h2
  rw [List.toFinset_card_of_nodup h1, Finset.card_range] at h3
  simpa using h3

theorem pool_num_le (st : State) (h : PoolOK st) : 2 * st.fpconst_absrepr_num ≤ U32 :=
  le_trans h.count (pool_length_le st h)

theorem fpConst_fresh (st : State) (f : Float32) (h : Inv st) (hf : f.isFiniteNonzero = true)
    (hm : mapFind f st.fpconst_absrepr = none) :
    fpConst st f =
      if f.abs = Float32.one then
        .ok (encFinite st.VALUE_BITS f.signbit 1, allocState st f.abs 1 st.fpconst_absrepr_num)
      else if 2 + st.fpconst_absrepr_num < 2 ^ st.VALUE_BITS then
        .ok (encFinite st.VALUE_BITS f.signbit (2 + st.fpconst_absrepr_num),
          allocState st f.abs (2 + st.fpconst_absrepr_num) (st.fpconst_absrepr_num + 1))
      else .assertFail := by
  have hc := h.consts
  have hn := pool_num_le st h.pool
  have hv1 := hc.v_pos
  have hv2 := hc.v_le
  have hp1 := two_pow_succ st.VALUE_BITS
  have hp2 : 2 ^ (st.VALUE_BITS + 2) = 4 * 2 ^ st.VALUE_BITS := by rw [pow_add]; ring
  have hp3 : 2 ^ (st.VALUE_BITS + 2) ≤ U64 := two_pow_le_U64 (by omega)
  have hp5 := two_le_two_pow hv1
  have u1 : uadd32 2 st.fpconst_absrepr_num = 2 + st.fpconst_absrepr_num := by
    simp only [uadd32, U32] at *; omega
  have u2 : uadd32 st.fpconst_absrepr_num 1 = st.fpconst_absrepr_num + 1 := by
    simp only [uadd32, U32] at *; omega
  have key : ∀ a, a < 2 ^ st.VALUE_BITS →
      Expr.mkBV a st.FP_BITS = encFinite st.VALUE_BITS false a ∧
      Expr.mkBV (uadd64 st.SIGNED_VALUE a) st.FP_BITS = encFinite st.VALUE_BITS true a := by
    intro a ha
    rw [hc.fp_bits, hc.signed_value]
    constructor
    · rw [mkBV_of_lt (by omega)]; simp [encFinite]
    · have : uadd64 (2 ^ (st.VALUE_BITS + 1)) a = 2 ^ (st.VALUE_BITS + 1) + a := by
        simp only [uadd64]; exact Nat.mod_eq_of_lt (by omega)
      rw [this, mkBV_of_lt (by omega)]; simp [encFinite]
  have hsel : ∀ a, (if f.signbit = true then encFinite st.VALUE_BITS true a
      else encFinite st.VALUE_BITS false a) = encFinite st.VALUE_BITS f.signbit a := by
    intro a; cases f.signbit <;> simp
  simp only [fpConst, Float32.isnan_of_finiteNonzero hf, Float32.isinf_of_finiteNonzero hf,
    Float32.feq_zero_of_finiteNonzero hf, hm]
  by_cases h1 : f.abs = Float32.one
  · have hfe : Float32.feq f.abs Float32.one = true := (Float32.feq_abs_one_iff hf).2 h1
    obtain ⟨k1, k2⟩ := key 1 (by omega)
    simp only [hfe, if_true, if_pos h1, Outcome.bind, allocState]
    simp [k1, k2, hsel]
  · have hfe : Float32.feq f.abs Float32.one = false := by
      cases hh : Float32.feq f.abs Float32.one
      · rfl
      · exact absurd ((Float32.feq_abs_one_iff hf).1 hh) h1
    rw [if_neg h1]
    by_cases h2 : 2 + st.fpconst_absrepr_num < 2 ^ st.VALUE_BITS
    · obtain ⟨k1, k2⟩ := key (2 + st.fpconst_absrepr_num) h2
      have h2' : 2 + st.fpconst_absrepr_num < st.INF_VALUE := by
        rw [hc.inf_value]; exact h2
      simp only [hfe, if_pos h2, u1, u2, if_pos h2', Outcome.bind, allocState]
      simp [k1, k2, hsel]
    · have h2' : ¬ 2 + st.fpconst_absrepr_num < st.INF_VALUE := by
        rw [hc.inf_value]; exact h2
      simp only [hfe, if_neg h2, u1, if_neg h2', Outcome.bind]
      simp

theorem pool_neg_none (st : State) (h : PoolOK st) (m : Float32)
    (hm : m.isFiniteNonzero = true) (hnone : mapFind m st.fpconst_absrepr = none) :
    mapFind m.neg st.fpconst_absrepr = none := by
  cases hh : mapFind m.neg st.fpconst_absrepr with
  | none => rfl
  | some e =>
    obtain ⟨a, _, _, _, _, _, h6⟩ := h.val m.neg e (Float32.neg_finiteNonzero hm) hh
    rw [Float32.neg_neg, hnone] at h6
    cases h6

theorem allocState_find (st : State) (h : PoolOK st) (m : Float32)
    (hm : m.isFiniteNonzero = true) (hnone : mapFind m st.fpconst_absrepr = none)
    (a num : Nat) (k : Float32) (hk : k.isFiniteNonzero = true) :
    mapFind k (allocState st m a num).fpconst_absrepr =
      if k = m.neg then some (encFinite st.VALUE_BITS true a)
      else if k = m then some (encFinite st.VALUE_BITS false a)
      else mapFind k st.fpconst_absrepr := by
  have hmn := Float32.neg_finiteNonzero hm
  have hk1 := mapEmplace_keys m (encFinite st.VALUE_BITS false a) _ hm h.keys
  have hn1 : mapFind m.neg (mapEmplace m (encFinite st.VALUE_BITS false a) st.fpconst_absrepr)
      = none := by
    rw [mapFind_emplace m.neg m _ _ hmn hm h.keys hnone, if_neg (Float32.neg_ne m)]
    exact pool_neg_none st h m hm hnone
  simp only [allocState]
  rw [mapFind_emplace k m.neg _ _ hk hmn hk1 hn1, mapFind_emplace k m _ _ hk hm h.keys hnone]

theorem allocState_perm (st : State) (h : PoolOK st) (m : Float32)
    (hm : m.isFiniteNonzero = true) (hnone : mapFind m st.fpconst_absrepr = none)
    (a num : Nat) :
    (allocState st m a num).fpconst_absrepr.Perm
      ((m.neg, encFinite st.VALUE_BITS true a) :: (m, encFinite st.VALUE_BITS false a)
        :: st.fpconst_absrepr) := by
  have hmn := Float32.neg_finiteNonzero hm
  have hk1 := mapEmplace_keys m (encFinite st.VALUE_BITS false a) _ hm h.keys
  have hn1 : mapFind m.neg (mapEmplace m (encFinite st.VALUE_BITS false a) st.fpconst_absrepr)
      = none := by
    rw [mapFind_emplace m.neg m _ _ hmn hm h.keys hnone, if_neg (Float32.neg_ne m)]
    exact pool_neg_none st h m hm hnone
  simp only [allocState]
  exact (mapEmplace_perm m.neg _ _ hmn hk1 hn1).trans
    ((mapEmplace_perm m _ _ hm h.keys hnone).cons _)

theorem eq_or_eq_neg_of_abs {k m : Float32} (h : k.abs = m) :
    k = m ∨ k = m.neg := by
  cases hs : k.signbit
  · left; rw [← h]; exact (Float32.eq_abs_of_pos hs).symm
  · right; rw [← h]; exact (Float32.eq_neg_abs_of_neg hs).symm

theorem neg_inj {a b : Float32} (h : a.neg = b.neg) : a = b := by
  rw [← Float32.neg_neg a, h, Float32.neg_neg]

theorem allocState_inv (st : State) (h : Inv st) (m : Float32)
    (hm : m.isFiniteNonzero = true) (hs : m.signbit = false)
    (hnone : mapFind m st.fpconst_absrepr = none) (a num : Nat)
    (ha1 : 1 ≤ a) (ha2 : a < 2 ^ st.VALUE_BITS) (hone : a = 1 ↔ m = Float32.one)
    (hnum1 : a = 1 → num = st.fpconst_absrepr_num)
    (hnum2 : a ≠ 1 → a = 2 + st.fpconst_absrepr_num ∧ num = st.fpconst_absrepr_num + 1) :
    Inv (allocState st m a num) := by
  have hp := h.pool
  have hmn := Float32.neg_finiteNonzero hm
  have hperm := allocState_perm st hp m hm hnone a num
  have hfind := allocState_find st hp m hm hnone a num
  have hnone' := pool_neg_none st hp m hm hnone
  have habs : m.abs = m := Float32.eq_abs_of_pos hs
  have hnum_le : st.fpconst_absrepr_num ≤ num := by
    by_cases h1 : a = 1
    · rw [hnum1 h1]
    · rw [(hnum2 h1).2]; omega
  constructor
  · exact { h.consts with }
  · constructor
    · intro p hp'
      rcases List.mem_cons.1 (hperm.mem_iff.1 hp') with h1 | h1
      · rw [h1]; exact hmn
      · rcases List.mem_cons.1 h1 with h2 | h2
        · rw [h2]; exact hm
        · exact hp.keys p h2
    · rw [(hperm.map Prod.fst).nodup_iff]
      simp only [List.map_cons, List.nodup_cons, List.mem_cons, not_or]
      refine ⟨⟨Float32.neg_ne m, ?_⟩, ?_, hp.nodup⟩
      · exact (mapFind_eq_none_iff m.neg _ hmn hp.keys).1 hnone'
      · exact (mapFind_eq_none_iff m _ hm hp.keys).1 hnone
    · rw [hperm.length_eq]
      have := hp.count
      simp only [allocState, List.length_cons]
      by_cases h1 : a = 1
      · rw [hnum1 h1]; omega
      · rw [(hnum2 h1).2]; omega
    · intro k e hk hke
      rw [hfind k hk] at hke
      rw [hfind k.neg (Float32.neg_finiteNonzero hk)]
      show ∃ a', 1 ≤ a' ∧ a' < 2 ^ st.VALUE_BITS ∧ (a' = 1 ↔ k.abs = Float32.one) ∧
        (a' ≠ 1 → a' < 2 + num) ∧ e = encFinite st.VALUE_BITS k.signbit a' ∧ _
      by_cases hk1 : k = m.neg
      · rw [if_pos hk1] at hke
        cases hke
        refine ⟨a, ha1, ha2, ?_, ?_, ?_, ?_⟩
        · rw [hk1, Float32.abs_neg, habs]; exact hone
        · intro h1; have := hnum2 h1; omega
        · rw [hk1, Float32.signbit_neg, hs]; rfl
        · rw [hk1, Float32.neg_neg, if_neg (Float32.neg_ne m).symm, if_pos rfl,
            Float32.signbit_neg, hs]; rfl
      · rw [if_neg hk1] at hke
        by_cases hk2 : k = m
        · rw [if_pos hk2] at hke
          cases hke
          refine ⟨a, ha1, ha2, ?_, ?_, ?_, ?_⟩
          · rw [hk2, habs]; exact hone
          · intro h1; have := hnum2 h1; omega
          · rw [hk2, hs]
          · rw [hk2, if_pos rfl, hs]; rfl
        · rw [if_neg hk2] at hke
          obtain ⟨a', h1, h2, h3, h4, h5, h6⟩ := hp.val k e hk hke
          refine ⟨a', h1, h2, h3, ?_, h5, ?_⟩
          · intro hh; have := h4 hh; omega
          · rw [if_neg (fun hh => hk2 (neg_inj hh)),
              if_neg (fun hh => hk1 (by rw [← hh, Float32.neg_neg])), h6]
            rfl
    · intro k k' s s' a' ha' hk hk' hke hke'
      rw [hfind k hk] at hke
      rw [hfind k' hk'] at hke'
      show k.abs = k'.abs
      -- an old key cannot carry the new value field
      have old_ne : ∀ (q : Float32) (t : Bool), q.isFiniteNonzero = true →
          mapFind q st.fpconst_absrepr = some (encFinite st.VALUE_BITS t a) → False := by
        intro q t hq hqe
        obtain ⟨a0, h1, h2, h3, h4, h5, _⟩ := hp.val q _ hq hqe
        have := (encFinite_inj ha2 h2 h5).2
        subst this
        by_cases h1a : a = 1
        · have hq1 : q.abs = m := by rw [h3.1 h1a, hone.1 h1a]
          rcases eq_or_eq_neg_of_abs hq1 with hq2 | hq2
          · rw [hq2, hnone] at hqe; cases hqe
          · rw [hq2, hnone'] at hqe; cases hqe
        · have := h4 h1a
          have := (hnum2 h1a).1
          omega
      have new_abs : ∀ (q : Float32), (q = m.neg ∨ q = m) → q.abs = m := by
        intro q hq
        rcases hq with hq | hq
        · rw [hq, Float32.abs_neg, habs]
        · rw [hq, habs]
      have classify : ∀ (q : Float32) (t : Bool), q.isFiniteNonzero = true →
          (if q = m.neg then some (encFinite st.VALUE_BITS true a)
            else if q = m then some (encFinite st.VALUE_BITS false a)
            else mapFind q st.fpconst_absrepr) = some (encFinite st.VALUE_BITS t a') →
          ((q = m.neg ∨ q = m) ∧ a' = a) ∨
            ((q ≠ m.neg ∧ q ≠ m) ∧
              mapFind q st.fpconst_absrepr = some (encFinite st.VALUE_BITS t a')) := by
        intro q t hq hqe
        have ha'' : a' < 2 ^ st.VALUE_BITS := ha'
        by_cases hq1 : q = m.neg
        · rw [if_pos hq1] at hqe
          left
          refine ⟨Or.inl hq1, ?_⟩
          simp only [encFinite, Option.some.injEq, Expr.bv.injEq, and_true] at hqe
          have hp1 := two_pow_succ st.VALUE_BITS
          cases t <;> simp at hqe <;> omega
        · rw [if_neg hq1] at hqe
          by_cases hq2 : q = m
          · rw [if_pos hq2] at hqe
            left
            refine ⟨Or.inr hq2, ?_⟩
            simp only [encFinite, Option.some.injEq, Expr.bv.injEq, and_true] at hqe
            have hp1 := two_pow_succ st.VALUE_BITS
            cases t <;> simp at hqe <;> omega
          · rw [if_neg hq2] at hqe
            right
            exact ⟨⟨hq1, hq2⟩, hqe⟩
      rcases classify k s hk hke with ⟨c1, e1⟩ | ⟨_, c1⟩ <;>
        rcases classify k' s' hk' hke' with ⟨c2, e2⟩ | ⟨_, c2⟩
      · rw [new_abs k c1, new_abs k' c2]
      · rw [e1] at c2; exact (old_ne k' s' hk' c2).elim
      · rw [e2] at c1; exact (old_ne k s hk c1).elim
      · exact hp.inj k k' s s' a' ha' hk hk' c1 c2

/-! ### `fpConst`: summary -/

theorem fpConst_reserved (st : State) (f : Float32) (h : ConstsOK st)
    (hf : f.isFiniteNonzero = false) :
    fpConst st f = .ok (reservedEnc st.VALUE_BITS f, st) := by
  cases hn : f.isnan
  · cases hi : f.isinf
    · have hz : Float32.feq f Float32.zero = true := by
        cases hh : Float32.feq f Float32.zero
        · rw [Float32.finiteNonzero_of_not hn hi hh] at hf; cases hf
        · rfl
      rw [fpConst_zero st f h hz]; simp [reservedEnc, hn, hi]
    · rw [fpConst_inf st f h hi]; simp [reservedEnc, hn, hi]
  · rw [fpConst_nan st f h hn]; simp [reservedEnc, hn]

theorem extends_refl (st : State) : Extends st st := ⟨rfl, fun _ _ _ h => h⟩

theorem extends_trans {a b c : State} (h1 : Extends a b) (h2 : Extends b c) : Extends a c :=
  ⟨h2.value_bits.trans h1.value_bits, fun k e hk h => h2.find k e hk (h1.find k e hk h)⟩

theorem allocState_extends (st : State) (h : PoolOK st) (m : Float32)
    (hm : m.isFiniteNonzero = true) (hnone : mapFind m st.fpconst_absrepr = none)
    (a num : Nat) : Extends st (allocState st m a num) := by
  refine ⟨rfl, ?_⟩
  intro k e hk hke
  rw [allocState_find st h m hm hnone a num k hk]
  have hnone' := pool_neg_none st h m hm hnone
  rw [if_neg (fun hh => by rw [hh, hnone'] at hke; cases hke),
    if_neg (fun hh => by rw [hh, hnone] at hke; cases hke), hke]

theorem fpConst_spec (st st' : State) (f : Float32) (e : Expr) (h : Inv st)
    (hr : fpConst st f = .ok (e, st')) :
    Inv st' ∧ Extends st st' ∧
    st' = { st with fpconst_absrepr := st'.fpconst_absrepr,
                    fpconst_absrepr_num := st'.fpconst_absrepr_num } ∧
    (f.isFiniteNonzero = true → mapFind f st'.fpconst_absrepr = some e) ∧
    (f.isFiniteNonzero = false → st' = st ∧ e = reservedEnc st.VALUE_BITS f) := by
  cases hf : f.isFiniteNonzero
  · rw [fpConst_reserved st f h.consts hf] at hr
    cases hr
    exact ⟨h, extends_refl _, rfl, fun hh => (by cases hh), fun _ => ⟨rfl, rfl⟩⟩
  · cases hm : mapFind f st.fpconst_absrepr with
    | some e0 =>
      rw [fpConst_found st f e0 hf hm] at hr
      cases hr
      exact ⟨h, extends_refl _, rfl, fun _ => hm, fun hh => (by cases hh)⟩
    | none =>
      rw [fpConst_fresh st f h hf hm] at hr
      have hfa := Float32.abs_finiteNonzero hf
      have hsa := Float32.signbit_abs f
      have hnone : mapFind f.abs st.fpconst_absrepr = none := by
        rcases eq_or_eq_neg_of_abs (k := f) (m := f.abs) rfl with h1 | h1
        · rw [← h1]; exact hm
        · have := pool_neg_none st h.pool f hf hm
          rw [h1, Float32.neg_neg] at this
          exact this
      have hv1 := h.consts.v_pos
      have hp5 := two_le_two_pow hv1
      have hfound : ∀ a num, mapFind f (allocState st f.abs a num).fpconst_absrepr
          = some (encFinite st.VALUE_BITS f.signbit a) := by
        intro a num
        rw [allocState_find st h.pool f.abs hfa hnone a num f hf]
        cases hs : f.signbit
        · rw [Float32.eq_abs_of_pos hs, if_neg (Float32.neg_ne f).symm, if_pos rfl]
        · rw [if_pos (Float32.eq_neg_abs_of_neg hs).symm]
      by_cases h1 : f.abs = Float32.one
      · rw [if_pos h1] at hr
        cases hr
        refine ⟨?_, allocState_extends st h.pool f.abs hfa hnone _ _, rfl, fun _ => hfound _ _,
          fun hh => (by cases hh)⟩
        exact allocState_inv st h f.abs hfa hsa hnone 1 _ (le_refl _) (by omega)
          ⟨fun _ => h1, fun _ => rfl⟩ (fun _ => rfl) (fun hh => absurd rfl hh)
      · rw [if_neg h1] at hr
        by_cases h2 : 2 + st.fpconst_absrepr_num < 2 ^ st.VALUE_BITS
        · rw [if_pos h2] at hr
          cases hr
          refine ⟨?_, allocState_extends st h.pool f.abs hfa hnone _ _, rfl,
            fun _ => hfound _ _, fun hh => (by cases hh)⟩
          exact allocState_inv st h f.abs hfa hsa hnone _ _ (by omega) h2
            ⟨fun hh => by omega, fun hh => absurd hh h1⟩ (fun hh => by omega)
            (fun _ => ⟨rfl, rfl⟩)
        · rw [if_neg h2] at hr
          cases hr

/-- In a session `fpConst` never has undefined behaviour and never runs out of
fuel: it returns or fails its assertion. -/
theorem fpConst_ok_or_assert (st : State) (f : Float32) (h : Inv st) :
    (∃ e st', fpConst st f = .ok (e, st')) ∨ fpConst st f = .assertFail := by
  cases hf : f.isFiniteNonzero
  · exact Or.inl ⟨_, _, fpConst_reserved st f h.consts hf⟩
  · cases hm : mapFind f st.fpconst_absrepr with
    | some e0 => exact Or.inl ⟨_, _, fpConst_found st f e0 hf hm⟩
    | none =>
      rw [fpConst_fresh st f h hf hm]
      split_ifs
      · exact Or.inl ⟨_, _, rfl⟩
      · exact Or.inl ⟨_, _, rfl⟩
      · exact Or.inr rfl

/-! ### The terms `fpAdd` and `fpMul` return -/

theorem fpAdd_eq (st : State) (h : ConstsOK st) (f1 f2 : Expr) :
    fpAdd st f1 f2 =
      .ok (fpAddTerm st.VALUE_BITS (fpAddDecl st f1) f1 f2, fpAddState st f1) := by
  have hc : ConstsOK (fpAddState st f1) := { h with }
  have hv1 := h.v_pos
  have hv2 := h.v_le
  have u1 : usub32 st.VALUE_BITS 1 = st.VALUE_BITS - 1 := by
    simp only [usub32, U32]; omega
  have u2 : uadd32 SIGN_BITS st.VALUE_BITS = 1 + st.VALUE_BITS := by
    simp only [uadd32, U32, SIGN_BITS]; omega
  have c1 : fpConst (fpAddState st f1) Float32.zero
      = .ok (.bv 0 (st.VALUE_BITS + 2), fpAddState st f1) := by
    rw [fpConst_zero _ _ hc (by decide)]
    have : Float32.zero.signbit = false := by decide
    simp only [this]; rfl
  have c2 : fpConst (fpAddState st f1) Float32.negZero
      = .ok (.bv (2 ^ (st.VALUE_BITS + 1)) (st.VALUE_BITS + 2), fpAddState st f1) := by
    rw [fpConst_zero _ _ hc (by decide)]
    have : Float32.negZero.signbit = true := by decide
    simp only [this]; rfl
  have c3 : fpConst (fpAddState st f1) Float32.inf
      = .ok (.bv (2 ^ st.VALUE_BITS) (st.VALUE_BITS + 2), fpAddState st f1) := by
    rw [fpConst_inf _ _ hc (by decide)]
    have : Float32.inf.signbit = false := by decide
    simp only [this]; simp; rfl
  have c4 : fpConst (fpAddState st f1) Float32.negInf
      = .ok (.bv (2 ^ (st.VALUE_BITS + 1) + 2 ^ st.VALUE_BITS) (st.VALUE_BITS + 2),
          fpAddState st f1) := by
    rw [fpConst_inf _ _ hc (by decide)]
    have : Float32.negInf.signbit = true := by decide
    simp only [this]; simp; exact ⟨rfl, rfl⟩
  have c5 : fpConst (fpAddState st f1) Float32.nan
      = .ok (.bv (2 ^ st.VALUE_BITS + 1) (st.VALUE_BITS + 2), fpAddState st f1) := by
    rw [fpConst_nan _ _ hc (by decide)]; rfl
  have hd : (fpAddState st f1).fp_addfn = some (fpAddDecl st f1) := rfl
  have hvb : (fpAddState st f1).VALUE_BITS = st.VALUE_BITS := rfl
  have hst : ({ st with
        usedOps := { st.usedOps with fpAdd := true }
        fp_addfn := some (emplaceIfEmpty st.fp_addfn
          ⟨[f1.sort, f1.sort], SmtSort.bvSort (uadd32 SIGN_BITS st.VALUE_BITS), "fp_add"⟩) }
      : State) = fpAddState st f1 := by
    simp only [fpAddState, fpAddDecl, u2, SmtSort.bvSort]
  unfold fpAdd
  simp only [hst, Float, c1, c2, c3, c4, c5, Outcome.bind, hd, deref, hvb, u1]
  rfl

theorem one_enc (st : State) (h : Inv st) (e : Expr) (st' : State)
    (hr : fpConst st Float32.one = .ok (e, st')) : e = .bv 1 (st.VALUE_BITS + 2) := by
  have h1 : Float32.one.isFiniteNonzero = true := by decide
  obtain ⟨hi, hext, _, hfind, _⟩ := fpConst_spec st st' Float32.one e h hr
  obtain ⟨a, _, _, h3, _, h5, _⟩ := hi.pool.val Float32.one e h1 (hfind h1)
  have ha : a = 1 := h3.2 (by decide)
  have hs : Float32.one.signbit = false := by decide
  rw [h5, ha, hs, hext.value_bits]
  simp [encFinite]

theorem fpConst_one_ok (st : State) (h : Inv st) :
    ∃ st', fpConst st Float32.one = .ok (.bv 1 (st.VALUE_BITS + 2), st') := by
  have h1 : Float32.one.isFiniteNonzero = true := by decide
  have key : ∃ e st', fpConst st Float32.one = .ok (e, st') := by
    cases hm : mapFind Float32.one st.fpconst_absrepr with
    | some e0 => exact ⟨_, _, fpConst_found st _ e0 h1 hm⟩
    | none =>
      rw [fpConst_fresh st _ h h1 hm, if_pos (by decide)]
      exact ⟨_, _, rfl⟩
  obtain ⟨e, st', hr⟩ := key
  exact ⟨st', by rw [hr, one_enc st h e st' hr]⟩

theorem fpMul_eq (st : State) (h : Inv st) (f1 f2 : Expr) :
    ∃ st1, fpConst (fpMulState st f1) Float32.one = .ok (.bv 1 (st.VALUE_BITS + 2), st1) ∧
      fpMul st f1 f2 = .ok (fpMulTerm st.VALUE_BITS (fpMulDecl st f1) f1 f2, st1) := by
  have hi : Inv (fpMulState st f1) := ⟨{ h.consts with }, { h.pool with }⟩
  obtain ⟨st1, hr⟩ := fpConst_one_ok (fpMulState st f1) hi
  have hvb : (fpMulState st f1).VALUE_BITS = st.VALUE_BITS := rfl
  rw [hvb] at hr
  refine ⟨st1, hr, ?_⟩
  obtain ⟨_, _, hfr, _, _⟩ := fpConst_spec _ _ _ _ hi hr
  have hst : ({ st with
        usedOps := { st.usedOps with fpMul := true }
        fp_mulfn := some (emplaceIfEmpty st.fp_mulfn
          ⟨[f1.sort, f1.sort], fpSort { st with usedOps := { st.usedOps with fpMul := true } },
            "fp_mul"⟩) }
      : State) = fpMulState st f1 := rfl
  have hd : st1.fp_mulfn = some (fpMulDecl st f1) := by rw [hfr]; rfl
  unfold fpMul
  simp only [hst, Float, hr, Outcome.bind, hd, deref]
  rfl

/-! ### Calls that leave the constants alone -/

theorem sameCore_inv {st st' : State} (h : SameCore st st') (hi : Inv st) : Inv st' := by
  obtain ⟨e1, e2, e3, e4, e5, e6, e7, e8, e9, e10, e11, e12⟩ := h
  obtain ⟨hc, hp⟩ := hi
  constructor
  · constructor
    · rw [e8]; exact hc.v_pos
    · rw [e8]; exact hc.v_le
    · rw [e8, e9]; exact hc.fp_bits
    · rw [e8, e10]; exact hc.inf_value
    · rw [e8, e11]; exact hc.nan_value
    · rw [e8, e12]; exact hc.signed_value
    · rw [e8, e1]; exact hc.zero_pos
    · rw [e8, e2]; exact hc.zero_neg
    · rw [e8, e3]; exact hc.nan
    · rw [e8, e4]; exact hc.inf_pos
    · rw [e8, e5]; exact hc.inf_neg
  · constructor
    · rw [e6]; exact hp.keys
    · rw [e6]; exact hp.nodup
    · rw [e6, e7]; exact hp.count
    · rw [e6, e7, e8]; exact hp.val
    · rw [e6, e8]; exact hp.inj

theorem sameCore_extends {st st' : State} (h : SameCore st st') : Extends st st' :=
  ⟨h.value_bits, fun k e _ hk => by rw [h.absrepr]; exact hk⟩

theorem sameCore_refl (st : State) : SameCore st st := by constructor <;> rfl

theorem fpAdd_sameCore (st : State) (h : ConstsOK st) (f1 f2 : Expr) (e : Expr) (st' : State)
    (hr : fpAdd st f1 f2 = .ok (e, st')) : SameCore st st' := by
  rw [fpAdd_eq st h] at hr
  cases hr
  constructor <;> rfl

theorem fpMultisetSum_sameCore (ib fuel : Nat) (st : State) (a n : Expr) (e : Expr)
    (st' : State) (hr : fpMultisetSum ib fuel st a n = .ok (e, st')) : SameCore st st' := by
  unfold fpMultisetSum at hr
  cases hn : n.isUInt with
  | none => simp [hn, Outcome.bind] at hr
  | some len =>
    simp only [hn, Outcome.bind] at hr
    cases hl : fpMultisetSumLoop ib a len fuel 0 (Expr.mkEmptyBag (fpSort st)) with
    | ok bag =>
      simp only [hl, deref] at hr
      cases hnum : n.isNumeral <;> simp only [hnum] at hr <;> cases hr <;> constructor <;> rfl
    | assertFail => simp [hl] at hr
    | undefined => simp [hl] at hr
    | outOfFuel => simp [hl] at hr

theorem fpSum_sameCore (ib fuel : Nat) (st : State) (a n : Expr) (e : Expr)
    (st' : State) (hr : fpSum ib fuel st a n = .ok (e, st')) : SameCore st st' := by
  unfold fpSum at hr
  by_cases hc : (st.isFpAddAssociative && st.useMultiset) = true
  · simp only [hc, if_true] at hr
    have := fpMultisetSum_sameCore ib fuel _ a n e st' hr
    obtain ⟨e1, e2, e3, e4, e5, e6, e7, e8, e9, e10, e11, e12⟩ := this
    exact ⟨e1, e2, e3, e4, e5, e6, e7, e8, e9, e10, e11, e12⟩
  · simp only [hc, deref, Outcome.bind] at hr
    by_cases hc2 : (st.isFpAddAssociative && n.isNumeral) = true
    · simp only [hc2, if_true] at hr
      cases hr; constructor <;> rfl
    · simp only [hc2] at hr
      cases hr; constructor <;> rfl

theorem intSum_sameCore (ib : Nat) (st : State) (a n : Expr) (e : Expr)
    (st' : State) (hr : intSum ib st a n = .ok (e, st')) : SameCore st st' := by
  unfold intSum getIntSumFn at hr
  simp only at hr
  split at hr <;> cases hr <;> constructor <;> rfl

theorem intDot_sameCore (ib : Nat) (st : State) (a b n : Expr) (e : Expr)
    (st' : State) (hr : intDot ib st a b n = .ok (e, st')) : SameCore st st' := by
  unfold intDot at hr
  cases hl : st.alIntDot
  · simp only [hl, getIntDotFn] at hr
    split at hr <;> cases hr <;> constructor <;> rfl
  · simp only [hl] at hr
    exact intSum_sameCore ib st _ n e st' hr

theorem sameCore_trans {a b c : State} (h1 : SameCore a b) (h2 : SameCore b c) :
    SameCore a c := by
  obtain ⟨a1, a2, a3, a4, a5, a6, a7, a8, a9, a10, a11, a12⟩ := h1
  obtain ⟨b1, b2, b3, b4, b5, b6, b7, b8, b9, b10, b11, b12⟩ := h2
  exact ⟨b1.trans a1, b2.trans a2, b3.trans a3, b4.trans a4, b5.trans a5, b6.trans a6,
    b7.trans a7, b8.trans a8, b9.trans a9, b10.trans a10, b11.trans a11, b12.trans a12⟩

theorem freshName_sameCore (st st' : State) (pre name : String)
    (hr : freshName st pre = .ok (name, st')) : SameCore st st' := by
  unfold freshName at hr
  split_ifs at hr
  cases hr
  constructor <;> rfl

theorem hashPairStep_sameCore (ib fuel : Nat) (p p' : Expr) (st st' : State)
    (x y : Expr × Expr × Expr) (hr : hashPairStep ib fuel (p, st) x y = .ok (p', st')) :
    SameCore st st' := by
  obtain ⟨a, an, asum⟩ := x
  obtain ⟨b, bn, bsum⟩ := y
  unfold hashPairStep at hr
  simp only at hr
  split at hr
  · split_ifs at hr
    · cases hr; exact sameCore_refl _
    · cases hf : freshName st "fp_hash" with
      | ok r =>
        obtain ⟨name, st1⟩ := r
        have h1 := freshName_sameCore st st1 "fp_hash" name hf
        simp only [hf, Outcome.bind] at hr
        split at hr
        · split at hr
          · cases hr; exact h1
          all_goals cases hr
        all_goals cases hr
      | assertFail => simp [hf, Outcome.bind] at hr
      | undefined => simp [hf, Outcome.bind] at hr
      | outOfFuel => simp [hf, Outcome.bind] at hr
  · cases hr; exact sameCore_refl _

theorem hashInnerLoop_sameCore (ib fuel : Nat) (x : Expr × Expr × Expr) :
    ∀ (l : List (Expr × Expr × Expr)) (p p' : Expr) (st st' : State),
      hashInnerLoop ib fuel x l (p, st) = .ok (p', st') → SameCore st st' := by
  intro l
  induction l with
  | nil => intro p p' st st' hr; simp only [hashInnerLoop] at hr; cases hr; exact sameCore_refl _
  | cons y rest ih =>
    intro p p' st st' hr
    simp only [hashInnerLoop] at hr
    cases hs : hashPairStep ib fuel (p, st) x y with
    | ok r =>
      obtain ⟨p1, st1⟩ := r
      simp only [hs, Outcome.bind] at hr
      exact sameCore_trans (hashPairStep_sameCore ib fuel p p1 st st1 x y hs) (ih p1 p' st1 st' hr)
    | assertFail => simp [hs, Outcome.bind] at hr
    | undefined => simp [hs, Outcome.bind] at hr
    | outOfFuel => simp [hs, Outcome.bind] at hr

theorem hashOuterLoop_sameCore (ib fuel : Nat) :
    ∀ (l : List (Expr × Expr × Expr)) (p p' : Expr) (st st' : State),
      hashOuterLoop ib fuel l (p, st) = .ok (p', st') → SameCore st st' := by
  intro l
  induction l with
  | nil => intro p p' st st' hr; simp only [hashOuterLoop] at hr; cases hr; exact sameCore_refl _
  | cons x rest ih =>
    intro p p' st st' hr
    simp only [hashOuterLoop] at hr
    cases hs : hashInnerLoop ib fuel x rest (p, st) with
    | ok r =>
      obtain ⟨p1, st1⟩ := r
      simp only [hs, Outcome.bind] at hr
      exact sameCore_trans (hashInnerLoop_sameCore ib fuel x rest p p1 st st1 hs)
        (ih p1 p' st1 st' hr)
    | assertFail => simp [hs, Outcome.bind] at hr
    | undefined => simp [hs, Outcome.bind] at hr
    | outOfFuel => simp [hs, Outcome.bind] at hr

theorem getFpAssociativePrecondition_sameCore (ib fuel : Nat) (st st' : State) (e : Expr)
    (hr : getFpAssociativePrecondition ib fuel st = .ok (e, st')) : SameCore st st' := by
  unfold getFpAssociativePrecondition at hr
  split_ifs at hr
  · cases hr; exact sameCore_refl _
  · cases hs : hashOuterLoop ib fuel st.staticArrays (Expr.mkBool true, st) with
    | ok r =>
      obtain ⟨p1, st1⟩ := r
      simp only [hs, Outcome.bind] at hr
      cases hr
      exact hashOuterLoop_sameCore ib fuel _ _ _ _ _ hs
    | assertFail => simp [hs, Outcome.bind] at hr
    | undefined => simp [hs, Outcome.bind] at hr
    | outOfFuel => simp [hs, Outcome.bind] at hr

theorem fpMul_inv (st : State) (h : Inv st) (f1 f2 : Expr) (e : Expr) (st' : State)
    (hr : fpMul st f1 f2 = .ok (e, st')) : Inv st' ∧ Extends st st' := by
  obtain ⟨st1, h1, h2⟩ := fpMul_eq st h f1 f2
  rw [h2] at hr
  cases hr
  have hi : Inv (fpMulState st f1) := ⟨{ h.consts with }, { h.pool with }⟩
  obtain ⟨hi', hext, _⟩ := fpConst_spec _ _ _ _ hi h1
  exact ⟨hi', ⟨hext.value_bits, fun k e hk hke => hext.find k e hk hke⟩⟩

theorem fpDot_inv (ib fuel : Nat) (st : State) (h : Inv st) (a b n : Expr) (e : Expr)
    (st' : State) (hr : fpDot ib fuel st a b n = .ok (e, st')) : Inv st' ∧ Extends st st' := by
  unfold fpDot at hr
  cases hl : st.alFpDot
  · simp only [hl, deref, Outcome.bind] at hr
    have : SameCore st st' := by cases hr; constructor <;> rfl
    exact ⟨sameCore_inv this h, sameCore_extends this⟩
  · simp only [hl] at hr
    cases hm : fpMul st (Expr.select a (Index.var ib "idx")) (Expr.select b (Index.var ib "idx")) with
    | ok r =>
      obtain ⟨m, st1⟩ := r
      simp only [hm, Outcome.bind] at hr
      obtain ⟨hi1, hx1⟩ := fpMul_inv st h _ _ m st1 hm
      have hs := fpSum_sameCore ib fuel st1 _ n e st' hr
      exact ⟨sameCore_inv hs hi1, extends_trans hx1 (sameCore_extends hs)⟩
    | assertFail => simp [hm, Outcome.bind] at hr
    | undefined => simp [hm, Outcome.bind] at hr
    | outOfFuel => simp [hm, Outcome.bind] at hr

/-! ### Sessions -/

theorem step_inv {st st' : State} (h : Inv st) (hs : Step st st') :
    Inv st' ∧ Extends st st' := by
  cases hs with
  | fpConst hr =>
    obtain ⟨h1, h2, _⟩ := fpConst_spec _ _ _ _ h hr
    exact ⟨h1, h2⟩
  | fpAdd hr =>
    have := fpAdd_sameCore _ h.consts _ _ _ _ hr
    exact ⟨sameCore_inv this h, sameCore_extends this⟩
  | fpMul hr => exact fpMul_inv _ h _ _ _ _ hr
  | fpSum hr =>
    have := fpSum_sameCore _ _ _ _ _ _ _ hr
    exact ⟨sameCore_inv this h, sameCore_extends this⟩
  | fpDot hr => exact fpDot_inv _ _ _ h _ _ _ _ _ hr
  | intSum hr =>
    have := intSum_sameCore _ _ _ _ _ _ hr
    exact ⟨sameCore_inv this h, sameCore_extends this⟩
  | intDot hr =>
    have := intDot_sameCore _ _ _ _ _ _ _ hr
    exact ⟨sameCore_inv this h, sameCore_extends this⟩
  | @setEncodingOptions b =>
    have : SameCore st (AbstractOps.setEncodingOptions st b) := by constructor <;> rfl
    exact ⟨sameCore_inv this h, sameCore_extends this⟩
  | getFpAssociativePrecondition hr =>
    have := getFpAssociativePrecondition_sameCore _ _ _ _ _ hr
    exact ⟨sameCore_inv this h, sameCore_extends this⟩

theorem session_inv {st : State} (h : Session st) : Inv st := by
  induction h with
  | start hfp hr =>
    obtain ⟨h1, h2, rfl⟩ := (setAbstraction_eq_ok_iff _ _ _ _ _ _ hfp).1 hr
    apply sessionStart_inv
    · simp only [valueBitsOf]; split_ifs <;> omega
    · simp only [valueBitsOf]; split_ifs <;> omega
  | step _ hs ih => exact (step_inv ih hs).1

theorem later_inv {st st' : State} (h : Inv st) (hl : Later st st') :
    Inv st' ∧ Extends st st' := by
  induction hl with
  | refl => exact ⟨h, extends_refl _⟩
  | step _ hs ih =>
    obtain ⟨h1, h2⟩ := step_inv ih.1 hs
    exact ⟨h1, extends_trans ih.2 h2⟩

theorem session_later {st st' : State} (h : Session st) (hl : Later st st') : Session st' := by
  induction hl with
  | refl => exact h
  | step _ hs ih => exact Session.step ih hs

/-! ## The values of the terms -/

theorem Val.beq_bv_iff (x : Val) (c : BV) : Val.beq x (.bv c) = true ↔ x = .bv c := by
  cases x <;> simp [Val.beq]

theorem Val.beq_bv_bv (a c : BV) : Val.beq (.bv a) (.bv c) = decide (a = c) := rfl

theorem cast_width (s : SmtSort) (a b : Val) :
    (Val.cast s a).toBV.width = (Val.cast s b).toBV.width := by
  induction s generalizing a b with
  | bv w => rfl
  | bool => rfl
  | array d r _ _ => rfl
  | bag e _ => rfl
  | fn d r _ ih => exact ih a b

theorem symApp_comm (I : Interp) (d : FnDecl) (x y : Val) :
    symApp I d x y = symApp I d y x := by
  simp only [symApp, BV.add]
  rw [cast_width d.range (I.fn d.name [x, y]) (I.fn d.name [y, x]), Nat.add_comm]

theorem eval_fpAddTerm (I : Interp) (env : String → Nat) (v : Nat) (d : FnDecl)
    (f1 f2 : Expr) :
    eval I (fpAddTerm v d f1 f2) env
      = fpAddVal v (symApp I d (eval I f1 env) (eval I f2 env))
          (eval I f1 env) (eval I f2 env) := by
  simp only [fpAddTerm, eval, Val.toBool, fpAddVal, Val.toBV, symApp, Val.beq_bv_bv, Expr.concat,
    Expr.zext, Expr.extract, Expr.getMSB]

theorem eval_fpMulTerm (I : Interp) (env : String → Nat) (v : Nat) (d : FnDecl)
    (f1 f2 : Expr) :
    eval I (fpMulTerm v d f1 f2) env
      = fpMulVal v (symApp I d (eval I f1 env) (eval I f2 env))
          (eval I f1 env) (eval I f2 env) := by
  simp only [fpMulTerm, eval, Val.toBool, fpMulVal, symApp]

theorem fpMulVal_comm (v : Nat) (r : BV) (x y : Val) : fpMulVal v r x y = fpMulVal v r y x := by
  simp only [fpMulVal]
  by_cases hx : x.beq (.bv ⟨v + 2, 1⟩) = true <;> by_cases hy : y.beq (.bv ⟨v + 2, 1⟩) = true
  · rw [Val.beq_bv_iff] at hx hy; simp [hx, hy]
  · simp [hx, hy]
  · simp [hx, hy]
  · simp [hx, hy]

theorem fpAddVal_comm (v : Nat) (r : BV) (x y : Val) : fpAddVal v r x y = fpAddVal v r y x := by
  simp only [fpAddVal]
  by_cases h1 : x.beq (.bv ⟨v + 2, 2 ^ (v + 1)⟩) = true
  · by_cases h1' : y.beq (.bv ⟨v + 2, 2 ^ (v + 1)⟩) = true
    · rw [Val.beq_bv_iff] at h1 h1'; simp [h1, h1']
    · simp [h1, h1']
  by_cases h1' : y.beq (.bv ⟨v + 2, 2 ^ (v + 1)⟩) = true
  · simp [h1, h1']
  by_cases h2 : x.beq (.bv ⟨v + 2, 2 ^ v + 1⟩) = true
  · by_cases h2' : y.beq (.bv ⟨v + 2, 2 ^ v + 1⟩) = true
    · rw [Val.beq_bv_iff] at h2 h2'; simp [h1, h1', h2, h2']
    · simp [h1, h1', h2, h2']
  by_cases h2' : y.beq (.bv ⟨v + 2, 2 ^ v + 1⟩) = true
  · simp [h1, h1', h2, h2']
  simp only [h1, h1', h2, h2']
  by_cases h3 : x.beq (.bv ⟨v + 2, 2 ^ v⟩) = true <;>
  by_cases h4 : x.beq (.bv ⟨v + 2, 2 ^ (v + 1) + 2 ^ v⟩) = true <;>
  by_cases h3' : y.beq (.bv ⟨v + 2, 2 ^ v⟩) = true <;>
  by_cases h4' : y.beq (.bv ⟨v + 2, 2 ^ (v + 1) + 2 ^ v⟩) = true <;>
  first
  | (rw [Val.beq_bv_iff] at h3 h3'; simp [h3, h3', h4, h4']; done)
  | (rw [Val.beq_bv_iff] at h4 h4'; simp [h3, h3', h4, h4']; done)
  | (simp [h3, h3', h4, h4']; done)
  | (simp only [h3, h3', h4, h4']
     simp only [Bool.and_comm (decide (BV.getMSB x.toBV = _)),
       eq_comm (a := BV.extract (v - 1) 0 x.toBV)]
     simp)

/-- C6, as the claim states it, fails at `fpBits = 64`: `VALUE_BITS` is 63 and
`SIGNED_VALUE = 1ull << 64` shifts a 64-bit integer by its width.  The language
leaves that undefined, so `setAbstraction` has no defined result; on hardware
that drops the shifted-out bit `-0` gets the encoding of `+0`, and on hardware
that masks the shift count `-inf` gets the encoding of `NaN`. -/
theorem reserved_distinct_fails_at_64 :
    setAbstraction State.init .FULLY_ABS .FULLY_ABS false 64 = .undefined ∧
    (∃ st, setAbstractionWith shl64Wrap State.init .FULLY_ABS .FULLY_ABS false 64 = .ok st ∧
      st.fpconst_zero_neg = st.fpconst_zero_pos ∧ ¬ ReservedDistinct st) ∧
    (∃ st, setAbstractionWith shl64Mask State.init .FULLY_ABS .FULLY_ABS false 64 = .ok st ∧
      st.fpconst_inf_neg = st.fpconst_nan ∧ ¬ ReservedDistinct st) := by
  refine ⟨setAbstraction_large _ _ _ _ 64 (by norm_num) (by norm_num [U32]), ?_, ?_⟩
  · refine ⟨_, rfl, ?_, ?_⟩
    · simp [updateConstantsWith, setAbstractionWith, shl64Wrap, Outcome.bind, usub32, uadd32,
        uadd64, U32, U64, SIGN_BITS, TYPE_BITS, Expr.mkBV]
    · intro h
      have := h.2
      simp [reservedEncodings, updateConstantsWith, setAbstractionWith, shl64Wrap, Outcome.bind,
        usub32, uadd32, uadd64, U32, U64, SIGN_BITS, TYPE_BITS, Expr.mkBV] at this
  · refine ⟨_, rfl, ?_, ?_⟩
    · simp [updateConstantsWith, setAbstractionWith, shl64Mask, Outcome.bind, usub32, uadd32,
        uadd64, U32, U64, SIGN_BITS, TYPE_BITS, Expr.mkBV]
    · intro h
      have := h.2
      simp [reservedEncodings, updateConstantsWith, setAbstractionWith, shl64Mask, Outcome.bind,
        usub32, uadd32, uadd64, U32, U64, SIGN_BITS, TYPE_BITS, Expr.mkBV] at this

/-- C6, amended: for every `fpBits` from 2 to 63, from any earlier state,
`setAbstraction` returns, and in the state it returns (with `v = fpBits - 1`)
the reserved encodings are the numerals `+0 = 0`, `-0 = 2^(1+v)`, `+inf = 2^v`,
`-inf = 2^(1+v) + 2^v`, `NaN = 2^v + 1` of width `2 + v`, pairwise distinct. -/
theorem reserved_distinct (st0 : State) (afd : AbsLevelFpDot) (aid : AbsLevelIntDot)
    (addAssoc : Bool) (fpBits : Nat) (h2 : 2 ≤ fpBits) (h63 : fpBits ≤ 63) :
    ∃ st, setAbstraction st0 afd aid addAssoc fpBits = .ok st ∧
      st.VALUE_BITS = fpBits - 1 ∧
      st.fpconst_zero_pos = some (.bv 0 (2 + (fpBits - 1))) ∧
      st.fpconst_zero_neg = some (.bv (2 ^ (1 + (fpBits - 1))) (2 + (fpBits - 1))) ∧
      st.fpconst_inf_pos = some (.bv (2 ^ (fpBits - 1)) (2 + (fpBits - 1))) ∧
      st.fpconst_inf_neg =
        some (.bv (2 ^ (1 + (fpBits - 1)) + 2 ^ (fpBits - 1)) (2 + (fpBits - 1))) ∧
      st.fpconst_nan = some (.bv (2 ^ (fpBits - 1) + 1) (2 + (fpBits - 1))) ∧
      ReservedDistinct st := by
  have hv : valueBitsOf fpBits = fpBits - 1 := by
    simp only [valueBitsOf]; rw [if_neg (by omega)]
  refine ⟨_, setAbstraction_ok st0 afd aid addAssoc fpBits (by omega) h63, ?_⟩
  rw [hv]
  have c1 : 2 + (fpBits - 1) = fpBits - 1 + 2 := by omega
  have c2 : 1 + (fpBits - 1) = fpBits - 1 + 1 := by omega
  rw [c1, c2]
  refine ⟨rfl, rfl, rfl, rfl, rfl, rfl, ?_⟩
  have hp1 := two_pow_succ (fpBits - 1)
  have hp5 := two_le_two_pow (v := fpBits - 1) (by omega)
  constructor
  · intro o ho
    simp only [reservedEncodings, sessionStart, List.mem_cons, List.mem_singleton,
      List.not_mem_nil, or_false] at ho
    rcases ho with h | h | h | h | h <;> rw [h] <;> rfl
  · simp only [reservedEncodings, sessionStart, List.nodup_cons, List.mem_cons,
      List.mem_singleton, Option.some.injEq, Expr.bv.injEq, and_true, List.not_mem_nil,
      not_false_eq_true, List.nodup_nil, not_or]
    omega

/-- The amended C6 applies: `fpBits = 8`. -/
theorem reserved_distinct_witness :
    ∃ st, setAbstraction State.init .SUM_MUL .SUM_MUL false 8 = .ok st ∧
      st.VALUE_BITS = 8 - 1 ∧
      st.fpconst_zero_pos = some (.bv 0 (2 + (8 - 1))) ∧
      st.fpconst_zero_neg = some (.bv (2 ^ (1 + (8 - 1))) (2 + (8 - 1))) ∧
      st.fpconst_inf_pos = some (.bv (2 ^ (8 - 1)) (2 + (8 - 1))) ∧
      st.fpconst_inf_neg = some (.bv (2 ^ (1 + (8 - 1)) + 2 ^ (8 - 1)) (2 + (8 - 1))) ∧
      st.fpconst_nan = some (.bv (2 ^ (8 - 1) + 1) (2 + (8 - 1))) ∧
      ReservedDistinct st :=
  reserved_distinct State.init .SUM_MUL .SUM_MUL false 8 (by decide) (by decide)

theorem encFinite_msb (v : Nat) (s : Bool) (a : Nat) (ha : a < 2 ^ v) :
    (encFinite v s a).msb = if s then 1 else 0 := by
  have hp := two_pow_succ v
  have hq := two_pow_pos v
  simp only [Expr.msb, encFinite, Expr.numeralVal, Expr.numeralWidth]
  have e1 : v + 2 - 1 = v + 1 := by omega
  rw [e1]
  cases s
  · have : a / 2 ^ (v + 1) = 0 := Nat.div_eq_of_lt (by omega)
    simp [this]
  · have : (2 ^ (v + 1) + a) / 2 ^ (v + 1) = 1 :=
      Nat.div_eq_of_lt_le (by omega) (by omega)
    simp [this]

theorem encFinite_typeBit (v : Nat) (s : Bool) (a : Nat) (ha : a < 2 ^ v) :
    typeBit v (encFinite v s a) = 0 := by
  have hp := two_pow_succ v
  have hq := two_pow_pos v
  simp only [typeBit, encFinite, Expr.numeralVal]
  cases s
  · have : a / 2 ^ v = 0 := Nat.div_eq_of_lt (by omega)
    simp [this]
  · have : (2 ^ (v + 1) + a) / 2 ^ v = 2 :=
      Nat.div_eq_of_lt_le (by omega) (by omega)
    simp [this]

theorem encFinite_valueField (v : Nat) (s : Bool) (a : Nat) (ha : a < 2 ^ v) :
    valueField v (encFinite v s a) = a := by
  have hp := two_pow_succ v
  simp only [valueField, encFinite, Expr.numeralVal]
  cases s
  · simp [Nat.mod_eq_of_lt ha]
  · simp only [if_true]
    rw [hp, Nat.mul_comm, Nat.mul_add_mod, Nat.mod_eq_of_lt ha]

theorem encFinite_flip (v : Nat) (s : Bool) (a : Nat) (ha : a < 2 ^ v) :
    flipMSB (encFinite v s a) = encFinite v (!s) a := by
  have h := encFinite_msb v s a ha
  simp only [Expr.msb, encFinite, Expr.numeralVal, Expr.numeralWidth] at h
  simp only [flipMSB, encFinite, h]
  have e1 : v + 2 - 1 = v + 1 := by omega
  rw [e1]
  cases s
  · simp [Nat.add_comm]
  · simp

theorem finite_cases {f : Float32} (h : f.isFinite = true) :
    f.isFiniteNonzero = true ∨
      (f.isFiniteNonzero = false ∧ f.isnan = false ∧ f.isinf = false ∧ f.abs = Float32.zero) := by
  simp only [Float32.isFinite, Bool.and_eq_true, Bool.not_eq_true'] at h
  cases hz : f.isZero
  · left; simp [Float32.isFiniteNonzero, h.1, h.2, hz]
  · right
    refine ⟨by simp [Float32.isFiniteNonzero, hz], h.1, h.2, ?_⟩
    apply Float32.eq_of_bits
    simp only [Float32.isZero, decide_eq_true_eq] at hz
    simp only [Float32.abs, hz]; rfl

theorem reservedEnc_zero (v : Nat) (f : Float32) (h1 : f.isnan = false) (h2 : f.isinf = false) :
    reservedEnc v f = .bv (if f.signbit then 2 ^ (v + 1) else 0) (v + 2) := by
  simp [reservedEnc, h1, h2]

/-- C7: in a session, (1) once `fpConst(f)` has returned `e`, every later call
`fpConst(f)`, whatever calls of the interface were made in between, returns the
same `e` (and leaves the state as it is); (2) if `fpConst(f)` and a later
`fpConst(g)` return the same term for finite `f` and `g`, then `|f| = |g|`
and `signbit(f) = signbit(g)`. -/
theorem fpConst_deterministic_injective (st : State) (hs : Session st) :
    (∀ (f : Float32) (e : Expr) (st1 st2 : State),
      fpConst st f = .ok (e, st1) → Later st1 st2 → fpConst st2 f = .ok (e, st2)) ∧
    (∀ (f g : Float32) (e : Expr) (st1 st2 st3 : State),
      f.isFinite = true → g.isFinite = true →
      fpConst st f = .ok (e, st1) → Later st1 st2 → fpConst st2 g = .ok (e, st3) →
      f.abs = g.abs ∧ f.signbit = g.signbit) := by
  have hi := session_inv hs
  constructor
  · intro f e st1 st2 hr hl
    obtain ⟨hi1, hx1, _, hfind, hres⟩ := fpConst_spec st st1 f e hi hr
    obtain ⟨hi2, hx2⟩ := later_inv hi1 hl
    cases hf : f.isFiniteNonzero
    · obtain ⟨_, he⟩ := hres hf
      rw [fpConst_reserved st2 f hi2.consts hf, he, hx2.value_bits, hx1.value_bits]
    · exact fpConst_found st2 f e hf (hx2.find f e hf (hfind hf))
  · intro f g e st1 st2 st3 hf hg hr hl hr'
    obtain ⟨hi1, hx1, _, hfind, hres⟩ := fpConst_spec st st1 f e hi hr
    obtain ⟨hi2, hx2⟩ := later_inv hi1 hl
    obtain ⟨hi3, hx3, _, hfind', hres'⟩ := fpConst_spec st2 st3 g e hi2 hr'
    have hv1 : st1.VALUE_BITS = st.VALUE_BITS := hx1.value_bits
    have hv2 : st2.VALUE_BITS = st.VALUE_BITS := hx2.value_bits.trans hv1
    have hv3 : st3.VALUE_BITS = st.VALUE_BITS := hx3.value_bits.trans hv2
    have hp1 := two_pow_succ st.VALUE_BITS
    have hq := two_pow_pos st.VALUE_BITS
    rcases finite_cases hf with hfo | ⟨hfo, hfn, hfi, hfa⟩ <;>
      rcases finite_cases hg with hgo | ⟨hgo, hgn, hgi, hga⟩
    · -- both in the pool of the last state
      have m1 := hx3.find f e hfo (hx2.find f e hfo (hfind hfo))
      have m2 := hfind' hgo
      obtain ⟨a, _, a2, _, _, a5, _⟩ := hi3.pool.val f e hfo m1
      obtain ⟨b, _, b2, _, _, b5, _⟩ := hi3.pool.val g e hgo m2
      obtain ⟨e1, e2⟩ := encFinite_inj a2 b2 (a5.symm.trans b5)
      refine ⟨?_, e1⟩
      rw [a5] at m1
      rw [b5, ← e2] at m2
      exact hi3.pool.inj f g _ _ a a2 hfo hgo m1 m2
    · exfalso
      have m1 := hfind hfo
      obtain ⟨a, a1, a2, _, _, a5, _⟩ := hi1.pool.val f e hfo m1
      obtain ⟨_, he⟩ := hres' hgo
      rw [reservedEnc_zero _ g hgn hgi, hv2, a5, hv1] at he
      simp only [encFinite, Expr.bv.injEq, and_true] at he
      rw [hv1] at a2
      cases hsf : f.signbit <;> cases hsg : g.signbit <;> simp [hsf, hsg] at he <;> omega
    · exfalso
      have m2 := hfind' hgo
      obtain ⟨b, b1, b2, _, _, b5, _⟩ := hi3.pool.val g e hgo m2
      obtain ⟨_, he⟩ := hres hfo
      rw [reservedEnc_zero _ f hfn hfi, b5, hv3] at he
      simp only [encFinite, Expr.bv.injEq, and_true] at he
      rw [hv3] at b2
      cases hsf : f.signbit <;> cases hsg : g.signbit <;> simp [hsf, hsg] at he <;> omega
    · obtain ⟨_, he⟩ := hres hfo
      obtain ⟨_, he'⟩ := hres' hgo
      rw [reservedEnc_zero _ f hfn hfi] at he
      rw [reservedEnc_zero _ g hgn hgi, hv2, he] at he'
      refine ⟨by rw [hfa, hga], ?_⟩
      simp only [Expr.bv.injEq, and_true] at he'
      cases hsf : f.signbit <;> cases hsg : g.signbit <;> simp [hsf, hsg] at he' <;>
        first | rfl | omega

theorem session8_ok : setAbstraction State.init .SUM_MUL .SUM_MUL false 8 = .ok session8 :=
  setAbstraction_ok _ _ _ _ 8 (by decide) (by decide)

theorem session3_ok : setAbstraction State.init .SUM_MUL .SUM_MUL false 3 = .ok session3 :=
  setAbstraction_ok _ _ _ _ 3 (by decide) (by decide)

theorem session8_session : Session session8 :=
  Session.start (show 8 < U32 by decide) session8_ok

theorem session3_session : Session session3 :=
  Session.start (show 3 < U32 by decide) session3_ok

/-- The C7 theorem applies: after `setAbstraction(.., 8)`, `fpConst(2.0)`,
`fpConst(3.0)`, `fpConst(2.0)` give the numerals 2, 3, 2 of width 9. -/
theorem fpConst_deterministic_injective_witness :
    ∃ st1 st2, Session session8 ∧
      fpConst session8 Float32.two = .ok (.bv 2 9, st1) ∧
      fpConst st1 Float32.three = .ok (.bv 3 9, st2) ∧
      fpConst st2 Float32.two = .ok (.bv 2 9, st2) := by
  have h1 : fpConst session8 Float32.two = .ok (.bv 2 9, allocState session8 Float32.two 2 1) := by
    rw [fpConst_fresh session8 Float32.two (session_inv session8_session) (by decide) (by decide)]
    rfl
  have h2 : fpConst (allocState session8 Float32.two 2 1) Float32.three
      = .ok (.bv 3 9, allocState (allocState session8 Float32.two 2 1) Float32.three 3 2) := by
    rw [fpConst_fresh _ Float32.three (session_inv (Session.step session8_session (Step.fpConst h1)))
      (by decide) (by decide)]
    rfl
  exact ⟨_, _, session8_session, h1, h2,
    (fpConst_deterministic_injective session8 session8_session).1 Float32.two _ _ _ h1
      (Later.step (Later.refl _) (Step.fpConst h2))⟩

theorem fpConst_finite_enc (st : State) (hi : Inv st) (f : Float32)
    (hf : f.isFiniteNonzero = true) (e : Expr) (st1 : State)
    (hr : fpConst st f = .ok (e, st1)) :
    Inv st1 ∧ st1.VALUE_BITS = st.VALUE_BITS ∧
    ∃ a, 1 ≤ a ∧ a < 2 ^ st.VALUE_BITS ∧ (a = 1 ↔ f.abs = Float32.one) ∧
      e = encFinite st.VALUE_BITS f.signbit a ∧
      mapFind f.neg st1.fpconst_absrepr = some (encFinite st.VALUE_BITS (!f.signbit) a) := by
  obtain ⟨hi1, hx1, _, hfind, _⟩ := fpConst_spec st st1 f e hi hr
  obtain ⟨a, a1, a2, a3, _, a5, a6⟩ := hi1.pool.val f e hf (hfind hf)
  rw [hx1.value_bits] at a2 a5 a6
  exact ⟨hi1, hx1.value_bits, a, a1, a2, a3, a5, a6⟩

/-- C8: in a session, for a finite nonzero `f`: once `fpConst(f)` has returned
`e`, every later `fpConst(-f)` returns `e` with only its most significant bit
flipped; and the same with `-f` encoded first and `f` later. -/
theorem fpConst_neg_flips_msb (st : State) (hs : Session st) (f : Float32)
    (hf : f.isFiniteNonzero = true) :
    (∀ (e : Expr) (st1 st2 : State), fpConst st f = .ok (e, st1) → Later st1 st2 →
      fpConst st2 f.neg = .ok (flipMSB e, st2)) ∧
    (∀ (e : Expr) (st1 st2 : State), fpConst st f.neg = .ok (e, st1) → Later st1 st2 →
      fpConst st2 f = .ok (flipMSB e, st2)) := by
  have key : ∀ (g : Float32), g.isFiniteNonzero = true → ∀ (e : Expr) (st1 st2 : State),
      fpConst st g = .ok (e, st1) → Later st1 st2 →
      fpConst st2 g.neg = .ok (flipMSB e, st2) := by
    intro g hg e st1 st2 hr hl
    obtain ⟨hi1, _, a, _, a2, _, a5, a6⟩ := fpConst_finite_enc st (session_inv hs) g hg e st1 hr
    obtain ⟨_, hx2⟩ := later_inv hi1 hl
    rw [a5, encFinite_flip _ _ _ a2]
    exact fpConst_found st2 g.neg _ (Float32.neg_finiteNonzero hg)
      (hx2.find g.neg _ (Float32.neg_finiteNonzero hg) a6)
  refine ⟨key f hf, ?_⟩
  intro e st1 st2 hr hl
  have := key f.neg (Float32.neg_finiteNonzero hf) e st1 st2 hr hl
  rw [Float32.neg_neg] at this
  exact this

/-- The C8 theorem applies: after `setAbstraction(.., 8)`, `fpConst(2.0)` gives
the numeral 2 of width 9 and then `fpConst(-2.0)` gives 258 = 256 + 2. -/
theorem fpConst_neg_flips_msb_witness :
    ∃ st1, Session session8 ∧ Float32.two.isFiniteNonzero = true ∧
      fpConst session8 Float32.two = .ok (.bv 2 9, st1) ∧
      fpConst st1 Float32.two.neg = .ok (.bv 258 9, st1) := by
  have h1 : fpConst session8 Float32.two = .ok (.bv 2 9, allocState session8 Float32.two 2 1) := by
    rw [fpConst_fresh session8 Float32.two (session_inv session8_session) (by decide) (by decide)]
    rfl
  exact ⟨_, session8_session, by decide, h1,
    (fpConst_neg_flips_msb session8 session8_session Float32.two (by decide)).1 _ _ _ h1
      (Later.refl _)⟩

/-- C10, as the claim states it, fails: the code hands out value fields up to
`2^v - 1`, not `2^v - 2`.  After `setAbstraction(.., 3)` (`v = 2`), `fpConst(2.0)`
gets value field 2 and `fpConst(3.0)` gets value field `3 = 2^2 - 1`, which is
outside `[1, 2^2 - 2]`. -/
theorem fpConst_value_range_fails :
    ∃ st1 st2, Session session3 ∧ session3.VALUE_BITS = 2 ∧
      fpConst session3 Float32.two = .ok (.bv 2 4, st1) ∧
      fpConst st1 Float32.three = .ok (.bv 3 4, st2) ∧
      Float32.three.isFiniteNonzero = true ∧
      valueField 2 (.bv 3 4) = 3 ∧ ¬ (valueField 2 (.bv 3 4) ≤ 2 ^ 2 - 2) := by
  have h1 : fpConst session3 Float32.two = .ok (.bv 2 4, allocState session3 Float32.two 2 1) := by
    rw [fpConst_fresh session3 Float32.two (session_inv session3_session) (by decide) (by decide)]
    rfl
  have h2 : fpConst (allocState session3 Float32.two 2 1) Float32.three
      = .ok (.bv 3 4, allocState (allocState session3 Float32.two 2 1) Float32.three 3 2) := by
    rw [fpConst_fresh _ Float32.three (session_inv (Session.step session3_session (Step.fpConst h1)))
      (by decide) (by decide)]
    rfl
  exact ⟨_, _, session3_session, rfl, h1, h2, by decide, by decide, by decide⟩

/-- C10, amended: in a session with `v = VALUE_BITS`, for every finite nonzero
`f`, the term `fpConst(f)` returns is a numeral of width `v + 2` with type bit 0
whose value field is in `[1, 2^v - 1]`, and the value field is 1 exactly when
`|f| = 1.0`. -/
theorem fpConst_value_range (st : State) (hs : Session st) (f : Float32)
    (hf : f.isFiniteNonzero = true) (e : Expr) (st' : State)
    (hr : fpConst st f = .ok (e, st')) :
    e.isNumeral = true ∧ e.numeralWidth = st.VALUE_BITS + 2 ∧
    typeBit st.VALUE_BITS e = 0 ∧
    1 ≤ valueField st.VALUE_BITS e ∧ valueField st.VALUE_BITS e ≤ 2 ^ st.VALUE_BITS - 1 ∧
    (valueField st.VALUE_BITS e = 1 ↔ f.abs = Float32.one) := by
  obtain ⟨_, _, a, a1, a2, a3, a5, _⟩ := fpConst_finite_enc st (session_inv hs) f hf e st' hr
  rw [a5, encFinite_typeBit _ _ _ a2, encFinite_valueField _ _ _ a2]
  exact ⟨rfl, rfl, rfl, a1, by omega, a3⟩

/-- The amended C10 applies: `fpConst(3.0)` after `fpConst(2.0)` with `v = 2`. -/
theorem fpConst_value_range_witness :
    ∃ st1 st2, Session st1 ∧ Float32.three.isFiniteNonzero = true ∧
      fpConst st1 Float32.three = .ok (.bv 3 4, st2) ∧
      valueField st1.VALUE_BITS (.bv 3 4) ≤ 2 ^ st1.VALUE_BITS - 1 := by
  have h1 : fpConst session3 Float32.two = .ok (.bv 2 4, allocState session3 Float32.two 2 1) := by
    rw [fpConst_fresh session3 Float32.two (session_inv session3_session) (by decide) (by decide)]
    rfl
  have hs1 := Session.step session3_session (Step.fpConst h1)
  have h2 : fpConst (allocState session3 Float32.two 2 1) Float32.three
      = .ok (.bv 3 4, allocState (allocState session3 Float32.two 2 1) Float32.three 3 2) := by
    rw [fpConst_fresh _ Float32.three (session_inv hs1) (by decide) (by decide)]
    rfl
  exact ⟨_, _, hs1, by decide, h2,
    (fpConst_value_range _ hs1 Float32.three (by decide) _ _ h2).2.2.2.2.1⟩

/-! ### `fpAdd` and `fpMul` in a session -/

theorem addGives_iff (st : State) (hi : Inv st) (I : Interp) (env : String → Nat)
    (f1 f2 : Expr) (val : Val) :
    AddGives st I env f1 f2 val ↔
      fpAddVal st.VALUE_BITS (symApp I (fpAddDecl st f1) (eval I f1 env) (eval I f2 env))
        (eval I f1 env) (eval I f2 env) = val := by
  simp only [AddGives, fpAdd_eq st hi.consts, Outcome.ok.injEq, Prod.mk.injEq]
  constructor
  · rintro ⟨e, st', ⟨rfl, _⟩, h⟩
    rw [← eval_fpAddTerm]; exact h
  · intro h
    exact ⟨_, _, ⟨rfl, rfl⟩, by rw [eval_fpAddTerm]; exact h⟩

theorem mulGives_iff (st : State) (hi : Inv st) (I : Interp) (env : String → Nat)
    (f1 f2 : Expr) (val : Val) :
    MulGives st I env f1 f2 val ↔
      fpMulVal st.VALUE_BITS (symApp I (fpMulDecl st f1) (eval I f1 env) (eval I f2 env))
        (eval I f1 env) (eval I f2 env) = val := by
  obtain ⟨st1, _, h2⟩ := fpMul_eq st hi f1 f2
  simp only [MulGives, h2, Outcome.ok.injEq, Prod.mk.injEq]
  constructor
  · rintro ⟨e, st', ⟨rfl, _⟩, h⟩
    rw [← eval_fpMulTerm]; exact h
  · intro h
    exact ⟨_, _, ⟨rfl, rfl⟩, by rw [eval_fpMulTerm]; exact h⟩

theorem bv_ne_of_val {w a b : Nat} (h : a ≠ b) : (⟨w, a⟩ : BV) ≠ ⟨w, b⟩ := by
  intro hh; exact h (congrArg BV.val hh)

theorem beq_bv_false {w a b : Nat} (h : a ≠ b) :
    Val.beq (.bv ⟨w, a⟩) (.bv ⟨w, b⟩) = false := by
  simp [Val.beq, h]

theorem beq_bv_true (c : BV) : Val.beq (.bv c) (.bv c) = true := by simp [Val.beq]

theorem beq_false_of_ne {x : Val} {c : BV} (h : x ≠ .bv c) : Val.beq x (.bv c) = false := by
  cases hh : Val.beq x (.bv c)
  · rfl
  · exact absurd ((Val.beq_bv_iff x c).1 hh) h

theorem fpAddVal_id_left (v : Nat) (r : BV) (x : Val) :
    fpAddVal v r (.bv ⟨v + 2, 2 ^ (v + 1)⟩) x = x := by
  simp [fpAddVal, beq_bv_true]

theorem fpAddVal_id_right (v : Nat) (r : BV) (x : Val) :
    fpAddVal v r x (.bv ⟨v + 2, 2 ^ (v + 1)⟩) = x := by
  rw [fpAddVal_comm, fpAddVal_id_left]

theorem fpAddVal_nan_left (v : Nat) (hv : 1 ≤ v) (r : BV) (x : Val) :
    fpAddVal v r (.bv ⟨v + 2, 2 ^ v + 1⟩) x = .bv ⟨v + 2, 2 ^ v + 1⟩ := by
  have hp := two_pow_succ v
  have h2 := two_le_two_pow hv
  have h1 : Val.beq (.bv ⟨v + 2, 2 ^ v + 1⟩) (.bv ⟨v + 2, 2 ^ (v + 1)⟩) = false :=
    beq_bv_false (by omega)
  simp only [fpAddVal, h1, beq_bv_true]
  by_cases hx : x.beq (.bv ⟨v + 2, 2 ^ (v + 1)⟩) = true
  · simp [hx]
  · simp [hx]

theorem fpAddVal_nan_right (v : Nat) (hv : 1 ≤ v) (r : BV) (x : Val) :
    fpAddVal v r x (.bv ⟨v + 2, 2 ^ v + 1⟩) = .bv ⟨v + 2, 2 ^ v + 1⟩ := by
  rw [fpAddVal_comm, fpAddVal_nan_left v hv]

theorem fpAddVal_inf_inf (v : Nat) (hv : 1 ≤ v) (r : BV) :
    fpAddVal v r (.bv ⟨v + 2, 2 ^ v⟩) (.bv ⟨v + 2, 2 ^ (v + 1) + 2 ^ v⟩)
      = .bv ⟨v + 2, 2 ^ v + 1⟩ := by
  have hp := two_pow_succ v
  have h2 := two_le_two_pow hv
  have a1 : Val.beq (.bv ⟨v + 2, 2 ^ v⟩) (.bv ⟨v + 2, 2 ^ (v + 1)⟩) = false :=
    beq_bv_false (by omega)
  have a2 : Val.beq (.bv ⟨v + 2, 2 ^ (v + 1) + 2 ^ v⟩) (.bv ⟨v + 2, 2 ^ (v + 1)⟩) = false :=
    beq_bv_false (by omega)
  have a3 : Val.beq (.bv ⟨v + 2, 2 ^ v⟩) (.bv ⟨v + 2, 2 ^ v + 1⟩) = false :=
    beq_bv_false (by omega)
  have a4 : Val.beq (.bv ⟨v + 2, 2 ^ (v + 1) + 2 ^ v⟩) (.bv ⟨v + 2, 2 ^ v + 1⟩) = false :=
    beq_bv_false (by omega)
  simp [fpAddVal, a1, a2, a3, a4, beq_bv_true]

theorem fpAddVal_inf_left (v : Nat) (hv : 1 ≤ v) (r : BV) (x : Val) (s : Bool)
    (hx : NotSpecial v x) :
    fpAddVal v r (.bv ⟨v + 2, (if s then 2 ^ (v + 1) else 0) + 2 ^ v⟩) x
      = .bv ⟨v + 2, (if s then 2 ^ (v + 1) else 0) + 2 ^ v⟩ := by
  have hp := two_pow_succ v
  have h2 := two_le_two_pow hv
  obtain ⟨x1, x2, x3, x4⟩ := hx
  have b1 := beq_false_of_ne x1
  have b2 := beq_false_of_ne x2
  have b3 := beq_false_of_ne x3
  have b4 := beq_false_of_ne x4
  cases s
  · have a1 : Val.beq (.bv ⟨v + 2, 2 ^ v⟩) (.bv ⟨v + 2, 2 ^ (v + 1)⟩) = false :=
      beq_bv_false (by omega)
    have a3 : Val.beq (.bv ⟨v + 2, 2 ^ v⟩) (.bv ⟨v + 2, 2 ^ v + 1⟩) = false :=
      beq_bv_false (by omega)
    simp [fpAddVal, a1, a3, b1, b2, b3, b4, beq_bv_true]
  · have a2 : Val.beq (.bv ⟨v + 2, 2 ^ (v + 1) + 2 ^ v⟩) (.bv ⟨v + 2, 2 ^ (v + 1)⟩) = false :=
      beq_bv_false (by omega)
    have a4 : Val.beq (.bv ⟨v + 2, 2 ^ (v + 1) + 2 ^ v⟩) (.bv ⟨v + 2, 2 ^ v + 1⟩) = false :=
      beq_bv_false (by omega)
    simp [fpAddVal, a2, a4, b1, b2, b3, b4, beq_bv_true]

theorem fpMulVal_id_left (v : Nat) (r : BV) (x : Val) :
    fpMulVal v r (.bv ⟨v + 2, 1⟩) x = x := by
  simp [fpMulVal, beq_bv_true]

theorem fpMulVal_id_right (v : Nat) (r : BV) (x : Val) :
    fpMulVal v r x (.bv ⟨v + 2, 1⟩) = x := by
  rw [fpMulVal_comm, fpMulVal_id_left]

theorem fpConst_negZero_eq (st : State) (hi : Inv st) :
    fpConst st Float32.negZero = .ok (.bv (2 ^ (st.VALUE_BITS + 1)) (st.VALUE_BITS + 2), st) := by
  rw [fpConst_zero st _ hi.consts (by decide)]
  have : Float32.negZero.signbit = true := by decide
  simp [this]

theorem fpConst_posZero_eq (st : State) (hi : Inv st) :
    fpConst st Float32.zero = .ok (.bv 0 (st.VALUE_BITS + 2), st) := by
  rw [fpConst_zero st _ hi.consts (by decide)]
  have : Float32.zero.signbit = false := by decide
  simp [this]

theorem fpConst_nan_eq (st : State) (hi : Inv st) :
    fpConst st Float32.nan = .ok (.bv (2 ^ st.VALUE_BITS + 1) (st.VALUE_BITS + 2), st) :=
  fpConst_nan st _ hi.consts (by decide)

theorem fpConst_inf_eq (st : State) (hi : Inv st) :
    fpConst st Float32.inf = .ok (.bv (2 ^ st.VALUE_BITS) (st.VALUE_BITS + 2), st) := by
  rw [fpConst_inf st _ hi.consts (by decide)]
  have : Float32.inf.signbit = false := by decide
  simp [this]

theorem fpConst_negInf_eq (st : State) (hi : Inv st) :
    fpConst st Float32.negInf
      = .ok (.bv (2 ^ (st.VALUE_BITS + 1) + 2 ^ st.VALUE_BITS) (st.VALUE_BITS + 2), st) := by
  rw [fpConst_inf st _ hi.consts (by decide)]
  have : Float32.negInf.signbit = true := by decide
  simp [this]

/-- C2: in a session, for every term `x` and every interpretation, the terms
`fpAdd(x, fpConst(-0.0))` and `fpAdd(fpConst(-0.0), x)` have the value of `x`,
and so have `fpMul(x, fpConst(1.0))` and `fpMul(fpConst(1.0), x)`; all four
calls return. -/
theorem identity_elements (st : State) (hs : Session st) (I : Interp) (env : String → Nat)
    (x : Expr) :
    (∃ c, fpConst st Float32.negZero = .ok (c, st) ∧
      AddGives st I env x c (eval I x env) ∧ AddGives st I env c x (eval I x env)) ∧
    (∃ c st1, fpConst st Float32.one = .ok (c, st1) ∧
      MulGives st1 I env x c (eval I x env) ∧ MulGives st1 I env c x (eval I x env)) := by
  have hi := session_inv hs
  constructor
  · refine ⟨_, fpConst_negZero_eq st hi, ?_, ?_⟩
    · rw [addGives_iff st hi]; simp only [eval]; exact fpAddVal_id_right _ _ _
    · rw [addGives_iff st hi]; simp only [eval]; exact fpAddVal_id_left _ _ _
  · obtain ⟨st1, h1⟩ := fpConst_one_ok st hi
    obtain ⟨hi1, hx1, _⟩ := fpConst_spec _ _ _ _ hi h1
    refine ⟨_, st1, h1, ?_, ?_⟩
    · rw [mulGives_iff st1 hi1, hx1.value_bits]; simp only [eval]
      exact fpMulVal_id_right _ _ _
    · rw [mulGives_iff st1 hi1, hx1.value_bits]; simp only [eval]
      exact fpMulVal_id_left _ _ _

/-- The C2 theorem applies: the state after `setAbstraction(SUM_MUL, SUM_MUL,
false, 8)` and a symbolic operand. -/
theorem identity_elements_witness :
    Session session8 ∧
    (∃ c, fpConst session8 Float32.negZero = .ok (c, session8) ∧
      AddGives session8 sampleInterp sampleEnv sampleX c (eval sampleInterp sampleX sampleEnv) ∧
      AddGives session8 sampleInterp sampleEnv c sampleX (eval sampleInterp sampleX sampleEnv)) ∧
    (∃ c st1, fpConst session8 Float32.one = .ok (c, st1) ∧
      MulGives st1 sampleInterp sampleEnv sampleX c (eval sampleInterp sampleX sampleEnv) ∧
      MulGives st1 sampleInterp sampleEnv c sampleX (eval sampleInterp sampleX sampleEnv)) :=
  ⟨session8_session, identity_elements session8 session8_session sampleInterp sampleEnv sampleX⟩

/-- C3: in a session with `v` value bits, `fpConst(NaN)` is the numeral
`2^v + 1` of width `v + 2`, and for every term `x` and every interpretation the
terms `fpAdd(NaN, x)` and `fpAdd(x, NaN)` have the value of that numeral; both
calls return. -/
theorem nan_absorption (st : State) (hs : Session st) (I : Interp) (env : String → Nat)
    (x : Expr) :
    ∃ c, fpConst st Float32.nan = .ok (c, st) ∧
      c = .bv (2 ^ st.VALUE_BITS + 1) (st.VALUE_BITS + 2) ∧
      AddGives st I env c x (eval I c env) ∧ AddGives st I env x c (eval I c env) := by
  have hi := session_inv hs
  refine ⟨_, fpConst_nan_eq st hi, rfl, ?_, ?_⟩
  · rw [addGives_iff st hi]; simp only [eval]
    exact fpAddVal_nan_left _ hi.consts.v_pos _ _
  · rw [addGives_iff st hi]; simp only [eval]
    exact fpAddVal_nan_right _ hi.consts.v_pos _ _

/-- The C3 theorem applies: the state after `setAbstraction(SUM_MUL, SUM_MUL,
false, 8)` and a symbolic operand. -/
theorem nan_absorption_witness :
    Session session8 ∧
    ∃ c, fpConst session8 Float32.nan = .ok (c, session8) ∧
      c = .bv (2 ^ session8.VALUE_BITS + 1) (session8.VALUE_BITS + 2) ∧
      AddGives session8 sampleInterp sampleEnv c sampleX (eval sampleInterp c sampleEnv) ∧
      AddGives session8 sampleInterp sampleEnv sampleX c (eval sampleInterp c sampleEnv) :=
  ⟨session8_session, nan_absorption session8 session8_session sampleInterp sampleEnv sampleX⟩

/-- C4: in a session, with `pinf`, `ninf`, `nan`, `nz` the terms `fpConst`
returns for `+inf`, `-inf`, NaN and `-0`: `fpAdd(pinf, ninf)` and
`fpAdd(ninf, pinf)` have the value of `nan`; and for every term `x` whose value
is none of those of `pinf`, `ninf`, `nan`, `nz`, the terms `fpAdd(pinf, x)` and
`fpAdd(x, pinf)` have the value of `pinf`, and `fpAdd(ninf, x)` and
`fpAdd(x, ninf)` that of `ninf`.  All calls return. -/
theorem infinity_arithmetic (st : State) (hs : Session st) (I : Interp)
    (env : String → Nat) :
    ∃ pinf ninf nan nz,
      fpConst st Float32.inf = .ok (pinf, st) ∧ fpConst st Float32.negInf = .ok (ninf, st) ∧
      fpConst st Float32.nan = .ok (nan, st) ∧ fpConst st Float32.negZero = .ok (nz, st) ∧
      AddGives st I env pinf ninf (eval I nan env) ∧
      AddGives st I env ninf pinf (eval I nan env) ∧
      ∀ x : Expr, eval I x env ≠ eval I pinf env → eval I x env ≠ eval I ninf env →
        eval I x env ≠ eval I nan env → eval I x env ≠ eval I nz env →
        AddGives st I env pinf x (eval I pinf env) ∧
        AddGives st I env x pinf (eval I pinf env) ∧
        AddGives st I env ninf x (eval I ninf env) ∧
        AddGives st I env x ninf (eval I ninf env) := by
  have hi := session_inv hs
  have hv := hi.consts.v_pos
  refine ⟨_, _, _, _, fpConst_inf_eq st hi, fpConst_negInf_eq st hi, fpConst_nan_eq st hi,
    fpConst_negZero_eq st hi, ?_, ?_, ?_⟩
  · rw [addGives_iff st hi]; simp only [eval]
    exact fpAddVal_inf_inf _ hv _
  · rw [addGives_iff st hi, fpAddVal_comm]; simp only [eval]
    exact fpAddVal_inf_inf _ hv _
  · intro x h1 h2 h3 h4
    simp only [eval] at h1 h2 h3 h4
    have hns : NotSpecial st.VALUE_BITS (eval I x env) := ⟨h4, h3, h1, h2⟩
    have p := fpAddVal_inf_left st.VALUE_BITS hv
    refine ⟨?_, ?_, ?_, ?_⟩
    · rw [addGives_iff st hi]; simp only [eval]
      have := p (symApp I (fpAddDecl st (.bv (2 ^ st.VALUE_BITS) (st.VALUE_BITS + 2)))
        (.bv ⟨st.VALUE_BITS + 2, 2 ^ st.VALUE_BITS⟩) (eval I x env)) (eval I x env) false hns
      simpa using this
    · rw [addGives_iff st hi, fpAddVal_comm]; simp only [eval]
      have := p (symApp I (fpAddDecl st x) (eval I x env)
        (.bv ⟨st.VALUE_BITS + 2, 2 ^ st.VALUE_BITS⟩)) (eval I x env) false hns
      simpa using this
    · rw [addGives_iff st hi]; simp only [eval]
      have := p (symApp I
        (fpAddDecl st (.bv (2 ^ (st.VALUE_BITS + 1) + 2 ^ st.VALUE_BITS) (st.VALUE_BITS + 2)))
        (.bv ⟨st.VALUE_BITS + 2, 2 ^ (st.VALUE_BITS + 1) + 2 ^ st.VALUE_BITS⟩) (eval I x env))
        (eval I x env) true hns
      simpa using this
    · rw [addGives_iff st hi, fpAddVal_comm]; simp only [eval]
      have := p (symApp I (fpAddDecl st x) (eval I x env)
        (.bv ⟨st.VALUE_BITS + 2, 2 ^ (st.VALUE_BITS + 1) + 2 ^ st.VALUE_BITS⟩))
        (eval I x env) true hns
      simpa using this

/-- The C4 theorem applies: the state after `setAbstraction(SUM_MUL, SUM_MUL,
false, 8)`; there `+inf + -inf` is the NaN numeral 129, and for the numeral 2
(the encoding of `2.0`) `+inf + 2.0` is the `+inf` numeral 128. -/
theorem infinity_arithmetic_witness :
    Session session8 ∧
    AddGives session8 sampleInterp sampleEnv (.bv 128 9) (.bv 384 9) (.bv ⟨9, 129⟩) ∧
    AddGives session8 sampleInterp sampleEnv (.bv 128 9) (.bv 2 9) (.bv ⟨9, 128⟩) := by
  obtain ⟨pinf, ninf, nan, nz, h1, h2, h3, h4, h5, _, h7⟩ :=
    infinity_arithmetic session8 session8_session sampleInterp sampleEnv
  rw [fpConst_inf_eq session8 (session_inv session8_session)] at h1
  rw [fpConst_negInf_eq session8 (session_inv session8_session)] at h2
  rw [fpConst_nan_eq session8 (session_inv session8_session)] at h3
  rw [fpConst_negZero_eq session8 (session_inv session8_session)] at h4
  cases h1; cases h2; cases h3; cases h4
  refine ⟨session8_session, h5, ?_⟩
  have := (h7 (.bv 2 9) (by simp [eval]; decide) (by simp [eval]; decide)
    (by simp [eval]; decide) (by simp [eval]; decide)).1
  exact this

theorem bv_fields (v X : Nat) (hX : X < 2 ^ (v + 2)) (ht : X / 2 ^ v % 2 = 0) :
    (X / 2 ^ (v + 1) = 0 ∧ X = X % 2 ^ v) ∨
    (X / 2 ^ (v + 1) = 1 ∧ X = 2 ^ v * 2 + X % 2 ^ v) := by
  have h1 := Nat.div_add_mod X (2 ^ v)
  have h2 := Nat.div_add_mod (X / 2 ^ v) 2
  have h3 : X / 2 ^ v / 2 = X / 2 ^ (v + 1) := by
    rw [Nat.div_div_eq_div_mul, pow_succ]
  rw [h3, ht] at h2
  have h4 : X / 2 ^ (v + 1) < 2 := by
    apply Nat.div_lt_of_lt_mul
    have : 2 ^ (v + 2) = 2 ^ (v + 1) * 2 := by rw [pow_succ]
    omega
  have h5 : X / 2 ^ (v + 1) = 0 ∨ X / 2 ^ (v + 1) = 1 := by omega
  rcases h5 with h5 | h5
  · left
    refine ⟨h5, ?_⟩
    rw [h5] at h2
    have : X / 2 ^ v = 0 := by omega
    rw [this] at h1
    simp at h1
    exact h1.symm
  · right
    refine ⟨h5, ?_⟩
    rw [h5] at h2
    have : X / 2 ^ v = 2 := by omega
    rw [this] at h1
    exact h1.symm

theorem fpAddVal_inverse (v : Nat) (hv : 1 ≤ v) (r : BV) (X Y : Nat)
    (hX : X < 2 ^ (v + 2)) (hY : Y < 2 ^ (v + 2))
    (tX : X / 2 ^ v % 2 = 0) (tY : Y / 2 ^ v % 2 = 0)
    (hval : X % 2 ^ v = Y % 2 ^ v) (hsign : X / 2 ^ (v + 1) ≠ Y / 2 ^ (v + 1)) :
    fpAddVal v r (.bv ⟨v + 2, X⟩) (.bv ⟨v + 2, Y⟩) = .bv ⟨v + 2, 0⟩ := by
  have hp := two_pow_succ v
  have h2 := two_le_two_pow hv
  have hlt : X % 2 ^ v < 2 ^ v := Nat.mod_lt _ (by omega)
  have e1 : v + 2 - 1 = v + 1 := by omega
  have e2 : v - 1 - 0 + 1 = v := by omega
  -- it is enough to treat a negative `X` and a positive `Y`
  have main : ∀ (X Y : Nat), X / 2 ^ (v + 1) = 1 → Y / 2 ^ (v + 1) = 0 →
      X = 2 ^ v * 2 + X % 2 ^ v → Y = Y % 2 ^ v → X % 2 ^ v = Y % 2 ^ v →
      X % 2 ^ v < 2 ^ v →
      fpAddVal v r (.bv ⟨v + 2, X⟩) (.bv ⟨v + 2, Y⟩) = .bv ⟨v + 2, 0⟩ := by
    intro X Y sX sY dX dY hval hlt
    by_cases ha : X % 2 ^ v = 0
    · have hXv : X = 2 ^ (v + 1) := by omega
      have hYv : Y = 0 := by omega
      rw [hXv, hYv]
      exact fpAddVal_id_left _ _ _
    · have n1 : X ≠ 2 ^ (v + 1) := by omega
      have n2 : Y ≠ 2 ^ (v + 1) := by omega
      have n3 : X ≠ 2 ^ v + 1 := by omega
      have n4 : Y ≠ 2 ^ v + 1 := by omega
      have n5 : X ≠ 2 ^ v := by omega
      have n6 : X ≠ 2 ^ (v + 1) + 2 ^ v := by omega
      have n7 : Y ≠ 2 ^ v := by omega
      have n8 : Y ≠ 2 ^ (v + 1) + 2 ^ v := by omega
      simp only [fpAddVal, beq_bv_false n1, beq_bv_false n2, beq_bv_false n3, beq_bv_false n4,
        beq_bv_false n5, beq_bv_false n6, beq_bv_false n7, beq_bv_false n8, Val.toBV,
        BV.getMSB, BV.extract, e1, e2, sX, sY, pow_zero, Nat.div_one, hval]
      simp
  rcases bv_fields v X hX tX with ⟨sX, dX⟩ | ⟨sX, dX⟩ <;>
    rcases bv_fields v Y hY tY with ⟨sY, dY⟩ | ⟨sY, dY⟩
  · exact absurd (sX.trans sY.symm) hsign
  · rw [fpAddVal_comm]
    exact main Y X sY sX dY dX hval.symm (hval ▸ hlt)
  · exact main X Y sX sY dX dY hval hlt
  · exact absurd (sX.trans sY.symm) hsign

/-- C5: in a session with `v` value bits, let the terms `x` and `y` have
bit-vector values of width `v + 2` that are both finite (type bit, bit `v`,
is 0), have equal value fields (low `v` bits) and different sign bits (bit
`v + 1`).  Then `fpAdd(x, y)` returns a term whose value is that of
`fpConst(0.0)`, the numeral 0, for every interpretation. -/
theorem additive_inverse (st : State) (hs : Session st) (I : Interp) (env : String → Nat)
    (x y : Expr) (bx bY : BV)
    (hx : eval I x env = .bv bx) (hy : eval I y env = .bv bY)
    (wx : bx.width = st.VALUE_BITS + 2) (wy : bY.width = st.VALUE_BITS + 2)
    (rx : bx.val < 2 ^ (st.VALUE_BITS + 2)) (ry : bY.val < 2 ^ (st.VALUE_BITS + 2))
    (tx : bx.val / 2 ^ st.VALUE_BITS % 2 = 0) (ty : bY.val / 2 ^ st.VALUE_BITS % 2 = 0)
    (hval : bx.val % 2 ^ st.VALUE_BITS = bY.val % 2 ^ st.VALUE_BITS)
    (hsign : bx.val / 2 ^ (st.VALUE_BITS + 1) ≠ bY.val / 2 ^ (st.VALUE_BITS + 1)) :
    ∃ z, fpConst st Float32.zero = .ok (z, st) ∧ z = .bv 0 (st.VALUE_BITS + 2) ∧
      AddGives st I env x y (eval I z env) := by
  have hi := session_inv hs
  refine ⟨_, fpConst_posZero_eq st hi, rfl, ?_⟩
  rw [addGives_iff st hi, hx, hy]
  obtain ⟨w1, X⟩ := bx
  obtain ⟨w2, Y⟩ := bY
  simp only at wx wy rx ry tx ty hval hsign
  subst wx wy
  simp only [eval]
  exact fpAddVal_inverse _ hi.consts.v_pos _ X Y rx ry tx ty hval hsign

/-- The C5 theorem applies to the pair `(+0, -0)`: after `setAbstraction(..,
8)`, `fpAdd(fpConst(0.0), fpConst(-0.0))` has the value of `fpConst(0.0)`. -/
theorem additive_inverse_witness :
    Session session8 ∧
    fpConst session8 Float32.zero = .ok (.bv 0 9, session8) ∧
    fpConst session8 Float32.negZero = .ok (.bv 256 9, session8) ∧
    AddGives session8 sampleInterp sampleEnv (.bv 0 9) (.bv 256 9) (.bv ⟨9, 0⟩) := by
  obtain ⟨z, h1, h2, h3⟩ := additive_inverse session8 session8_session sampleInterp sampleEnv
    (.bv 0 9) (.bv 256 9) ⟨9, 0⟩ ⟨9, 256⟩ rfl rfl rfl rfl (by decide) (by decide)
    (by decide) (by decide) (by decide) (by decide)
  subst h2
  exact ⟨session8_session, h1, fpConst_negZero_eq session8 (session_inv session8_session), h3⟩

/-! ### Reductions: the same value from operands with the same values -/

theorem mkZeroElemFromArr_congr (ib : Nat) (a b : Expr) (h : a.sort = b.sort) :
    mkZeroElemFromArr ib a = mkZeroElemFromArr ib b := by
  simp only [mkZeroElemFromArr, Expr.sort, h]

theorem eval_maskedLambda_congr (I : Interp) (ib : Nat) (a b n zero : Expr)
    (h : ∀ env, eval I a env = eval I b env) (env : String → Nat) :
    eval I (maskedLambda ib a n zero) env = eval I (maskedLambda ib b n zero) env := by
  simp only [maskedLambda, Expr.mkLambda, Expr.mkIte, eval, h]

theorem eval_app1_congr (I : Interp) (env : String → Nat) (d : FnDecl) (x y : Expr)
    (h : eval I x env = eval I y env) : eval I (d.apply1 x) env = eval I (d.apply1 y) env := by
  simp only [FnDecl.apply1, eval, h]

theorem fpMultisetSumLoop_congr (I : Interp) (ib : Nat) (a b : Expr) (len : Nat)
    (h : ∀ env, eval I a env = eval I b env) :
    ∀ (fuel i : Nat) (bag1 bag2 : Expr), (∀ env, eval I bag1 env = eval I bag2 env) →
      bag1.sort = bag2.sort →
      (∃ r1 r2, fpMultisetSumLoop ib a len fuel i bag1 = .ok r1 ∧
        fpMultisetSumLoop ib b len fuel i bag2 = .ok r2 ∧
        (∀ env, eval I r1 env = eval I r2 env) ∧ r1.sort = r2.sort) ∨
      (fpMultisetSumLoop ib a len fuel i bag1 = .outOfFuel ∧
        fpMultisetSumLoop ib b len fuel i bag2 = .outOfFuel) := by
  intro fuel
  induction fuel with
  | zero => intro i bag1 bag2 _ _; right; exact ⟨rfl, rfl⟩
  | succ fuel ih =>
    intro i bag1 bag2 hb hs
    simp only [fpMultisetSumLoop]
    by_cases hlt : i < len
    · simp only [hlt, if_true]
      apply ih
      · intro env
        simp only [Expr.simplify, eval, hb, h]
      · simp only [Expr.simplify, Expr.sort, hs]
    · simp only [hlt, if_false]
      left
      exact ⟨_, _, rfl, rfl, hb, hs⟩

theorem fpMultisetSum_congr (I : Interp) (env : String → Nat) (ib fuel : Nat) (st : State)
    (a b n : Expr) (h : ∀ env, eval I a env = eval I b env) :
    SameValue I env (fpMultisetSum ib fuel st a n) (fpMultisetSum ib fuel st b n) := by
  unfold fpMultisetSum
  cases hn : n.isUInt with
  | none => simp only [Outcome.bind, SameValue]
  | some len =>
    simp only [Outcome.bind]
    rcases fpMultisetSumLoop_congr I ib a b len h fuel 0 (Expr.mkEmptyBag (fpSort st))
      (Expr.mkEmptyBag (fpSort st)) (fun _ => rfl) rfl with
      ⟨r1, r2, h1, h2, h3, h4⟩ | ⟨h1, h2⟩
    · simp only [h1, h2, deref, SameValue, h4]
      exact eval_app1_congr I env _ r1 r2 (h3 env)
    · simp only [h1, h2, SameValue]

theorem fpSum_congr (I : Interp) (env : String → Nat) (ib fuel : Nat) (st : State)
    (a b n : Expr) (h : ∀ env, eval I a env = eval I b env) (hs : a.sort = b.sort) :
    SameValue I env (fpSum ib fuel st a n) (fpSum ib fuel st b n) := by
  unfold fpSum
  by_cases hc : (st.isFpAddAssociative && st.useMultiset) = true
  · simp only [hc, if_true]
    exact fpMultisetSum_congr I env ib fuel _ a b n h
  · simp only [hc, deref, Outcome.bind, SameValue, hs, mkZeroElemFromArr_congr ib a b hs]
    apply eval_app1_congr
    exact eval_maskedLambda_congr I ib a b n _ h env

theorem fpSum_ok_of_lambda (ib fuel : Nat) (st : State) (a n : Expr)
    (hc : (st.isFpAddAssociative && st.useMultiset) = false) :
    ∃ e st', fpSum ib fuel st a n = .ok (e, st') := by
  unfold fpSum
  simp only [hc, deref, Outcome.bind]
  exact ⟨_, _, rfl⟩

theorem select_sort_congr (a b i : Expr) (h : a.sort = b.sort) :
    (Expr.select a i).sort = (Expr.select b i).sort := by
  simp only [Expr.sort, h]

theorem eval_fpMulTerm_comm (I : Interp) (env : String → Nat) (v : Nat) (d : FnDecl)
    (f1 f2 : Expr) :
    eval I (fpMulTerm v d f1 f2) env = eval I (fpMulTerm v d f2 f1) env := by
  rw [eval_fpMulTerm, eval_fpMulTerm, fpMulVal_comm, symApp_comm]

theorem eval_lambda_congr (I : Interp) (v m1 m2 : Expr)
    (h : ∀ env, eval I m1 env = eval I m2 env) (env : String → Nat) :
    eval I (Expr.mkLambda v m1) env = eval I (Expr.mkLambda v m2) env := by
  simp only [Expr.mkLambda, eval, h]

theorem fpDot_comm (I : Interp) (env : String → Nat) (ib fuel : Nat) (st : State)
    (hi : Inv st) (a b n : Expr) (hs : a.sort = b.sort) :
    SameValue I env (fpDot ib fuel st a b n) (fpDot ib fuel st b a n) := by
  unfold fpDot
  cases hl : st.alFpDot
  · simp only [deref, Outcome.bind, SameValue, hs, mkZeroElemFromArr_congr ib a b hs,
      FnDecl.apply2, eval]
    congr 1
    simp only [BV.add]
    rw [cast_width _ (I.fn _ [_, _]) (I.fn _ [_, _]), Nat.add_comm]
  · simp only
    have hss := select_sort_congr a b (Index.var ib "idx") hs
    obtain ⟨st1, h1, h2⟩ := fpMul_eq st hi (Expr.select a (Index.var ib "idx"))
      (Expr.select b (Index.var ib "idx"))
    obtain ⟨st1', h1', h2'⟩ := fpMul_eq st hi (Expr.select b (Index.var ib "idx"))
      (Expr.select a (Index.var ib "idx"))
    have hd : fpMulDecl st (Expr.select b (Index.var ib "idx"))
        = fpMulDecl st (Expr.select a (Index.var ib "idx")) := by
      simp only [fpMulDecl, hss]
    have hst : fpMulState st (Expr.select b (Index.var ib "idx"))
        = fpMulState st (Expr.select a (Index.var ib "idx")) := by
      simp only [fpMulState, hd]
    rw [hst, h1] at h1'
    cases h1'
    rw [hd] at h2'
    rw [h2, h2']
    simp only [Outcome.bind]
    apply fpSum_congr
    · intro env'
      exact eval_lambda_congr I _ _ _ (fun e => eval_fpMulTerm_comm I e _ _ _ _) env'
    · simp only [Expr.mkLambda, Expr.sort, fpMulTerm, hs]

theorem fpDot_ok (ib fuel : Nat) (st : State) (hi : Inv st) (a b n : Expr)
    (hc : st.alFpDot = .FULLY_ABS ∨ (st.isFpAddAssociative && st.useMultiset) = false) :
    ∃ e st', fpDot ib fuel st a b n = .ok (e, st') := by
  unfold fpDot
  cases hl : st.alFpDot
  · simp only [deref, Outcome.bind]
    exact ⟨_, _, rfl⟩
  · rcases hc with hc | hc
    · rw [hl] at hc; cases hc
    · simp only
      obtain ⟨st1, h1, h2⟩ := fpMul_eq st hi (Expr.select a (Index.var ib "idx"))
        (Expr.select b (Index.var ib "idx"))
      rw [h2]
      simp only [Outcome.bind]
      obtain ⟨_, _, hfr, _⟩ := fpConst_spec _ _ _ _
        (⟨{ hi.consts with }, { hi.pool with }⟩ :
          Inv (fpMulState st (Expr.select a (Index.var ib "idx")))) h1
      apply fpSum_ok_of_lambda
      rw [hfr]
      exact hc

theorem intSum_congr (I : Interp) (env : String → Nat) (ib : Nat) (st : State)
    (a b n : Expr) (h : ∀ env, eval I a env = eval I b env) (hs : a.sort = b.sort) :
    ∃ e1 e2 s1 s2, intSum ib st a n = .ok (e1, s1) ∧ intSum ib st b n = .ok (e2, s2) ∧
      eval I e1 env = eval I e2 env := by
  unfold intSum
  simp only [hs, mkZeroElemFromArr_congr ib a b hs]
  refine ⟨_, _, _, _, rfl, rfl, ?_⟩
  apply eval_app1_congr
  exact eval_maskedLambda_congr I ib a b n _ h env

theorem intDot_comm (I : Interp) (env : String → Nat) (ib : Nat) (st : State)
    (a b n : Expr) (hs : a.sort = b.sort) (hw : SameElemWidth I a b) :
    ∃ e1 e2 s1 s2, intDot ib st a b n = .ok (e1, s1) ∧ intDot ib st b a n = .ok (e2, s2) ∧
      eval I e1 env = eval I e2 env := by
  unfold intDot
  cases hl : st.alIntDot
  · simp only [hs, mkZeroElemFromArr_congr ib a b hs]
    refine ⟨_, _, _, _, rfl, rfl, ?_⟩
    simp only [FnDecl.apply2, eval]
    congr 1
    simp only [BV.add]
    rw [cast_width _ (I.fn _ [_, _]) (I.fn _ [_, _]), Nat.add_comm]
  · simp only
    apply intSum_congr
    · intro env'
      simp only [Expr.mkLambda, eval, Val.toBV, BV.mul]
      congr 1
      funext k
      rw [hw, Nat.mul_comm]
    · simp only [Expr.mkLambda, Expr.sort, hs]

/-- C1: in a session, for every interpretation: (1) for all terms `x`, `y`
(the reserved constants and `1.0` included) `fpAdd(x, y)` and `fpAdd(y, x)`
return terms with the same value, also when the second call is made after the
first; (2) the same for `fpMul`; (3) for arrays `a`, `b` of one sort and every
length `n`, `fpDot(a, b, n)` and `fpDot(b, a, n)` end the same way and return
terms with the same value, and they do return under `FULLY_ABS` and outside
multiset mode; (4) for integer arrays `a`, `b` of one sort, `intDot(a, b, n)`
and `intDot(b, a, n)` return terms with the same value. -/
theorem commutativity (st : State) (hs : Session st) (I : Interp) (env : String → Nat) :
    (∀ x y : Expr, ∃ val, AddGives st I env x y val ∧ AddGives st I env y x val ∧
      ∀ e1 st1, fpAdd st x y = .ok (e1, st1) → AddGives st1 I env y x val) ∧
    (∀ x y : Expr, ∃ val, MulGives st I env x y val ∧ MulGives st I env y x val ∧
      ∀ e1 st1, fpMul st x y = .ok (e1, st1) → MulGives st1 I env y x val) ∧
    (∀ (ib fuel : Nat) (a b n : Expr), a.sort = b.sort →
      SameValue I env (fpDot ib fuel st a b n) (fpDot ib fuel st b a n) ∧
      (st.alFpDot = .FULLY_ABS ∨ (st.isFpAddAssociative && st.useMultiset) = false →
        ∃ e st', fpDot ib fuel st a b n = .ok (e, st'))) ∧
    (∀ (ib : Nat) (a b n : Expr), a.sort = b.sort → SameElemWidth I a b →
      ∃ e1 e2 s1 s2, intDot ib st a b n = .ok (e1, s1) ∧ intDot ib st b a n = .ok (e2, s2) ∧
        eval I e1 env = eval I e2 env) := by
  have hi := session_inv hs
  refine ⟨?_, ?_, ?_, ?_⟩
  · intro x y
    refine ⟨_, (addGives_iff st hi I env x y _).2 rfl, ?_, ?_⟩
    · rw [addGives_iff st hi, fpAddVal_comm, symApp_comm]
      simp only [symApp, fpAddDecl, emplaceIfEmpty]
      cases st.fp_addfn <;> rfl
    · intro e1 st1 hr
      have hs1 : Session st1 := Session.step hs (Step.fpAdd hr)
      rw [fpAdd_eq st hi.consts] at hr
      cases hr
      rw [addGives_iff _ (session_inv hs1), fpAddVal_comm, symApp_comm]
      rfl
  · intro x y
    refine ⟨_, (mulGives_iff st hi I env x y _).2 rfl, ?_, ?_⟩
    · rw [mulGives_iff st hi, fpMulVal_comm, symApp_comm]
      simp only [symApp, fpMulDecl, emplaceIfEmpty]
      cases st.fp_mulfn <;> rfl
    · intro e1 st1 hr
      have hs1 : Session st1 := Session.step hs (Step.fpMul hr)
      obtain ⟨st1', h1, h2⟩ := fpMul_eq st hi x y
      rw [h2] at hr
      cases hr
      obtain ⟨_, hx, hfr, _⟩ := fpConst_spec _ _ _ _
        (⟨{ hi.consts with }, { hi.pool with }⟩ : Inv (fpMulState st x)) h1
      rw [mulGives_iff _ (session_inv hs1), fpMulVal_comm, symApp_comm]
      have hd : fpMulDecl st1 y = fpMulDecl st x := by
        rw [hfr]; rfl
      rw [hd, hx.value_bits]
      rfl
  · intro ib fuel a b n hab
    exact ⟨fpDot_comm I env ib fuel st hi a b n hab, fpDot_ok ib fuel st hi a b n⟩
  · intro ib a b n hab hw
    exact intDot_comm I env ib st a b n hab hw

/-- The C1 theorem applies: the state after `setAbstraction(SUM_MUL, SUM_MUL,
false, 8)`, symbolic operands `x`, `y`, symbolic arrays `a`, `b` and a
symbolic length `n`. -/
theorem commutativity_witness :
    Session session8 ∧
    (∃ val, AddGives session8 sampleInterp sampleEnv sampleX sampleY val ∧
      AddGives session8 sampleInterp sampleEnv sampleY sampleX val) ∧
    (∃ val, MulGives session8 sampleInterp sampleEnv sampleX sampleY val ∧
      MulGives session8 sampleInterp sampleEnv sampleY sampleX val) ∧
    SameValue sampleInterp sampleEnv (fpDot 32 0 session8 sampleA sampleB sampleN)
      (fpDot 32 0 session8 sampleB sampleA sampleN) ∧
    (∃ e st', fpDot 32 0 session8 sampleA sampleB sampleN = .ok (e, st')) ∧
    (∃ e1 e2 s1 s2, intDot 32 session8 sampleA sampleB sampleN = .ok (e1, s1) ∧
      intDot 32 session8 sampleB sampleA sampleN = .ok (e2, s2) ∧
      eval sampleInterp e1 sampleEnv = eval sampleInterp e2 sampleEnv) := by
  obtain ⟨h1, h2, h3, h4⟩ := commutativity session8 session8_session sampleInterp sampleEnv
  obtain ⟨v1, a1, a2, _⟩ := h1 sampleX sampleY
  obtain ⟨v2, m1, m2, _⟩ := h2 sampleX sampleY
  obtain ⟨d1, d2⟩ := h3 32 0 sampleA sampleB sampleN rfl
  exact ⟨session8_session, ⟨v1, a1, a2⟩, ⟨v2, m1, m2⟩, d1, d2 (Or.inr rfl),
    h4 32 sampleA sampleB sampleN rfl (fun _ _ => rfl)⟩

theorem mapFind_of_mem {β : Type} (k : Float32) (e : β) :
    ∀ (l : List (Float32 × β)), (∀ p ∈ l, p.1.isFiniteNonzero = true) →
      (l.map Prod.fst).Nodup → (k, e) ∈ l → mapFind k l = some e := by
  intro l
  induction l with
  | nil => intro _ _ h; cases h
  | cons p rest ih =>
    intro hl hnd hmem
    obtain ⟨k', v⟩ := p
    have hk' : k'.isFiniteNonzero = true := hl (k', v) (List.mem_cons_self _ _)
    have hk : k.isFiniteNonzero = true := hl (k, e) hmem
    rw [mapFind_cons k k' v rest hk hk']
    rw [List.map_cons, List.nodup_cons] at hnd
    rcases List.mem_cons.1 hmem with h | h
    · cases h
      rw [if_pos rfl]
    · have hne : k ≠ k' := by
        intro hh
        apply hnd.1
        rw [← hh]
        exact List.mem_map.2 ⟨(k, e), h, rfl⟩
      rw [if_neg hne]
      exact ih (fun p hp => hl p (List.mem_cons_of_mem _ hp)) hnd.2 h

theorem filter_unique {α : Type} [DecidableEq α] (l : List α) (hnd : l.Nodup) (x : α)
    (hx : x ∈ l) (p : α → Bool) (hp : ∀ y ∈ l, p y = true ↔ y = x) :
    l.filter p = [x] := by
  have h1 : l.filter p = l.filter (fun y => decide (y = x)) := by
    apply List.filter_congr
    intro y hy
    by_cases h : y = x
    · simp [h, (hp x hx).2 rfl]
    · have : p y = false := by
        cases hpy : p y
        · rfl
        · exact absurd ((hp y hy).1 hpy) h
      simp [h, this]
  rw [h1, List.filter_eq, List.count_eq_one_of_mem hnd hx]
  rfl

theorem filter_none {α : Type} (l : List α) (p : α → Bool) (hp : ∀ y ∈ l, p y = false) :
    l.filter p = [] := by
  rw [List.filter_eq_nil_iff]
  intro y hy
  rw [hp y hy]
  exact Bool.false_ne_true

theorem encFinite_not_reserved (v : Nat) (s : Bool) (a : Nat) (h1 : 1 ≤ a) (h2 : a < 2 ^ v) :
    ¬ isReservedEnc v (encFinite v s a) := by
  have hp : 2 ^ (v + 1) = 2 * 2 ^ v := two_pow_succ v
  unfold isReservedEnc encFinite
  cases s <;> simp <;> omega

/-- Every entry of the pool of a session carries the encoding of its key. -/
theorem pool_entry (st : State) (hi : Inv st) (p : Float32 × Expr)
    (hp : p ∈ st.fpconst_absrepr) :
    p.1.isFiniteNonzero = true ∧ mapFind p.1 st.fpconst_absrepr = some p.2 ∧
    ∃ a, 1 ≤ a ∧ a < 2 ^ st.VALUE_BITS ∧ p.2 = encFinite st.VALUE_BITS p.1.signbit a := by
  have hk := hi.pool.keys p hp
  have hm := mapFind_of_mem p.1 p.2 st.fpconst_absrepr hi.pool.keys hi.pool.nodup hp
  obtain ⟨a, a1, a2, _, _, a5, _⟩ := hi.pool.val p.1 p.2 hk hm
  exact ⟨hk, hm, a, a1, a2, a5⟩

theorem reported_reserved (f : Float32) (hf : f.isFiniteNonzero = false) :
    reported f =
      if f.isnan then Float32.nan
      else if f.isinf then (if f.signbit then Float32.negInf else Float32.inf)
      else (if f.signbit then Float32.negZero else Float32.zero) := by
  unfold reported
  by_cases hn : f.isnan = true
  · simp [hn]
  · have hn' : f.isnan = false := by simpa using hn
    rw [if_neg hn, if_neg hn]
    by_cases hinf : f.isinf = true
    · rw [if_pos hinf]
      apply Float32.eq_of_bits
      have hb := f.isLt
      simp only [Float32.isinf, Float32.magnitude, decide_eq_true_eq] at hinf
      by_cases hs : f.signbit = true
      · rw [if_pos hs]
        simp only [Float32.signbit, decide_eq_true_eq] at hs
        simp only [Float32.negInf]
        omega
      · rw [if_neg hs]
        simp only [Float32.signbit, decide_eq_true_eq] at hs
        simp only [Float32.inf]
        omega
    · rw [if_neg hinf]
      have hinf' : f.isinf = false := by simpa using hinf
      have hz : f.isZero = true := by
        simp only [Float32.isFiniteNonzero, hn', hinf'] at hf
        simpa using hf
      apply Float32.eq_of_bits
      have hb := f.isLt
      simp only [Float32.isZero, Float32.magnitude, decide_eq_true_eq] at hz
      by_cases hs : f.signbit = true
      · rw [if_pos hs]
        simp only [Float32.signbit, decide_eq_true_eq] at hs
        simp only [Float32.negZero]
        omega
      · rw [if_neg hs]
        simp only [Float32.signbit, decide_eq_true_eq] at hs
        simp only [Float32.zero]
        omega

theorem fpPossibleConsts_eq (st : State) (h : ConstsOK st) (e : Expr) :
    fpPossibleConsts st e =
      (st.fpconst_absrepr.filter (fun kv => kv.2.isIdentical e)).map Prod.fst
        ++ reservedFloats st.VALUE_BITS e := by
  unfold fpPossibleConsts reservedFloats
  simp only [h.nan, h.zero_pos, h.zero_neg, h.inf_pos, h.inf_neg, Expr.isIdentical,
    decide_eq_true_eq]
  split_ifs <;> simp

theorem reservedFloats_reserved (v : Nat) (hv : 1 ≤ v) (f : Float32)
    (hf : f.isFiniteNonzero = false) : reservedFloats v (reservedEnc v f) = [reported f] := by
  have hp : 2 ^ (v + 1) = 2 * 2 ^ v := two_pow_succ v
  have h2 : 2 ≤ 2 ^ v := two_le_two_pow hv
  rw [reported_reserved f hf]
  unfold reservedFloats reservedEnc
  by_cases hn : f.isnan = true
  · simp [hn]
  · by_cases hinf : f.isinf = true
    · by_cases hs : f.signbit = true
      · simp only [hn, hinf, hs, if_true, if_false, Expr.bv.injEq, and_true, Bool.false_eq_true]
        rw [if_neg (by omega), if_neg (by omega), if_neg (by omega), if_neg (by omega)]
      · simp only [hn, hinf, hs, if_true, if_false, Expr.bv.injEq, and_true, Bool.false_eq_true]
        rw [if_neg (by omega), if_neg (by omega), if_neg (by omega), if_pos (by omega)]
    · by_cases hs : f.signbit = true
      · simp only [hn, hinf, hs, if_true, if_false, Expr.bv.injEq, and_true, Bool.false_eq_true]
        rw [if_neg (by omega), if_neg (by omega)]
      · simp only [hn, hinf, hs, if_true, if_false, Expr.bv.injEq, and_true, Bool.false_eq_true]
        rw [if_neg (by omega)]

theorem reservedEnc_isReserved (v : Nat) (f : Float32) : isReservedEnc v (reservedEnc v f) := by
  unfold isReservedEnc reservedEnc
  by_cases hn : f.isnan = true
  · simp [hn]
  · by_cases hinf : f.isinf = true
    · by_cases hs : f.signbit = true <;> simp [hn, hinf, hs]
    · by_cases hs : f.signbit = true <;> simp [hn, hinf, hs]

theorem reservedFloats_of_not_reserved (v : Nat) (e : Expr) (h : ¬ isReservedEnc v e) :
    reservedFloats v e = [] := by
  unfold isReservedEnc at h
  unfold reservedFloats
  simp only [not_or] at h
  obtain ⟨h1, h2, h3, h4, h5⟩ := h
  rw [if_neg (fun hh => h5 hh.symm), if_neg (fun hh => h1 hh.symm),
    if_neg (fun hh => h2 hh.symm), if_neg (fun hh => h3 hh.symm),
    if_neg (fun hh => h4 hh.symm)]

/-- The entries of the pool of a session that carry the encoding of the finite
nonzero `f`: the entry of `f` alone. -/
theorem pool_filter_finite (st : State) (hi : Inv st) (f : Float32) (e : Expr)
    (hf : f.isFiniteNonzero = true) (hm : mapFind f st.fpconst_absrepr = some e) :
    st.fpconst_absrepr.filter (fun kv => kv.2.isIdentical e) = [(f, e)] := by
  obtain ⟨a, a1, a2, _, _, a5, _⟩ := hi.pool.val f e hf hm
  apply filter_unique _ (List.Nodup.of_map _ hi.pool.nodup) _
    (mapFind_mem f e _ hf hi.pool.keys hm)
  intro p hp
  simp only [Expr.isIdentical, decide_eq_true_eq]
  constructor
  · intro hpe
    obtain ⟨hk, hpm, b, b1, b2, b5⟩ := pool_entry st hi p hp
    rw [hpe, a5] at b5
    obtain ⟨hs, hab⟩ := encFinite_inj a2 b2 b5
    have hmp : mapFind p.1 st.fpconst_absrepr
        = some (encFinite st.VALUE_BITS f.signbit a) := by rw [hpm, hpe, a5]
    have hmf : mapFind f st.fpconst_absrepr
        = some (encFinite st.VALUE_BITS f.signbit a) := by rw [hm, a5]
    have habs := hi.pool.inj p.1 f _ _ a a2 hk hf hmp hmf
    have hpf : p.1 = f := by
      apply Float32.eq_of_bits
      have e1 : p.1.abs.bits = f.abs.bits := by rw [habs]
      have e2 : p.1.signbit = f.signbit := hs.symm
      have hb1 := p.1.isLt
      have hb2 := f.isLt
      simp only [Float32.abs, Float32.magnitude] at e1
      simp only [Float32.signbit, decide_eq_decide] at e2
      omega
    exact Prod.ext hpf hpe
  · intro hpe
    rw [hpe]

/-- No entry of the pool of a session carries a reserved encoding. -/
theorem pool_filter_reserved (st : State) (hi : Inv st) (e : Expr)
    (he : isReservedEnc st.VALUE_BITS e) :
    st.fpconst_absrepr.filter (fun kv => kv.2.isIdentical e) = [] := by
  apply filter_none
  intro p hp
  obtain ⟨_, _, b, b1, b2, b5⟩ := pool_entry st hi p hp
  simp only [Expr.isIdentical, decide_eq_false_iff_not]
  intro hpe
  rw [← hpe, b5] at he
  exact encFinite_not_reserved _ _ _ b1 b2 he

/-- C11: in a session, once `fpConst(f)` has returned `e`, at every later
point of the session `fpPossibleConsts(e)` is the one-element list holding `f`
itself (the NaN `nanf("0")` when `f` is a NaN; the zero or infinity of the sign
of `f` for zeros and infinities).  For a finite nonzero `f` the encoding `e` is
none of the five reserved encodings, and the only entry of the pool that
carries `e` is the entry of `f`: no other magnitude has this encoding. -/
theorem fpPossibleConsts_roundtrip (st : State) (hs : Session st) (f : Float32) (e : Expr)
    (st1 st2 : State) (hr : fpConst st f = .ok (e, st1)) (hl : Later st1 st2) :
    fpPossibleConsts st2 e = [reported f] ∧
    (f.isFiniteNonzero = true →
      ¬ isReservedEnc st2.VALUE_BITS e ∧
      some e ≠ st2.fpconst_zero_pos ∧ some e ≠ st2.fpconst_zero_neg ∧
      some e ≠ st2.fpconst_inf_pos ∧ some e ≠ st2.fpconst_inf_neg ∧
      some e ≠ st2.fpconst_nan ∧
      ∀ p ∈ st2.fpconst_absrepr, p.2 = e → p.1 = f) := by
  have hi := session_inv hs
  obtain ⟨hi1, hx1, _, hfind, hres⟩ := fpConst_spec st st1 f e hi hr
  obtain ⟨hi2, hx2⟩ := later_inv hi1 hl
  have hv : st2.VALUE_BITS = st.VALUE_BITS := hx2.value_bits.trans hx1.value_bits
  rw [fpPossibleConsts_eq st2 hi2.consts]
  by_cases hf : f.isFiniteNonzero = true
  · have hm2 : mapFind f st2.fpconst_absrepr = some e := hx2.find f e hf (hfind hf)
    obtain ⟨a, a1, a2, _, _, a5, _⟩ := hi2.pool.val f e hf hm2
    have hnr : ¬ isReservedEnc st2.VALUE_BITS e := by
      rw [a5]; exact encFinite_not_reserved _ _ _ a1 a2
    have hfil := pool_filter_finite st2 hi2 f e hf hm2
    refine ⟨?_, fun _ => ⟨hnr, ?_, ?_, ?_, ?_, ?_, ?_⟩⟩
    · rw [hfil, reservedFloats_of_not_reserved _ _ hnr]
      have : reported f = f := by
        unfold reported
        rw [if_neg (by rw [Float32.isnan_of_finiteNonzero hf]; exact Bool.false_ne_true)]
      rw [this]
      rfl
    · rw [hi2.consts.zero_pos]
      intro hh
      exact hnr (Or.inl (Option.some.inj hh))
    · rw [hi2.consts.zero_neg]
      intro hh
      exact hnr (Or.inr (Or.inl (Option.some.inj hh)))
    · rw [hi2.consts.inf_pos]
      intro hh
      exact hnr (Or.inr (Or.inr (Or.inl (Option.some.inj hh))))
    · rw [hi2.consts.inf_neg]
      intro hh
      exact hnr (Or.inr (Or.inr (Or.inr (Or.inl (Option.some.inj hh)))))
    · rw [hi2.consts.nan]
      intro hh
      exact hnr (Or.inr (Or.inr (Or.inr (Or.inr (Option.some.inj hh)))))
    · intro p hp hpe
      have hmem : p ∈ st2.fpconst_absrepr.filter (fun kv => kv.2.isIdentical e) := by
        rw [List.mem_filter]
        exact ⟨hp, by simp [Expr.isIdentical, hpe]⟩
      rw [hfil, List.mem_singleton] at hmem
      rw [hmem]
  · have hf' : f.isFiniteNonzero = false := by simpa using hf
    obtain ⟨_, he⟩ := hres hf'
    refine ⟨?_, fun h => absurd h hf⟩
    rw [hv, he]
    have hfil := pool_filter_reserved st2 hi2 (reservedEnc st.VALUE_BITS f)
      (by rw [hv]; exact reservedEnc_isReserved _ _)
    rw [hfil, reservedFloats_reserved _ hi.consts.v_pos f hf']
    rfl

/-- The C11 theorem applies: after `setAbstraction(.., 8)` and `fpConst(2.0)`,
which returns the numeral 2 of width 9, `fpPossibleConsts` of that numeral is
the list holding `2.0` alone. -/
theorem fpPossibleConsts_roundtrip_witness :
    ∃ st1, Session session8 ∧ fpConst session8 Float32.two = .ok (.bv 2 9, st1) ∧
      fpPossibleConsts st1 (.bv 2 9) = [Float32.two] := by
  have h1 : fpConst session8 Float32.two = .ok (.bv 2 9, allocState session8 Float32.two 2 1) := by
    rw [fpConst_fresh session8 Float32.two (session_inv session8_session) (by decide) (by decide)]
    rfl
  exact ⟨_, session8_session, h1,
    (fpPossibleConsts_roundtrip session8 session8_session Float32.two _ _ _ h1 (Later.refl _)).1⟩

theorem session2_ok : setAbstraction State.init .SUM_MUL .SUM_MUL false 2 = .ok session2 :=
  setAbstraction_ok _ _ _ _ 2 (by decide) (by decide)

theorem session2_session : Session session2 :=
  Session.start (show 2 < U32 by decide) session2_ok

theorem abs_one_iff (f : Float32) :
    f.abs = Float32.one ↔ f = Float32.one ∨ f = Float32.one.neg := by
  constructor
  · exact eq_or_eq_neg_of_abs
  · intro h
    rcases h with h | h
    · rw [h]; decide
    · rw [h]; decide

/-- C12: in a session with `v = VALUE_BITS`, `fpConst(f)` fails its assertion
exactly when `f` is finite and nonzero, is not in the constant pool, `|f|` is
not `1.0`, and `2 + counter >= 2^v`; in every other case it returns an
expression.  With one value bit, a finite nonzero `f` is encoded exactly when
it is `1.0` or `-1.0`. -/
theorem fpConst_fails_iff (st : State) (hs : Session st) (f : Float32) :
    (fpConst st f = .assertFail ↔
      (f.isFiniteNonzero = true ∧ mapFind f st.fpconst_absrepr = none ∧
        Float32.feq f.abs Float32.one = false ∧
        2 ^ st.VALUE_BITS ≤ 2 + st.fpconst_absrepr_num)) ∧
    (fpConst st f ≠ .assertFail → ∃ e st', fpConst st f = .ok (e, st')) ∧
    (st.VALUE_BITS = 1 → f.isFiniteNonzero = true →
      ((∃ e st', fpConst st f = .ok (e, st')) ↔ (f = Float32.one ∨ f = Float32.one.neg))) := by
  have hi := session_inv hs
  have hdisj := fpConst_ok_or_assert st f hi
  have hiff : fpConst st f = .assertFail ↔
      (f.isFiniteNonzero = true ∧ mapFind f st.fpconst_absrepr = none ∧
        Float32.feq f.abs Float32.one = false ∧
        2 ^ st.VALUE_BITS ≤ 2 + st.fpconst_absrepr_num) := by
    cases hf : f.isFiniteNonzero
    · rw [fpConst_reserved st f hi.consts hf]
      constructor
      · intro h; cases h
      · intro h; exact absurd h.1 Bool.false_ne_true
    · have hone : Float32.feq f.abs Float32.one = false ↔ f.abs ≠ Float32.one := by
        have := Float32.feq_abs_one_iff hf
        cases hq : Float32.feq f.abs Float32.one
        · rw [hq] at this
          simp only [true_iff]
          intro hh
          exact Bool.false_ne_true (this.2 hh)
        · rw [hq] at this
          simp only [Bool.true_eq_false, false_iff, not_not]
          exact this.1 rfl
      cases hm : mapFind f st.fpconst_absrepr with
      | some e0 =>
        rw [fpConst_found st f e0 hf hm]
        constructor
        · intro h; cases h
        · intro h; exact absurd h.2.1 (by simp)
      | none =>
        rw [fpConst_fresh st f hi hf hm, hone]
        by_cases h1 : f.abs = Float32.one
        · rw [if_pos h1]
          constructor
          · intro h; cases h
          · intro h; exact absurd h1 h.2.2.1
        · rw [if_neg h1]
          by_cases h2 : 2 + st.fpconst_absrepr_num < 2 ^ st.VALUE_BITS
          · rw [if_pos h2]
            constructor
            · intro h; cases h
            · intro h; omega
          · rw [if_neg h2]
            constructor
            · intro _; exact ⟨rfl, rfl, h1, by omega⟩
            · intro _; rfl
  refine ⟨hiff, ?_, ?_⟩
  · intro hne
    rcases hdisj with h | h
    · exact h
    · exact absurd h hne
  · intro hv hf
    rw [← abs_one_iff]
    constructor
    · rintro ⟨e, st', hr⟩
      obtain ⟨_, _, a, a1, a2, a3, _, _⟩ := fpConst_finite_enc st hi f hf e st' hr
      rw [hv] at a2
      exact a3.1 (by omega)
    · intro habs
      rcases hdisj with h | h
      · exact h
      · exfalso
        have := (hiff.1 h).2.2.1
        rw [(Float32.feq_abs_one_iff hf).2 habs] at this
        cases this

/-- The C12 theorem applies: after `setAbstraction(.., 2)` (one value bit) the
pool is empty and the counter is 0, so `fpConst(2.0)` fails its assertion, as
`2 + 0 >= 2^1`. -/
theorem fpConst_fails_iff_witness :
    Session session2 ∧ session2.VALUE_BITS = 1 ∧ fpConst session2 Float32.two = .assertFail :=
  ⟨session2_session, rfl,
    (fpConst_fails_iff session2 session2_session Float32.two).1.2
      ⟨by decide, rfl, by decide, by decide⟩⟩

/-! ### What `fpSum` and `intSum` return and leave -/

theorem fpSum_lambda_eq (ib fuel : Nat) (st : State) (a n : Expr)
    (hc : (st.isFpAddAssociative && st.useMultiset) = false) :
    fpSum ib fuel st a n = .ok (fpSumTerm ib st a n, fpSumState ib st a n) := by
  unfold fpSum
  simp only [hc, deref, Outcome.bind]
  by_cases hc2 : (st.isFpAddAssociative && n.isNumeral) = true
  · simp only [hc2, if_true, fpSumState, fpSumTerm, fpSumDecl, maskedLambda]
    rfl
  · simp only [hc2, fpSumState, fpSumTerm, fpSumDecl, maskedLambda]
    rfl

theorem intSum_eq (ib : Nat) (st : State) (a n : Expr) :
    intSum ib st a n = .ok (intSumTerm ib st a n, intSumState st a) := by
  unfold intSum getIntSumFn intSumTerm intSumState intSumDecl maskedLambda
  simp only
  cases h : widthFind a.sort.bitwidth st.int_sumfn <;> rfl

theorem fpMultisetSum_usedOps (ib fuel : Nat) (st : State) (a n : Expr) (e : Expr)
    (st' : State) (hr : fpMultisetSum ib fuel st a n = .ok (e, st')) :
    st'.usedOps = st.usedOps := by
  unfold fpMultisetSum at hr
  cases hn : n.isUInt with
  | none => simp [hn, Outcome.bind] at hr
  | some len =>
    simp only [hn, Outcome.bind] at hr
    cases hl : fpMultisetSumLoop ib a len fuel 0 (Expr.mkEmptyBag (fpSort st)) with
    | ok bag =>
      simp only [hl, deref] at hr
      cases hnum : n.isNumeral <;> simp only [hnum] at hr <;> cases hr <;> rfl
    | assertFail => simp [hl] at hr
    | undefined => simp [hl] at hr
    | outOfFuel => simp [hl] at hr

theorem fpSum_usedOps (ib fuel : Nat) (st : State) (a n : Expr) (e : Expr)
    (st' : State) (hr : fpSum ib fuel st a n = .ok (e, st')) :
    st'.usedOps = { st.usedOps with fpSum := true } := by
  by_cases hc : (st.isFpAddAssociative && st.useMultiset) = true
  · unfold fpSum at hr
    simp only [hc, if_true] at hr
    exact fpMultisetSum_usedOps ib fuel _ a n e st' hr
  · have hc' : (st.isFpAddAssociative && st.useMultiset) = false := by simpa using hc
    rw [fpSum_lambda_eq ib fuel st a n hc'] at hr
    cases hr
    rfl

theorem fpMul_usedOps (st : State) (hi : Inv st) (f1 f2 : Expr) (e : Expr) (st' : State)
    (hr : fpMul st f1 f2 = .ok (e, st')) :
    st'.usedOps = { st.usedOps with fpMul := true } ∧
    st'.isFpAddAssociative = st.isFpAddAssociative ∧ st'.useMultiset = st.useMultiset := by
  obtain ⟨st1, h1, h2⟩ := fpMul_eq st hi f1 f2
  rw [h2] at hr
  cases hr
  have hi' : Inv (fpMulState st f1) := ⟨{ hi.consts with }, { hi.pool with }⟩
  obtain ⟨_, _, h3, _, _⟩ := fpConst_spec _ _ _ _ hi' h1
  rw [h3]
  exact ⟨rfl, rfl, rfl⟩

/-! ### C13 -/

theorem sessionMultiset_session : Session sessionMultiset :=
  Session.step
    (Session.start (show 8 < U32 by decide)
      (setAbstraction_ok State.init .SUM_MUL .SUM_MUL true 8 (by decide) (by decide)))
    Step.setEncodingOptions

theorem fpMultisetSumLoop_ne_assertFail (ib : Nat) (a : Expr) (len : Nat) :
    ∀ (fuel i : Nat) (bag : Expr), fpMultisetSumLoop ib a len fuel i bag ≠ .assertFail := by
  intro fuel
  induction fuel with
  | zero => intro i bag h; cases h
  | succ fuel ih =>
    intro i bag
    simp only [fpMultisetSumLoop]
    by_cases hlt : i < len
    · simp only [hlt, if_true]
      exact ih _ _
    · simp only [hlt, if_false]
      intro h; cases h

theorem fpSum_nonliteral_undefined (ib fuel : Nat) (st : State) (a n : Expr)
    (hc : (st.isFpAddAssociative && st.useMultiset) = true) (hn : n.isUInt = none) :
    fpSum ib fuel st a n = .undefined := by
  unfold fpSum
  simp only [hc, if_true]
  unfold fpMultisetSum
  rw [hn]
  rfl

/-- C13, at the failing input: in multiset mode (`setAbstraction(.., true, 8)`,
`setEncodingOptions(true)`), `fpSum(a, n)` with the symbol `n` as length, which
is not a numeric literal, does not fail an assertion.  The condition of the
`assert` in `fpMultisetSum` is a string literal, so execution goes on and reads
the uninitialised `length`; and whatever number that read yields, the loop that
follows cannot fail an assertion either. -/
theorem fpSum_nonliteral_not_rejected :
    Session sessionMultiset ∧
    sessionMultiset.isFpAddAssociative = true ∧ sessionMultiset.useMultiset = true ∧
    sampleN.isUInt = none ∧
    (∀ fuel, fpSum 32 fuel sessionMultiset sampleA sampleN = .undefined) ∧
    (∀ fuel, fpSum 32 fuel sessionMultiset sampleA sampleN ≠ .assertFail) ∧
    (∀ length fuel i bag, fpMultisetSumLoop 32 sampleA length fuel i bag ≠ .assertFail) := by
  refine ⟨sessionMultiset_session, rfl, rfl, rfl, ?_, ?_, ?_⟩
  · intro fuel
    exact fpSum_nonliteral_undefined 32 fuel sessionMultiset sampleA sampleN rfl rfl
  · intro fuel
    rw [fpSum_nonliteral_undefined 32 fuel sessionMultiset sampleA sampleN rfl rfl]
    intro h; cases h
  · intro length fuel i bag
    exact fpMultisetSumLoop_ne_assertFail 32 sampleA length fuel i bag

/-! ### C14 -/

/-- C14: in a session, under `SUM_MUL` for the floating-point dot product,
`fpDot(a,b,n)` is the call `fpSum(λ idx. m, n)` where `m` is the term
`fpMul(a[idx], b[idx])` returns (and `fpMul` does return); when it returns, the
usage flags are the earlier ones with `fpSum` and `fpMul` set, so `fpDot`,
`fpAdd`, `intSum` and `intDot` are unchanged; outside multiset mode it returns.
Under `SUM_MUL` for the integer dot product, `intDot(a,b,n)` is the call
`intSum(λ idx. a[idx] * b[idx], n)`; it returns, and the usage flags are the
earlier ones with `intSum` set, so `intDot` is unchanged. -/
theorem dot_lowering (ib fuel : Nat) (st : State) (hs : Session st) (a b n : Expr) :
    (st.alFpDot = .SUM_MUL →
      ∃ m st1,
        fpMul st (.select a (Index.var ib "idx")) (.select b (Index.var ib "idx"))
          = .ok (m, st1) ∧
        fpDot ib fuel st a b n = fpSum ib fuel st1 (Expr.mkLambda (Index.var ib "idx") m) n ∧
        (∀ e st', fpDot ib fuel st a b n = .ok (e, st') →
          st'.usedOps = { st.usedOps with fpSum := true, fpMul := true }) ∧
        ((st.isFpAddAssociative && st.useMultiset) = false →
          ∃ e st', fpDot ib fuel st a b n = .ok (e, st'))) ∧
    (st.alIntDot = .SUM_MUL →
      intDot ib st a b n
        = intSum ib st (Expr.mkLambda (Index.var ib "idx")
            (Expr.mul (.select a (Index.var ib "idx")) (.select b (Index.var ib "idx")))) n ∧
      ∃ e st', intDot ib st a b n = .ok (e, st') ∧
        st'.usedOps = { st.usedOps with intSum := true }) := by
  have hi := session_inv hs
  constructor
  · intro hl
    obtain ⟨st1, h1, h2⟩ := fpMul_eq st hi (.select a (Index.var ib "idx"))
      (.select b (Index.var ib "idx"))
    obtain ⟨u1, u2, u3⟩ := fpMul_usedOps st hi _ _ _ _ h2
    have hd : fpDot ib fuel st a b n
        = fpSum ib fuel st1 (Expr.mkLambda (Index.var ib "idx")
            (fpMulTerm st.VALUE_BITS (fpMulDecl st (.select a (Index.var ib "idx")))
              (.select a (Index.var ib "idx")) (.select b (Index.var ib "idx")))) n := by
      unfold fpDot
      simp only [hl, h2, Outcome.bind]
    refine ⟨_, st1, h2, hd, ?_, ?_⟩
    · intro e st' hr
      rw [hd] at hr
      rw [fpSum_usedOps ib fuel st1 _ n e st' hr, u1]
    · intro hc
      rw [hd]
      exact fpSum_ok_of_lambda ib fuel st1 _ n (by rw [u2, u3]; exact hc)
  · intro hl
    have hd : intDot ib st a b n
        = intSum ib st (Expr.mkLambda (Index.var ib "idx")
            (Expr.mul (.select a (Index.var ib "idx")) (.select b (Index.var ib "idx")))) n := by
      unfold intDot
      simp only [hl]
    refine ⟨hd, ?_⟩
    rw [hd, intSum_eq]
    exact ⟨_, _, rfl, rfl⟩

/-- The C14 theorem applies: after `setAbstraction(SUM_MUL, SUM_MUL, false, 8)`
the call `fpDot(a, b, n)` returns and leaves exactly the flags `fpMul` and
`fpSum` set. -/
theorem dot_lowering_witness :
    Session session8 ∧ session8.alFpDot = .SUM_MUL ∧
    ∃ e st', fpDot 32 0 session8 sampleA sampleB sampleN = .ok (e, st') ∧
      st'.usedOps = ⟨false, false, true, true, false, false⟩ := by
  obtain ⟨_, _, _, _, h3, h4⟩ :=
    (dot_lowering 32 0 session8 session8_session sampleA sampleB sampleN).1 rfl
  obtain ⟨e, st', hr⟩ := h4 rfl
  exact ⟨session8_session, rfl, e, st', hr, h3 e st' hr⟩

/-! ### C16: the precondition in multiset mode -/

theorem multisetPairStep_eq (p : Expr) (x y : Expr × Expr × Expr) :
    multisetPairStep p x y
      = if equalLiteralLengths x y then Expr.and p (bagConjunct (x, y)) else p := by
  obtain ⟨abag, an, asum⟩ := x
  obtain ⟨bbag, bn, bsum⟩ := y
  unfold multisetPairStep equalLiteralLengths bagConjunct
  simp only
  cases h1 : an.isUInt with
  | none => simp
  | some alen =>
    cases h2 : bn.isUInt with
    | none => simp
    | some blen =>
      by_cases h : alen = blen
      · simp [h]
      · simp [h]

theorem multisetInner_eq (x : Expr × Expr × Expr) :
    ∀ (rest : List (Expr × Expr × Expr)) (p : Expr),
      rest.foldl (fun p y => multisetPairStep p x y) p
        = ((((rest.map (fun y => (x, y))).filter
            (fun q => equalLiteralLengths q.1 q.2)).map bagConjunct).foldl Expr.and p) := by
  intro rest
  induction rest with
  | nil => intro p; rfl
  | cons y rest ih =>
    intro p
    rw [List.foldl_cons, ih, multisetPairStep_eq, List.map_cons, List.filter_cons]
    by_cases h : equalLiteralLengths x y = true
    · simp only [h, if_true, List.map_cons, List.foldl_cons]
    · simp only [h, if_false, Bool.false_eq_true]

theorem multisetOuterLoop_eq :
    ∀ (regs : List (Expr × Expr × Expr)) (p : Expr),
      multisetOuterLoop regs p
        = ((((orderedPairs regs).filter
            (fun q => equalLiteralLengths q.1 q.2)).map bagConjunct).foldl Expr.and p) := by
  intro regs
  induction regs with
  | nil => intro p; rfl
  | cons x rest ih =>
    intro p
    rw [multisetOuterLoop, ih, multisetInner_eq, orderedPairs, List.filter_append,
      List.map_append, List.foldl_append]

theorem eval_foldl_and (I : Interp) (env : String → Nat) :
    ∀ (cs : List Expr) (init : Expr),
      (eval I (cs.foldl Expr.and init) env).toBool
        = ((eval I init env).toBool && cs.all (fun c => (eval I c env).toBool)) := by
  intro cs
  induction cs with
  | nil => intro init; simp
  | cons c cs ih =>
    intro init
    rw [List.foldl_cons, ih, List.all_cons]
    simp only [eval, Val.toBool, Bool.and_assoc]

theorem eval_conjunction (I : Interp) (env : String → Nat) (cs : List Expr) :
    (eval I (conjunction cs) env).toBool = true ↔
      ∀ c ∈ cs, (eval I c env).toBool = true := by
  unfold conjunction
  rw [eval_foldl_and]
  simp [Expr.mkBool, eval, Val.toBool]

theorem mem_orderedPairs {α : Type} :
    ∀ (l : List α) (p : α × α),
      p ∈ orderedPairs l ↔
        ∃ (i j : Nat) (hi : i < j) (hj : j < l.length),
          p = (l.get ⟨i, lt_trans hi hj⟩, l.get ⟨j, hj⟩) := by
  intro l
  induction l with
  | nil =>
    intro p
    simp only [orderedPairs, List.not_mem_nil, false_iff]
    rintro ⟨i, j, _, hj, _⟩
    simp at hj
  | cons x rest ih =>
    intro p
    rw [orderedPairs, List.mem_append, ih]
    constructor
    · rintro (h | ⟨i, j, hi, hj, hp⟩)
      · obtain ⟨y, hy, hyp⟩ := List.mem_map.1 h
        obtain ⟨k, hk⟩ := List.get_of_mem hy
        refine ⟨0, k.1 + 1, Nat.succ_pos _, Nat.succ_lt_succ k.2, ?_⟩
        rw [← hyp, ← hk]
        rfl
      · exact ⟨i + 1, j + 1, Nat.succ_lt_succ hi, Nat.succ_lt_succ hj, hp⟩
    · rintro ⟨i, j, hi, hj, hp⟩
      cases j with
      | zero => omega
      | succ j =>
        cases i with
        | zero =>
          left
          rw [hp]
          apply List.mem_map.2
          exact ⟨rest.get ⟨j, Nat.lt_of_succ_lt_succ hj⟩, List.get_mem _ _ _, rfl⟩
        | succ i =>
          right
          exact ⟨i, j, Nat.lt_of_succ_lt_succ hi, Nat.lt_of_succ_lt_succ hj, hp⟩

theorem length_orderedPairs {α : Type} :
    ∀ (l : List α), 2 * (orderedPairs l).length = l.length * (l.length - 1) := by
  intro l
  induction l with
  | nil => rfl
  | cons x rest ih =>
    rw [orderedPairs, List.length_append, List.length_map, List.length_cons, Nat.mul_add, ih]
    cases rest with
    | nil => rfl
    | cons y r =>
      simp only [List.length_cons, Nat.add_sub_cancel]
      ring

/-- C16: with `isFpAddAssociative` and `useMultiset` set,
`getFpAssociativePrecondition` returns, leaves the state as it is, and the
formula it returns is the conjunction, over the registry pairs `i < j` whose
lengths are equal numeric literals, of `bag_i == bag_j ⇒ sum_i == sum_j`
(`orderedPairs` lists every index pair `i < j` and has `n (n - 1) / 2`
entries, so each pair contributes once).  Hence the formula holds under an
interpretation exactly when every such implication holds; it is `true` when
there is no such pair; and for such a pair, the formula and `bag_i == bag_j`
give `sum_i == sum_j`. -/
theorem multiset_precondition (ib fuel : Nat) (st : State)
    (ha : st.isFpAddAssociative = true) (hm : st.useMultiset = true) :
    getFpAssociativePrecondition ib fuel st
      = .ok (multisetPreconditionSpec st.staticArrays, st) ∧
    (∀ p, p ∈ orderedPairs st.staticArrays ↔
      ∃ (i j : Nat) (hi : i < j) (hj : j < st.staticArrays.length),
        p = (st.staticArrays.get ⟨i, lt_trans hi hj⟩, st.staticArrays.get ⟨j, hj⟩)) ∧
    2 * (orderedPairs st.staticArrays).length
      = st.staticArrays.length * (st.staticArrays.length - 1) ∧
    (∀ (I : Interp) (env : String → Nat),
      (eval I (multisetPreconditionSpec st.staticArrays) env).toBool = true ↔
        ∀ (i j : Nat) (hi : i < j) (hj : j < st.staticArrays.length),
          equalLiteralLengths (st.staticArrays.get ⟨i, lt_trans hi hj⟩)
            (st.staticArrays.get ⟨j, hj⟩) = true →
          (eval I (bagConjunct (st.staticArrays.get ⟨i, lt_trans hi hj⟩,
            st.staticArrays.get ⟨j, hj⟩)) env).toBool = true) ∧
    ((∀ p ∈ orderedPairs st.staticArrays, equalLiteralLengths p.1 p.2 = false) →
      multisetPreconditionSpec st.staticArrays = Expr.mkBool true) ∧
    (∀ (I : Interp) (env : String → Nat) (i j : Nat) (hi : i < j)
      (hj : j < st.staticArrays.length),
      equalLiteralLengths (st.staticArrays.get ⟨i, lt_trans hi hj⟩)
        (st.staticArrays.get ⟨j, hj⟩) = true →
      (eval I (multisetPreconditionSpec st.staticArrays) env).toBool = true →
      Val.beq (eval I (st.staticArrays.get ⟨i, lt_trans hi hj⟩).1 env)
        (eval I (st.staticArrays.get ⟨j, hj⟩).1 env) = true →
      Val.beq (eval I (st.staticArrays.get ⟨i, lt_trans hi hj⟩).2.2 env)
        (eval I (st.staticArrays.get ⟨j, hj⟩).2.2 env) = true) := by
  have hsem : ∀ (I : Interp) (env : String → Nat),
      (eval I (multisetPreconditionSpec st.staticArrays) env).toBool = true ↔
        ∀ (i j : Nat) (hi : i < j) (hj : j < st.staticArrays.length),
          equalLiteralLengths (st.staticArrays.get ⟨i, lt_trans hi hj⟩)
            (st.staticArrays.get ⟨j, hj⟩) = true →
          (eval I (bagConjunct (st.staticArrays.get ⟨i, lt_trans hi hj⟩,
            st.staticArrays.get ⟨j, hj⟩)) env).toBool = true := by
    intro I env
    unfold multisetPreconditionSpec
    rw [eval_conjunction]
    constructor
    · intro h i j hi hj hlen
      apply h
      apply List.mem_map.2
      refine ⟨(st.staticArrays.get ⟨i, lt_trans hi hj⟩, st.staticArrays.get ⟨j, hj⟩), ?_, rfl⟩
      rw [List.mem_filter]
      exact ⟨(mem_orderedPairs _ _).2 ⟨i, j, hi, hj, rfl⟩, hlen⟩
    · intro h c hc
      obtain ⟨p, hp, hpc⟩ := List.mem_map.1 hc
      rw [List.mem_filter] at hp
      obtain ⟨i, j, hi, hj, hpe⟩ := (mem_orderedPairs _ _).1 hp.1
      rw [← hpc, hpe]
      apply h i j hi hj
      have := hp.2
      rw [hpe] at this
      exact this
  refine ⟨?_, mem_orderedPairs _, length_orderedPairs _, hsem, ?_, ?_⟩
  · unfold getFpAssociativePrecondition
    simp only [ha, hm, Bool.not_true, Bool.false_eq_true, if_false, if_true, Expr.simplify]
    rw [multisetOuterLoop_eq]
    rfl
  · intro h
    unfold multisetPreconditionSpec
    rw [filter_none _ _ (fun p hp => h p hp)]
    rfl
  · intro I env i j hi hj hlen hP hbag
    have := (hsem I env).1 hP i j hi hj hlen
    simp only [bagConjunct, eval, Val.toBool, hbag, Bool.not_true, Bool.false_or] at this
    exact this

/-- The C16 theorem applies: after `setAbstraction(SUM_MUL, SUM_MUL, true, 8)`
and `setEncodingOptions(true)`, the calls `fpSum(a, 3)` and `fpSum(b, 3)` fill
the registry with two entries, and `getFpAssociativePrecondition` returns
`true & (bag_a == bag_b ⇒ sum_a == sum_b)`. -/
theorem multiset_precondition_witness :
    ∃ s1 s2 st1 st2,
      fpSum 32 4 sessionMultiset sampleA (.bv 3 32) = .ok (s1, st1) ∧
      fpSum 32 4 st1 sampleB (.bv 3 32) = .ok (s2, st2) ∧
      st2.staticArrays = sampleBagRegistry ∧
      getFpAssociativePrecondition 32 0 st2
        = .ok (.and (.boolLit true)
            (bagConjunct (sampleBagRegistry.get ⟨0, by decide⟩,
              sampleBagRegistry.get ⟨1, by decide⟩)), st2) := by
  refine ⟨_, _, _, _, rfl, rfl, rfl, ?_⟩
  exact (multiset_precondition 32 0 _ rfl rfl).1

/-! ### C17: what `setAbstraction` establishes -/

/-- C17, as the claim states it, fails for large `fpBits`.  At `fpBits = 64`,
`VALUE_BITS` is 63 and `SIGNED_VALUE = 1ull << 64` is undefined, so the call
has no defined result.  At `fpBits = 2^32 - 1`, whatever the two shifts yield,
`FP_BITS = 1 + 1 + VALUE_BITS` wraps around in `unsigned` arithmetic to 0, so
`fpSort` has width 0 and not `VALUE_BITS + 2`. -/
theorem setAbstraction_post_fails_for_large_fpBits :
    setAbstraction State.init .FULLY_ABS .FULLY_ABS false 64 = .undefined ∧
    ∀ (shl : Nat → Outcome Nat) (st : State),
      setAbstractionWith shl State.init .FULLY_ABS .FULLY_ABS false 4294967295 = .ok st →
      st.VALUE_BITS = 4294967294 ∧ fpSort st = .bv 0 ∧
      fpSort st ≠ .bv (st.VALUE_BITS + 2) := by
  refine ⟨setAbstraction_large _ _ _ _ 64 (by norm_num) (by norm_num [U32]), ?_⟩
  intro shl st h
  unfold setAbstractionWith updateConstantsWith at h
  simp only [gt_iff_lt, not_lt, nonpos_iff_eq_zero, OfNat.ofNat_ne_zero, if_false,
    OfNat.ofNat_ne_one] at h
  cases h1 : shl (usub32 4294967295 1) with
  | ok x =>
    cases h2 : shl (uadd32 TYPE_BITS (usub32 4294967295 1)) with
    | ok y =>
      simp only [h1, h2, Outcome.bind] at h
      cases h
      have e1 : usub32 4294967295 1 = 4294967294 := by decide
      have e2 : uadd32 (uadd32 SIGN_BITS TYPE_BITS) (usub32 4294967295 1) = 0 := by decide
      refine ⟨e1, ?_, ?_⟩
      · show SmtSort.bv (uadd32 (uadd32 SIGN_BITS TYPE_BITS) (usub32 4294967295 1)) = .bv 0
        rw [e2]
      · show SmtSort.bv (uadd32 (uadd32 SIGN_BITS TYPE_BITS) (usub32 4294967295 1))
          ≠ .bv (usub32 4294967295 1 + 2)
        rw [e2, e1]
        decide
    | assertFail => simp [h1, h2, Outcome.bind] at h
    | undefined => simp [h1, h2, Outcome.bind] at h
    | outOfFuel => simp [h1, h2, Outcome.bind] at h
  | assertFail => simp [h1, Outcome.bind] at h
  | undefined => simp [h1, Outcome.bind] at h
  | outOfFuel => simp [h1, Outcome.bind] at h

/-- C17, amended: for every `fpBits` from 1 to 63 and whatever the state was
before, `setAbstraction(afd, aid, addAssoc, fpBits)` returns; afterwards the
configuration holds `afd`, `aid` and `addAssoc`, `VALUE_BITS` is `fpBits` when
`fpBits = 1` and `fpBits - 1` otherwise, so it is at least 1, `fpSort` has
width `VALUE_BITS + 2`, the constant pool is empty with its counter at 0, the
registry is empty and every usage flag is false.  For `fpBits = 0` the call
fails its assertion. -/
theorem setAbstraction_post (st0 : State) (afd : AbsLevelFpDot) (aid : AbsLevelIntDot)
    (addAssoc : Bool) (fpBits : Nat) :
    (1 ≤ fpBits → fpBits ≤ 63 →
      ∃ st, setAbstraction st0 afd aid addAssoc fpBits = .ok st ∧
        st.alFpDot = afd ∧ st.alIntDot = aid ∧ st.isFpAddAssociative = addAssoc ∧
        getFpAddAssociativity st = addAssoc ∧
        st.VALUE_BITS = (if fpBits = 1 then fpBits else fpBits - 1) ∧
        1 ≤ st.VALUE_BITS ∧
        fpSort st = .bv (st.VALUE_BITS + 2) ∧
        st.fpconst_absrepr = [] ∧ st.fpconst_absrepr_num = 0 ∧
        st.staticArrays = [] ∧
        getUsedAbstractOps st = ⟨false, false, false, false, false, false⟩) ∧
    setAbstraction st0 afd aid addAssoc 0 = .assertFail := by
  refine ⟨?_, setAbstraction_zero st0 afd aid addAssoc⟩
  intro h1 h2
  refine ⟨_, setAbstraction_ok st0 afd aid addAssoc fpBits h1 h2,
    rfl, rfl, rfl, rfl, ?_, ?_, rfl, rfl, rfl, rfl, rfl⟩
  · show valueBitsOf fpBits = _
    unfold valueBitsOf
    split_ifs <;> omega
  · show 1 ≤ valueBitsOf fpBits
    unfold valueBitsOf
    split_ifs <;> omega

/-- The C17 theorem applies at `fpBits = 8`, from the state at program start:
`VALUE_BITS` becomes 7 and `fpSort` has width 9. -/
theorem setAbstraction_post_witness :
    ∃ st, setAbstraction State.init .SUM_MUL .SUM_MUL true 8 = .ok st ∧
      st.VALUE_BITS = 7 ∧ fpSort st = .bv 9 ∧ st.staticArrays = [] := by
  obtain ⟨st, h, _, _, _, _, hv, _, hs, _, _, hr, _⟩ :=
    (setAbstraction_post State.init .SUM_MUL .SUM_MUL true 8).1 (by decide) (by decide)
  have hv7 : st.VALUE_BITS = 7 := by rw [hv]; rfl
  exact ⟨st, h, hv7, by rw [hs, hv7], hr⟩

/-! ### C18: same-sign operands keep their sign -/

theorem getMSB_mk (v X : Nat) : BV.getMSB ⟨v + 2, X⟩ = ⟨1, X / 2 ^ (v + 1) % 2⟩ := by
  simp [BV.getMSB]

theorem msb_nan (v : Nat) (hv : 1 ≤ v) : (2 ^ v + 1) / 2 ^ (v + 1) % 2 = 0 := by
  have hp : 2 ^ (v + 1) = 2 * 2 ^ v := two_pow_succ v
  have h2 : 2 ≤ 2 ^ v := two_le_two_pow hv
  rw [Nat.div_eq_of_lt (by omega)]

theorem msb_inf (v : Nat) : (2 ^ v) / 2 ^ (v + 1) % 2 = 0 := by
  have hp : 2 ^ (v + 1) = 2 * 2 ^ v := two_pow_succ v
  have h2 : 0 < 2 ^ v := two_pow_pos v
  rw [Nat.div_eq_of_lt (by omega)]

/-- The most significant bit of `s :: zext(low v bits of r)`, the term the
cascade of `fpAdd` builds from the result of `fp_add`, is `s`. -/
theorem msb_concat (v : Nat) (hv : 1 ≤ v) (s : Nat) (hs : s < 2) (r : BV) :
    BV.getMSB (BV.concat ⟨1, s⟩ (BV.zext 1 (BV.extract (v - 1) 0 r))) = ⟨1, s⟩ := by
  have hp : 2 ^ (v + 1) = 2 * 2 ^ v := two_pow_succ v
  have h2 : 0 < 2 ^ v := two_pow_pos v
  have e1 : v - 1 - 0 + 1 = v := by omega
  simp only [BV.getMSB, BV.concat, BV.zext, BV.extract, e1, pow_zero, Nat.div_one]
  have e2 : 1 + (v + 1) - 1 = v + 1 := by omega
  rw [e2]
  have hlt : r.val % 2 ^ v < 2 ^ v := Nat.mod_lt _ h2
  have : (s * 2 ^ (v + 1) + r.val % 2 ^ v) / 2 ^ (v + 1) = s := by
    apply Nat.div_eq_of_lt_le
    · exact Nat.le_add_right _ _
    · rw [Nat.succ_mul]
      generalize s * 2 ^ (v + 1) = A
      omega
  rw [this, Nat.mod_eq_of_lt hs]

theorem fpAddVal_msb_zero (v : Nat) (hv : 1 ≤ v) (r : BV) (X Y : Nat)
    (hX : X / 2 ^ (v + 1) % 2 = 0) (hY : Y / 2 ^ (v + 1) % 2 = 0) :
    BV.getMSB (fpAddVal v r (.bv ⟨v + 2, X⟩) (.bv ⟨v + 2, Y⟩)).toBV = ⟨1, 0⟩ := by
  have mx : BV.getMSB ⟨v + 2, X⟩ = ⟨1, 0⟩ := by rw [getMSB_mk, hX]
  have my : BV.getMSB ⟨v + 2, Y⟩ = ⟨1, 0⟩ := by rw [getMSB_mk, hY]
  have mn : BV.getMSB ⟨v + 2, 2 ^ v + 1⟩ = ⟨1, 0⟩ := by rw [getMSB_mk, msb_nan v hv]
  unfold fpAddVal
  simp only [Val.toBV, mx, my, decide_True, Bool.and_self, if_true]
  split_ifs
  · exact my
  · exact mx
  · exact mx
  · exact my
  · exact mn
  · exact mx
  · exact my
  · exact msb_concat v hv 0 (by norm_num) r

theorem fpAddVal_msb_one (v : Nat) (hv : 1 ≤ v) (r : BV) (X Y : Nat)
    (hX : X / 2 ^ (v + 1) % 2 = 1) (hY : Y / 2 ^ (v + 1) % 2 = 1) :
    BV.getMSB (fpAddVal v r (.bv ⟨v + 2, X⟩) (.bv ⟨v + 2, Y⟩)).toBV = ⟨1, 1⟩ := by
  have mx : BV.getMSB ⟨v + 2, X⟩ = ⟨1, 1⟩ := by rw [getMSB_mk, hX]
  have my : BV.getMSB ⟨v + 2, Y⟩ = ⟨1, 1⟩ := by rw [getMSB_mk, hY]
  have hxi : X ≠ 2 ^ v := by
    intro h; rw [h, msb_inf] at hX; cases hX
  have hyi : Y ≠ 2 ^ v := by
    intro h; rw [h, msb_inf] at hY; cases hY
  have b1 : Val.beq (.bv ⟨v + 2, X⟩) (.bv ⟨v + 2, 2 ^ v⟩) = false := beq_bv_false hxi
  have b2 : Val.beq (.bv ⟨v + 2, Y⟩) (.bv ⟨v + 2, 2 ^ v⟩) = false := beq_bv_false hyi
  have d0 : decide ((⟨1, 1⟩ : BV) = ⟨1, 0⟩) = false := by decide
  unfold fpAddVal
  simp only [Val.toBV, mx, my, b1, b2, d0, decide_True, Bool.and_self, Bool.false_and,
    Bool.and_false, Bool.or_self, Bool.false_or, if_true, if_false, Bool.false_eq_true]
  split_ifs
  · exact my
  · exact mx
  · exact mx
  · exact my
  · exact mx
  · exact my
  · exact msb_concat v hv 1 (by norm_num) r

/-- C18: in a session with `v` value bits, let the operands `f1`, `f2` have
bit-vector values of width `v + 2` (any values, reserved ones included).  Then
`fpAdd(f1, f2)` returns a term whose value, for every interpretation (so for
every interpretation of `fp_add`), has most significant bit 0 when both
operands have most significant bit 0, and most significant bit 1 when both
have most significant bit 1. -/
theorem fpAdd_sign_monotone (st : State) (hs : Session st) (I : Interp) (env : String → Nat)
    (f1 f2 : Expr) (b1 b2 : BV)
    (h1 : eval I f1 env = .bv b1) (h2 : eval I f2 env = .bv b2)
    (w1 : b1.width = st.VALUE_BITS + 2) (w2 : b2.width = st.VALUE_BITS + 2) :
    ∃ e st', fpAdd st f1 f2 = .ok (e, st') ∧
      (BV.getMSB b1 = ⟨1, 0⟩ → BV.getMSB b2 = ⟨1, 0⟩ →
        BV.getMSB (eval I e env).toBV = ⟨1, 0⟩) ∧
      (BV.getMSB b1 = ⟨1, 1⟩ → BV.getMSB b2 = ⟨1, 1⟩ →
        BV.getMSB (eval I e env).toBV = ⟨1, 1⟩) := by
  have hi := session_inv hs
  refine ⟨_, _, fpAdd_eq st hi.consts f1 f2, ?_, ?_⟩
  · intro m1 m2
    rw [eval_fpAddTerm, h1, h2]
    obtain ⟨w1', X⟩ := b1
    obtain ⟨w2', Y⟩ := b2
    simp only at w1 w2
    subst w1 w2
    rw [getMSB_mk] at m1 m2
    exact fpAddVal_msb_zero _ hi.consts.v_pos _ X Y (by injection m1) (by injection m2)
  · intro m1 m2
    rw [eval_fpAddTerm, h1, h2]
    obtain ⟨w1', X⟩ := b1
    obtain ⟨w2', Y⟩ := b2
    simp only at w1 w2
    subst w1 w2
    rw [getMSB_mk] at m1 m2
    exact fpAddVal_msb_one _ hi.consts.v_pos _ X Y (by injection m1) (by injection m2)

/-- The C18 theorem applies: after `setAbstraction(.., 8)`, `fpAdd` of the
symbols `x` and `y`, both of value 5 under the sample interpretation (most
significant bit 0), returns a term whose value has most significant bit 0. -/
theorem fpAdd_sign_monotone_witness :
    Session session8 ∧ BV.getMSB ⟨9, 5⟩ = ⟨1, 0⟩ ∧
    ∃ e st', fpAdd session8 sampleX sampleY = .ok (e, st') ∧
      BV.getMSB (eval sampleInterp e sampleEnv).toBV = ⟨1, 0⟩ := by
  obtain ⟨e, st', hr, h0, _⟩ := fpAdd_sign_monotone session8 session8_session sampleInterp
    sampleEnv sampleX sampleY ⟨9, 5⟩ ⟨9, 5⟩ rfl rfl rfl rfl
  exact ⟨session8_session, by decide, e, st', hr, h0 (by decide) (by decide)⟩

/-! ### The cached declarations of the reductions -/

theorem sameDecls_refl (st : State) : SameDecls st st := ⟨rfl, rfl, rfl⟩

theorem sameDecls_trans {a b c : State} (h1 : SameDecls a b) (h2 : SameDecls b c) :
    SameDecls a c :=
  ⟨h2.fp_sum.trans h1.fp_sum, h2.fp_assoc_sum.trans h1.fp_assoc_sum,
    h2.int_sum.trans h1.int_sum⟩

theorem keepsDecls_refl (st : State) : KeepsDecls st st :=
  ⟨fun _ h => h, fun _ h => h, fun _ _ h => h⟩

theorem keepsDecls_trans {a b c : State} (h1 : KeepsDecls a b) (h2 : KeepsDecls b c) :
    KeepsDecls a c :=
  ⟨fun d h => h2.fp_sum d (h1.fp_sum d h), fun d h => h2.fp_assoc_sum d (h1.fp_assoc_sum d h),
    fun w d h => h2.int_sum w d (h1.int_sum w d h)⟩

theorem sameDecls_keeps {st st' : State} (h : SameDecls st st') : KeepsDecls st st' :=
  ⟨fun d hd => by rw [h.fp_sum]; exact hd, fun d hd => by rw [h.fp_assoc_sum]; exact hd,
    fun w d hd => by rw [h.int_sum]; exact hd⟩

theorem sameDecls_ok {st st' : State} (h : SameDecls st st') (hd : DeclsOK st) : DeclsOK st' :=
  ⟨fun d hh => hd.fp_sum d (by rw [← h.fp_sum]; exact hh),
    fun d hh => hd.fp_assoc_sum d (by rw [← h.fp_assoc_sum]; exact hh),
    fun w d hh => hd.int_sum w d (by rw [← h.int_sum]; exact hh)⟩

theorem widthFind_append {β : Type} (w w' : Nat) (v : β) :
    ∀ (l : List (Nat × β)),
      widthFind w (l ++ [(w', v)]) =
        match widthFind w l with
        | some d => some d
        | none => if w = w' then some v else none := by
  intro l
  induction l with
  | nil => simp [widthFind]
  | cons p rest ih =>
    obtain ⟨w1, v1⟩ := p
    simp only [List.cons_append, widthFind]
    by_cases h : w = w1
    · simp [h]
    · simp only [h, if_false]
      exact ih

theorem emplaceIfEmpty_of_some (d d0 : FnDecl) : emplaceIfEmpty (some d) d0 = d := rfl

/-! #### The single calls -/

theorem fpConst_sameDecls (st : State) (hi : Inv st) (f : Float32) (e : Expr) (st' : State)
    (hr : fpConst st f = .ok (e, st')) : SameDecls st st' := by
  obtain ⟨_, _, h3, _, _⟩ := fpConst_spec st st' f e hi hr
  rw [h3]
  exact ⟨rfl, rfl, rfl⟩

theorem fpAdd_sameDecls (st : State) (hi : Inv st) (f1 f2 e : Expr) (st' : State)
    (hr : fpAdd st f1 f2 = .ok (e, st')) : SameDecls st st' := by
  rw [fpAdd_eq st hi.consts] at hr
  cases hr
  exact ⟨rfl, rfl, rfl⟩

theorem fpMul_sameDecls (st : State) (hi : Inv st) (f1 f2 e : Expr) (st' : State)
    (hr : fpMul st f1 f2 = .ok (e, st')) : SameDecls st st' := by
  obtain ⟨st1, h1, h2⟩ := fpMul_eq st hi f1 f2
  rw [h2] at hr
  cases hr
  have hi' : Inv (fpMulState st f1) := ⟨{ hi.consts with }, { hi.pool with }⟩
  have := fpConst_sameDecls _ hi' _ _ _ h1
  exact ⟨this.fp_sum, this.fp_assoc_sum, this.int_sum⟩

theorem fpMultisetSum_decls (ib fuel : Nat) (st : State) (a n e : Expr) (st' : State)
    (hr : fpMultisetSum ib fuel st a n = .ok (e, st')) :
    (DeclsOK st → DeclsOK st') ∧ KeepsDecls st st' := by
  unfold fpMultisetSum at hr
  cases hn : n.isUInt with
  | none => simp [hn, Outcome.bind] at hr
  | some len =>
    simp only [hn, Outcome.bind] at hr
    cases hl : fpMultisetSumLoop ib a len fuel 0 (Expr.mkEmptyBag (fpSort st)) with
    | ok bag =>
      simp only [hl, deref] at hr
      have key : st'.fp_sumfn = st.fp_sumfn ∧ st'.int_sumfn = st.int_sumfn ∧
          st'.fp_assoc_sumfn
            = some (emplaceIfEmpty st.fp_assoc_sumfn ⟨[bag.sort], fpSort st, "fp_assoc_sum"⟩) := by
        cases hnum : n.isNumeral <;> simp only [hnum] at hr <;> cases hr <;> exact ⟨rfl, rfl, rfl⟩
      obtain ⟨k1, k2, k3⟩ := key
      constructor
      · intro hd
        refine ⟨fun d hh => hd.fp_sum d (by rw [← k1]; exact hh), ?_,
          fun w d hh => hd.int_sum w d (by rw [← k2]; exact hh)⟩
        intro d hh
        rw [k3] at hh
        cases ho : st.fp_assoc_sumfn with
        | none => rw [ho] at hh; cases hh; rfl
        | some d0 =>
          rw [ho] at hh
          cases hh
          exact hd.fp_assoc_sum d0 ho
      · refine ⟨fun d hh => by rw [k1]; exact hh, ?_, fun w d hh => by rw [k2]; exact hh⟩
        intro d hh
        rw [k3, hh]
        rfl
    | assertFail => simp [hl] at hr
    | undefined => simp [hl] at hr
    | outOfFuel => simp [hl] at hr

theorem fpSum_decls (ib fuel : Nat) (st : State) (a n e : Expr) (st' : State)
    (hr : fpSum ib fuel st a n = .ok (e, st')) :
    (DeclsOK st → DeclsOK st') ∧ KeepsDecls st st' := by
  by_cases hc : (st.isFpAddAssociative && st.useMultiset) = true
  · unfold fpSum at hr
    simp only [hc, if_true] at hr
    obtain ⟨h1, h2⟩ := fpMultisetSum_decls ib fuel _ a n e st' hr
    exact ⟨fun hd => h1 ⟨hd.fp_sum, hd.fp_assoc_sum, hd.int_sum⟩,
      ⟨h2.fp_sum, h2.fp_assoc_sum, h2.int_sum⟩⟩
  · have hc' : (st.isFpAddAssociative && st.useMultiset) = false := by simpa using hc
    rw [fpSum_lambda_eq ib fuel st a n hc'] at hr
    cases hr
    constructor
    · intro hd
      refine ⟨?_, hd.fp_assoc_sum, hd.int_sum⟩
      intro d hh
      simp only [fpSumState, fpSumDecl, Option.some.injEq] at hh
      cases ho : st.fp_sumfn with
      | none => rw [ho] at hh; rw [← hh]; rfl
      | some d0 =>
        rw [ho] at hh
        rw [← hh]
        exact hd.fp_sum d0 ho
    · refine ⟨?_, fun d hh => hh, fun w d hh => hh⟩
      intro d hh
      simp only [fpSumState, fpSumDecl, hh]
      rfl

theorem intSum_decls (ib : Nat) (st : State) (a n e : Expr) (st' : State)
    (hr : intSum ib st a n = .ok (e, st')) :
    (DeclsOK st → DeclsOK st') ∧ KeepsDecls st st' := by
  rw [intSum_eq] at hr
  cases hr
  cases hf : widthFind a.sort.bitwidth st.int_sumfn with
  | some d0 =>
    have hs : SameDecls st (intSumState st a) := by
      refine ⟨rfl, rfl, ?_⟩
      simp only [intSumState, hf]
    exact ⟨sameDecls_ok hs, sameDecls_keeps hs⟩
  | none =>
    have hl : (intSumState st a).int_sumfn = st.int_sumfn ++
        [(a.sort.bitwidth, ⟨[.bv a.sort.bitwidth], .bv a.sort.bitwidth,
          "int_sum" ++ toString a.sort.bitwidth⟩)] := by
      simp only [intSumState, hf]
    constructor
    · intro hd
      refine ⟨hd.fp_sum, hd.fp_assoc_sum, ?_⟩
      intro w d hh
      rw [hl, widthFind_append] at hh
      cases hw : widthFind w st.int_sumfn with
      | some d1 =>
        rw [hw] at hh
        simp only [Option.some.injEq] at hh
        rw [← hh]
        exact hd.int_sum w d1 hw
      | none =>
        rw [hw] at hh
        by_cases hww : w = a.sort.bitwidth
        · simp only [hww, if_true, Option.some.injEq] at hh
          rw [← hh, hww]
        · simp [hww] at hh
    · refine ⟨fun d hh => hh, fun d hh => hh, ?_⟩
      intro w d hh
      rw [hl, widthFind_append, hh]

theorem getIntDotFn_sameDecls (st : State) (w : Nat) : SameDecls st (getIntDotFn st w).2 := by
  unfold getIntDotFn
  split <;> exact ⟨rfl, rfl, rfl⟩

theorem intDot_decls (ib : Nat) (st : State) (a b n e : Expr) (st' : State)
    (hr : intDot ib st a b n = .ok (e, st')) :
    (DeclsOK st → DeclsOK st') ∧ KeepsDecls st st' := by
  unfold intDot at hr
  cases hl : st.alIntDot
  · simp only [hl, getIntDotFn] at hr
    have hs : SameDecls st st' := by
      split at hr <;> cases hr <;> exact ⟨rfl, rfl, rfl⟩
    exact ⟨sameDecls_ok hs, sameDecls_keeps hs⟩
  · simp only [hl] at hr
    exact intSum_decls ib st _ n e st' hr

theorem fpDot_decls (ib fuel : Nat) (st : State) (hi : Inv st) (a b n e : Expr) (st' : State)
    (hr : fpDot ib fuel st a b n = .ok (e, st')) :
    (DeclsOK st → DeclsOK st') ∧ KeepsDecls st st' := by
  unfold fpDot at hr
  cases hl : st.alFpDot
  · simp only [hl, deref, Outcome.bind] at hr
    have hs : SameDecls st st' := by cases hr; exact ⟨rfl, rfl, rfl⟩
    exact ⟨sameDecls_ok hs, sameDecls_keeps hs⟩
  · simp only [hl] at hr
    cases hm : fpMul st (Expr.select a (Index.var ib "idx")) (Expr.select b (Index.var ib "idx")) with
    | ok r =>
      obtain ⟨m, st1⟩ := r
      simp only [hm, Outcome.bind] at hr
      have h1 := fpMul_sameDecls st hi _ _ m st1 hm
      obtain ⟨h2, h3⟩ := fpSum_decls ib fuel st1 _ n e st' hr
      exact ⟨fun hd => h2 (sameDecls_ok h1 hd), keepsDecls_trans (sameDecls_keeps h1) h3⟩
    | assertFail => simp [hm, Outcome.bind] at hr
    | undefined => simp [hm, Outcome.bind] at hr
    | outOfFuel => simp [hm, Outcome.bind] at hr

theorem freshName_sameDecls (st st' : State) (pre name : String)
    (hr : freshName st pre = .ok (name, st')) : SameDecls st st' := by
  unfold freshName at hr
  split_ifs at hr
  cases hr
  exact ⟨rfl, rfl, rfl⟩

theorem hashPairStep_sameDecls (ib fuel : Nat) (p p' : Expr) (st st' : State)
    (x y : Expr × Expr × Expr) (hr : hashPairStep ib fuel (p, st) x y = .ok (p', st')) :
    SameDecls st st' := by
  obtain ⟨a, an, asum⟩ := x
  obtain ⟨b, bn, bsum⟩ := y
  unfold hashPairStep at hr
  simp only at hr
  split at hr
  · split_ifs at hr
    · cases hr; exact sameDecls_refl _
    · cases hf : freshName st "fp_hash" with
      | ok r =>
        obtain ⟨name, st1⟩ := r
        have h1 := freshName_sameDecls st st1 "fp_hash" name hf
        simp only [hf, Outcome.bind] at hr
        split at hr
        · split at hr
          · cases hr; exact h1
          all_goals cases hr
        all_goals cases hr
      | assertFail => simp [hf, Outcome.bind] at hr
      | undefined => simp [hf, Outcome.bind] at hr
      | outOfFuel => simp [hf, Outcome.bind] at hr
  · cases hr; exact sameDecls_refl _

theorem hashInnerLoop_sameDecls (ib fuel : Nat) (x : Expr × Expr × Expr) :
    ∀ (l : List (Expr × Expr × Expr)) (p p' : Expr) (st st' : State),
      hashInnerLoop ib fuel x l (p, st) = .ok (p', st') → SameDecls st st' := by
  intro l
  induction l with
  | nil => intro p p' st st' hr; simp only [hashInnerLoop] at hr; cases hr; exact sameDecls_refl _
  | cons y rest ih =>
    intro p p' st st' hr
    simp only [hashInnerLoop] at hr
    cases hs : hashPairStep ib fuel (p, st) x y with
    | ok r =>
      obtain ⟨p1, st1⟩ := r
      simp only [hs, Outcome.bind] at hr
      exact sameDecls_trans (hashPairStep_sameDecls ib fuel p p1 st st1 x y hs)
        (ih p1 p' st1 st' hr)
    | assertFail => simp [hs, Outcome.bind] at hr
    | undefined => simp [hs, Outcome.bind] at hr
    | outOfFuel => simp [hs, Outcome.bind] at hr

theorem hashOuterLoop_sameDecls (ib fuel : Nat) :
    ∀ (l : List (Expr × Expr × Expr)) (p p' : Expr) (st st' : State),
      hashOuterLoop ib fuel l (p, st) = .ok (p', st') → SameDecls st st' := by
  intro l
  induction l with
  | nil => intro p p' st st' hr; simp only [hashOuterLoop] at hr; cases hr; exact sameDecls_refl _
  | cons x rest ih =>
    intro p p' st st' hr
    simp only [hashOuterLoop] at hr
    cases hs : hashInnerLoop ib fuel x rest (p, st) with
    | ok r =>
      obtain ⟨p1, st1⟩ := r
      simp only [hs, Outcome.bind] at hr
      exact sameDecls_trans (hashInnerLoop_sameDecls ib fuel x rest p p1 st st1 hs)
        (ih p1 p' st1 st' hr)
    | assertFail => simp [hs, Outcome.bind] at hr
    | undefined => simp [hs, Outcome.bind] at hr
    | outOfFuel => simp [hs, Outcome.bind] at hr

theorem getFpAssociativePrecondition_sameDecls (ib fuel : Nat) (st st' : State) (e : Expr)
    (hr : getFpAssociativePrecondition ib fuel st = .ok (e, st')) : SameDecls st st' := by
  unfold getFpAssociativePrecondition at hr
  split_ifs at hr
  · cases hr; exact sameDecls_refl _
  · cases hs : hashOuterLoop ib fuel st.staticArrays (Expr.mkBool true, st) with
    | ok r =>
      obtain ⟨p1, st1⟩ := r
      simp only [hs, Outcome.bind] at hr
      cases hr
      exact hashOuterLoop_sameDecls ib fuel _ _ _ _ _ hs
    | assertFail => simp [hs, Outcome.bind] at hr
    | undefined => simp [hs, Outcome.bind] at hr
    | outOfFuel => simp [hs, Outcome.bind] at hr

/-- One call of the interface keeps the cached declarations of the reductions
and creates only those of the source. -/
theorem step_decls {st st' : State} (hi : Inv st) (hs : Step st st') :
    (DeclsOK st → DeclsOK st') ∧ KeepsDecls st st' := by
  cases hs with
  | fpConst h =>
    have := fpConst_sameDecls _ hi _ _ _ h
    exact ⟨sameDecls_ok this, sameDecls_keeps this⟩
  | fpAdd h =>
    have := fpAdd_sameDecls _ hi _ _ _ _ h
    exact ⟨sameDecls_ok this, sameDecls_keeps this⟩
  | fpMul h =>
    have := fpMul_sameDecls _ hi _ _ _ _ h
    exact ⟨sameDecls_ok this, sameDecls_keeps this⟩
  | fpSum h => exact fpSum_decls _ _ _ _ _ _ _ h
  | fpDot h => exact fpDot_decls _ _ _ hi _ _ _ _ _ h
  | intSum h => exact intSum_decls _ _ _ _ _ _ h
  | intDot h => exact intDot_decls _ _ _ _ _ _ _ h
  | @setEncodingOptions b =>
    have : SameDecls st (AbstractOps.setEncodingOptions st b) := ⟨rfl, rfl, rfl⟩
    exact ⟨sameDecls_ok this, sameDecls_keeps this⟩
  | getFpAssociativePrecondition h =>
    have := getFpAssociativePrecondition_sameDecls _ _ _ _ _ h
    exact ⟨sameDecls_ok this, sameDecls_keeps this⟩

theorem later_decls {st st' : State} (hi : Inv st) (hl : Later st st') :
    (DeclsOK st → DeclsOK st') ∧ KeepsDecls st st' := by
  induction hl with
  | refl => exact ⟨fun h => h, keepsDecls_refl _⟩
  | step hl' hs ih =>
    obtain ⟨i1, i2⟩ := ih
    obtain ⟨hi', _⟩ := later_inv hi hl'
    obtain ⟨s1, s2⟩ := step_decls hi' hs
    exact ⟨fun h => s1 (i1 h), keepsDecls_trans i2 s2⟩

theorem started_session {st : State} (h : Started st) : Session st := by
  induction h with
  | first hb hr => exact Session.start hb hr
  | again _ hb hr _ => exact Session.start hb hr
  | step _ hs ih => exact Session.step ih hs

theorem setAbstraction_sameDecls (st0 st : State) (afd : AbsLevelFpDot) (aid : AbsLevelIntDot)
    (addAssoc : Bool) (fpBits : Nat) (hb : fpBits < U32)
    (hr : setAbstraction st0 afd aid addAssoc fpBits = .ok st) : SameDecls st0 st := by
  obtain ⟨_, _, h⟩ := (setAbstraction_eq_ok_iff st0 st afd aid addAssoc fpBits hb).1 hr
  rw [h]
  exact ⟨rfl, rfl, rfl⟩

theorem started_decls {st : State} (h : Started st) : DeclsOK st := by
  induction h with
  | first hb hr =>
    apply sameDecls_ok (setAbstraction_sameDecls _ _ _ _ _ _ hb hr)
    refine ⟨fun d hh => ?_, fun d hh => ?_, fun w d hh => ?_⟩
    · cases hh
    · cases hh
    · cases hh
  | again _ hb hr ih => exact sameDecls_ok (setAbstraction_sameDecls _ _ _ _ _ _ hb hr) ih
  | step hst hs ih => exact (step_decls (session_inv (started_session hst)) hs).1 ih

theorem started_later {st st' : State} (h : Started st) (hl : Later st st') : Started st' := by
  induction hl with
  | refl => exact h
  | step _ hs ih => exact Started.step ih hs

/-! ### C19: the masked argument of `fpSum` and `intSum` -/

theorem maskedLambda_eq (ib : Nat) (a n : Expr) :
    maskedLambda ib a n (mkZeroElemFromArr ib a) = maskedArg ib a n := by
  simp only [maskedLambda, maskedArg, mkZeroElemFromArr, Expr.mkLambda, Expr.mkIte, Index.var,
    Index, Expr.mkBV, Nat.zero_mod, Expr.sort]

theorem toBV_bv (b : BV) : (Val.bv b).toBV = b := rfl

theorem eval_maskedArg (I : Interp) (env : String → Nat) (ib : Nat) (a n : Expr) :
    eval I (maskedArg ib a n) env
      = .arr (fun k =>
          if k < (eval I n (Function.update env "idx" k)).toBV.val then
            (eval I a (Function.update env "idx" k)).toArr k
          else ⟨(Expr.select a (.bv 0 ib)).sort.bitwidth, 0⟩) := by
  simp only [maskedArg, eval, Expr.boundName, Val.toBool, BV.ult, toBV_bv,
    Function.update_same]
  congr 1
  funext k
  by_cases h : k < (eval I n (Function.update env "idx" k)).toBV.val
  · simp only [h, decide_True, if_true, toBV_bv]
  · simp only [h, decide_False, if_false, toBV_bv, Bool.false_eq_true]

theorem eval_maskedArg_congr (I : Interp) (env : String → Nat) (ib : Nat) (a b n : Expr)
    (hs : a.sort = b.sort) (h : AgreeBelow I env a b n) :
    eval I (maskedArg ib a n) env = eval I (maskedArg ib b n) env := by
  rw [eval_maskedArg, eval_maskedArg]
  have hz : (Expr.select a (.bv 0 ib)).sort = (Expr.select b (.bv 0 ib)).sort := by
    simp only [Expr.sort, hs]
  rw [hz]
  congr 1
  funext k
  by_cases hk : k < (eval I n (Function.update env "idx" k)).toBV.val
  · rw [if_pos hk, if_pos hk, h k hk]
  · rw [if_neg hk, if_neg hk]

theorem fpSumTerm_eq (ib : Nat) (st : State) (a n : Expr) :
    fpSumTerm ib st a n = .app1 (fpSumDecl st a) (maskedArg ib a n) := by
  rw [fpSumTerm, maskedLambda_eq]
  rfl

theorem intSumTerm_eq (ib : Nat) (st : State) (a n : Expr) :
    intSumTerm ib st a n = .app1 (intSumDecl st a.sort.bitwidth) (maskedArg ib a n) := by
  rw [intSumTerm, maskedLambda_eq]
  rfl

theorem fpSumDecl_of_cached (st : State) (a : Expr) (d : FnDecl) (h : st.fp_sumfn = some d) :
    fpSumDecl st a = d := by
  rw [fpSumDecl, h]
  rfl

theorem intSumDecl_of_cached (st : State) (w : Nat) (d : FnDecl)
    (h : widthFind w st.int_sumfn = some d) : intSumDecl st w = d := by
  rw [intSumDecl, h]

theorem intSumState_cached (st : State) (a : Expr) :
    widthFind a.sort.bitwidth (intSumState st a).int_sumfn
      = some (intSumDecl st a.sort.bitwidth) := by
  cases hf : widthFind a.sort.bitwidth st.int_sumfn with
  | some d0 =>
    simp only [intSumState, intSumDecl, hf]
  | none =>
    simp only [intSumState, intSumDecl, hf]
    rw [widthFind_append, hf]
    simp

theorem intSumDecl_name (st : State) (hd : DeclsOK st) (w : Nat) :
    intSumDecl st w = ⟨[.bv w], .bv w, "int_sum" ++ toString w⟩ := by
  cases hf : widthFind w st.int_sumfn with
  | some d0 => rw [intSumDecl, hf]; exact hd.int_sum w d0 hf
  | none => rw [intSumDecl, hf]

theorem fpSumDecl_name (st : State) (hd : DeclsOK st) (a : Expr) :
    (fpSumDecl st a).name = "fp_sum" := by
  cases hf : st.fp_sumfn with
  | some d0 => rw [fpSumDecl, hf]; exact hd.fp_sum d0 hf
  | none => rw [fpSumDecl, hf]; rfl

theorem eval_app1 (I : Interp) (env : String → Nat) (d : FnDecl) (x : Expr) :
    eval I (.app1 d x) env = Val.cast d.range (I.fn d.name [eval I x env]) := by
  simp only [eval]

/-- C19: in a program that began with `setAbstraction`, outside multiset mode
`fpSum(a, n)` returns the application of a declaration named `fp_sum`, and
`intSum(a, n)` returns the application of the declaration `int_sum<w>` for the
bit width `w` of the sort of `a`, to the term `λ idx. ite (idx <u n) a[idx] 0`,
whose value is the function `k ↦ if k < n then a[k] else 0`, the zero having
the width of the elements of `a`.  A later call with the same `a` and `n`
returns the identical term (the cached declaration is reused), and for an
array `b` of the sort of `a` that agrees with `a` at every index below `n`,
the call with `b` returns a term of the same value. -/
theorem masked_reduction (ib fuel : Nat) (st : State) (hs : Started st) (a n : Expr) :
    (∀ (I : Interp) (env : String → Nat),
      eval I (maskedArg ib a n) env
        = .arr (fun k =>
            if k < (eval I n (Function.update env "idx" k)).toBV.val then
              (eval I a (Function.update env "idx" k)).toArr k
            else ⟨(Expr.select a (.bv 0 ib)).sort.bitwidth, 0⟩)) ∧
    (∀ dom w, a.sort = .array dom (.bv w) → (Expr.select a (.bv 0 ib)).sort.bitwidth = w) ∧
    ((st.isFpAddAssociative && st.useMultiset) = false →
      ∃ d st1, d.name = "fp_sum" ∧
        fpSum ib fuel st a n = .ok (.app1 d (maskedArg ib a n), st1) ∧
        (∀ st2, Later st1 st2 → (st2.isFpAddAssociative && st2.useMultiset) = false →
          ∃ st3, fpSum ib fuel st2 a n = .ok (.app1 d (maskedArg ib a n), st3)) ∧
        (∀ (b : Expr) (I : Interp) (env : String → Nat), a.sort = b.sort →
          AgreeBelow I env a b n →
          ∃ e st1', fpSum ib fuel st b n = .ok (e, st1') ∧
            eval I e env = eval I (.app1 d (maskedArg ib a n)) env)) ∧
    (∃ st1,
      intSum ib st a n
        = .ok (.app1 ⟨[.bv a.sort.bitwidth], .bv a.sort.bitwidth,
            "int_sum" ++ toString a.sort.bitwidth⟩ (maskedArg ib a n), st1) ∧
      (∀ st2, Later st1 st2 →
        ∃ st3, intSum ib st2 a n
          = .ok (.app1 ⟨[.bv a.sort.bitwidth], .bv a.sort.bitwidth,
              "int_sum" ++ toString a.sort.bitwidth⟩ (maskedArg ib a n), st3)) ∧
      (∀ (b : Expr) (I : Interp) (env : String → Nat), a.sort = b.sort →
        AgreeBelow I env a b n →
        ∃ e st1', intSum ib st b n = .ok (e, st1') ∧
          eval I e env
            = eval I (.app1 ⟨[.bv a.sort.bitwidth], .bv a.sort.bitwidth,
                "int_sum" ++ toString a.sort.bitwidth⟩ (maskedArg ib a n)) env)) := by
  have hses := started_session hs
  have hi := session_inv hses
  have hd := started_decls hs
  refine ⟨fun I env => eval_maskedArg I env ib a n, ?_, ?_, ?_⟩
  · intro dom w h
    simp only [Expr.sort, h, SmtSort.bitwidth]
  · intro hc
    have hr := fpSum_lambda_eq ib fuel st a n hc
    rw [fpSumTerm_eq] at hr
    refine ⟨fpSumDecl st a, _, fpSumDecl_name st hd a, hr, ?_, ?_⟩
    · intro st2 hl hc2
      have hi1 : Inv (fpSumState ib st a n) :=
        session_inv (Session.step hses (Step.fpSum (fpSum_lambda_eq ib fuel st a n hc)))
      obtain ⟨_, hk⟩ := later_decls hi1 hl
      have hcache : st2.fp_sumfn = some (fpSumDecl st a) := hk.fp_sum _ rfl
      have hr2 := fpSum_lambda_eq ib fuel st2 a n hc2
      rw [fpSumTerm_eq, fpSumDecl_of_cached st2 a _ hcache] at hr2
      exact ⟨_, hr2⟩
    · intro b I env hsort hagree
      have hrb := fpSum_lambda_eq ib fuel st b n hc
      rw [fpSumTerm_eq] at hrb
      refine ⟨_, _, hrb, ?_⟩
      have hdecl : fpSumDecl st b = fpSumDecl st a := by
        simp only [fpSumDecl, hsort]
      rw [hdecl]
      rw [eval_app1, eval_app1, eval_maskedArg_congr I env ib a b n hsort hagree]
  · have hr := intSum_eq ib st a n
    rw [intSumTerm_eq, intSumDecl_name st hd] at hr
    refine ⟨_, hr, ?_, ?_⟩
    · intro st2 hl
      have hi1 : Inv (intSumState st a) :=
        session_inv (Session.step hses (Step.intSum (intSum_eq ib st a n)))
      obtain ⟨_, hk⟩ := later_decls hi1 hl
      have hcache := hk.int_sum _ _ (intSumState_cached st a)
      have hr2 := intSum_eq ib st2 a n
      rw [intSumTerm_eq, intSumDecl_of_cached st2 _ _ hcache, intSumDecl_name st hd] at hr2
      exact ⟨_, hr2⟩
    · intro b I env hsort hagree
      have hrb := intSum_eq ib st b n
      rw [intSumTerm_eq, intSumDecl_name st hd, ← hsort] at hrb
      refine ⟨_, _, hrb, ?_⟩
      rw [eval_app1, eval_app1, eval_maskedArg_congr I env ib a b n hsort hagree]

theorem session8_started : Started session8 :=
  Started.first (show 8 < U32 by decide) session8_ok

/-- The C19 theorem applies: after `setAbstraction(.., 8)`, `intSum(a, n)` for
an array `a` of 9-bit elements returns `int_sum9` applied to the masked lambda,
and so does a second call. -/
theorem masked_reduction_witness :
    Started session8 ∧
    ∃ st1, intSum 32 session8 sampleA sampleN
        = .ok (.app1 ⟨[.bv 9], .bv 9, "int_sum" ++ toString 9⟩ (maskedArg 32 sampleA sampleN),
            st1) ∧
      ∃ st2, intSum 32 st1 sampleA sampleN
        = .ok (.app1 ⟨[.bv 9], .bv 9, "int_sum" ++ toString 9⟩ (maskedArg 32 sampleA sampleN),
            st2) := by
  obtain ⟨_, _, _, st1, h1, h2, _⟩ :=
    masked_reduction 32 0 session8 session8_started sampleA sampleN
  exact ⟨session8_started, st1, h1, h2 st1 (Later.refl _)⟩

/-! ### C20: the multiset sum -/

theorem fpMultisetSumLoop_diverges (ib : Nat) (a : Expr) (len : Nat) (hlen : U32 ≤ len) :
    ∀ (fuel i : Nat) (bag : Expr), i < U32 →
      fpMultisetSumLoop ib a len fuel i bag = .outOfFuel := by
  intro fuel
  induction fuel with
  | zero => intro i bag _; rfl
  | succ fuel ih =>
    intro i bag hi
    simp only [fpMultisetSumLoop]
    rw [if_pos (lt_of_lt_of_le hi hlen)]
    apply ih
    unfold uadd32
    exact Nat.mod_lt _ (by decide)

theorem fpMultisetSumLoop_ok (ib : Nat) (a : Expr) (len : Nat) (hlen : len < U32) :
    ∀ (fuel i : Nat) (bag : Expr), i ≤ len → len - i < fuel →
      fpMultisetSumLoop ib a len fuel i bag
        = .ok (insertAll ib a (List.range' i (len - i)) bag) := by
  intro fuel
  induction fuel with
  | zero => intro i bag _ h; omega
  | succ fuel ih =>
    intro i bag hi hf
    simp only [fpMultisetSumLoop]
    by_cases hlt : i < len
    · rw [if_pos hlt]
      have hu : uadd32 i 1 = i + 1 := by
        unfold uadd32
        exact Nat.mod_eq_of_lt (by omega)
      rw [hu, Expr.simplify, ih (i + 1) _ (by omega) (by omega)]
      have : len - i = (len - (i + 1)) + 1 := by omega
      rw [this, List.range'_succ]
      rfl
    · rw [if_neg hlt]
      have : len - i = 0 := by omega
      rw [this]
      rfl

theorem insertAll_sort (ib : Nat) (a : Expr) :
    ∀ (ks : List Nat) (bag : Expr), (insertAll ib a ks bag).sort = bag.sort := by
  intro ks
  induction ks with
  | nil => intro bag; rfl
  | cons k ks ih =>
    intro bag
    simp only [insertAll, List.foldl_cons] at ih ⊢
    rw [ih]
    rfl

theorem eval_insertAll (I : Interp) (env : String → Nat) (ib : Nat) (a : Expr) :
    ∀ (ks : List Nat) (bag : Expr) (m : Multiset BV), eval I bag env = .bag m →
      eval I (insertAll ib a ks bag) env
        = .bag (Multiset.ofList
            (ks.map fun k => (eval I (.select a (Index ib k)) env).toBV) + m) := by
  intro ks
  induction ks with
  | nil => intro bag m h; simp [insertAll, h]
  | cons k ks ih =>
    intro bag m h
    have h1 : eval I (Expr.insert bag (Expr.select a (Index ib k))) env
        = .bag ((eval I (.select a (Index ib k)) env).toBV ::ₘ m) := by
      simp only [eval, h, Val.toBag]
    have := ih (Expr.insert bag (Expr.select a (Index ib k))) _ h1
    simp only [insertAll, List.foldl_cons] at this ⊢
    rw [this, List.map_cons, ← Multiset.cons_coe, Multiset.add_cons, Multiset.cons_add]

theorem eval_bagTerm (I : Interp) (env : String → Nat) (ib : Nat) (st : State) (a : Expr)
    (len : Nat) : eval I (bagTerm ib st a len) env = .bag (elems I env ib a len) := by
  unfold bagTerm elems
  rw [eval_insertAll I env ib a _ _ 0 (by simp only [Expr.mkEmptyBag, eval]), add_zero,
    List.range_eq_range']

theorem card_elems (I : Interp) (env : String → Nat) (ib : Nat) (a : Expr) (len : Nat) :
    Multiset.card (elems I env ib a len) = len := by
  simp [elems]

theorem isNumeral_of_isUInt (n : Expr) (len : Nat) (h : n.isUInt = some len) :
    n.isNumeral = true := by
  cases n <;> simp [Expr.isUInt] at h
  rfl

theorem fpSum_multiset_eq (ib fuel : Nat) (st : State) (a n : Expr) (len : Nat)
    (hm : (st.isFpAddAssociative && st.useMultiset) = true)
    (hn : n.isUInt = some len) (hlen : len < U32) (hfuel : len < fuel) :
    fpSum ib fuel st a n
      = .ok (.app1 (assocDecl st) (bagTerm ib st a len), assocState ib st a n len) := by
  have hloop := fpMultisetSumLoop_ok ib a len hlen fuel 0
    (Expr.mkEmptyBag (fpSort st)) (Nat.zero_le _) (by omega)
  rw [Nat.sub_zero] at hloop
  have hsort : (insertAll ib a (List.range' 0 len) (Expr.mkEmptyBag (fpSort st))).sort
      = .bag (fpSort st) := by
    rw [insertAll_sort]; rfl
  unfold fpSum
  simp only [hm, if_true]
  unfold fpMultisetSum
  simp only [fpSort] at hloop hsort
  simp only [hn, Outcome.bind, fpSort]
  rw [hloop]
  simp only [deref, isNumeral_of_isUInt n len hn, if_true, hsort]
  rfl

theorem assocDecl_name (st : State) (hd : DeclsOK st) : (assocDecl st).name = "fp_assoc_sum" := by
  cases hf : st.fp_assoc_sumfn with
  | some d0 => rw [assocDecl, hf]; exact hd.fp_assoc_sum d0 hf
  | none => rw [assocDecl, hf]; rfl

theorem assocDecl_assocState (ib : Nat) (st : State) (a n : Expr) (len : Nat) :
    assocDecl (assocState ib st a n len) = assocDecl st := rfl

theorem sessionMultiset_started : Started sessionMultiset :=
  Started.step
    (Started.first (show 8 < U32 by decide)
      (setAbstraction_ok State.init .SUM_MUL .SUM_MUL true 8 (by decide) (by decide)))
    Step.setEncodingOptions

/-- C20, as the claim states it, fails for the lengths a 64-bit literal can
take from `2^32` on: the counter of the loop of `fpMultisetSum` is `unsigned`,
so it wraps around before it reaches the length, and the loop never ends.  In
multiset mode `fpSum(a, 4294967296)` returns with no amount of fuel. -/
theorem fpSum_multiset_diverges :
    (sessionMultiset.isFpAddAssociative && sessionMultiset.useMultiset) = true ∧
    (Expr.bv 4294967296 64).isUInt = some 4294967296 ∧
    ∀ fuel : Nat, fpSum 32 fuel sessionMultiset sampleA (.bv 4294967296 64) = .outOfFuel := by
  refine ⟨rfl, rfl, ?_⟩
  intro fuel
  have h := fpMultisetSumLoop_diverges 32 sampleA 4294967296 (le_refl _) fuel 0
    (Expr.mkEmptyBag (fpSort sessionMultiset)) (by decide)
  unfold fpSum
  have hm : (sessionMultiset.isFpAddAssociative && sessionMultiset.useMultiset) = true := rfl
  simp only [hm, if_true]
  unfold fpMultisetSum
  have hn : (Expr.bv 4294967296 64).isUInt = some 4294967296 := rfl
  simp only [fpSort] at h
  simp only [hn, Outcome.bind, fpSort]
  rw [h]

/-- C20, amended: in multiset mode, in a program that began with
`setAbstraction`, for every literal length `len < 2^32` and fuel above `len`,
`fpSum(a, n)` returns: the loop of `fpMultisetSum` ends and builds the bag
`bagTerm`, whose value is the multiset of the values of `a[0], ..., a[len - 1]`,
of `len` elements counted with multiplicity; the result is the application of a
declaration named `fp_assoc_sum` to that bag, and the call appends exactly the
triple (bag, n, result) to the registry.  If the elements of `b` below `len`
are a permutation of those of `a`, then `fpSum(b, n)`, called in the same state
or after the call for `a`, returns the application of the same declaration to
the bag of `b`, of the same value, and appends its own triple. -/
theorem multiset_sum (ib fuel : Nat) (st : State) (hs : Started st)
    (hm : (st.isFpAddAssociative && st.useMultiset) = true)
    (a n : Expr) (len : Nat) (hn : n.isUInt = some len) (hlen : len < U32)
    (hfuel : len < fuel) :
    ∃ d st1, d.name = "fp_assoc_sum" ∧
      fpMultisetSumLoop ib a len fuel 0 (Expr.mkEmptyBag (fpSort st))
        = .ok (bagTerm ib st a len) ∧
      fpSum ib fuel st a n = .ok (.app1 d (bagTerm ib st a len), st1) ∧
      (∀ (I : Interp) (env : String → Nat),
        eval I (bagTerm ib st a len) env = .bag (elems I env ib a len) ∧
        Multiset.card (elems I env ib a len) = len) ∧
      st1.staticArrays
        = st.staticArrays ++ [(bagTerm ib st a len, n, .app1 d (bagTerm ib st a len))] ∧
      ∀ (b : Expr),
        (∃ stb, fpSum ib fuel st b n = .ok (.app1 d (bagTerm ib st b len), stb) ∧
          stb.staticArrays
            = st.staticArrays ++ [(bagTerm ib st b len, n, .app1 d (bagTerm ib st b len))]) ∧
        (∃ stb, fpSum ib fuel st1 b n = .ok (.app1 d (bagTerm ib st b len), stb) ∧
          stb.staticArrays
            = st1.staticArrays ++ [(bagTerm ib st b len, n, .app1 d (bagTerm ib st b len))]) ∧
        ∀ (I : Interp) (env : String → Nat),
          elems I env ib b len = elems I env ib a len →
          eval I (.app1 d (bagTerm ib st b len)) env
            = eval I (.app1 d (bagTerm ib st a len)) env := by
  have hd := started_decls hs
  have hloop := fpMultisetSumLoop_ok ib a len hlen fuel 0
    (Expr.mkEmptyBag (fpSort st)) (Nat.zero_le _) (by omega)
  rw [Nat.sub_zero] at hloop
  refine ⟨assocDecl st, assocState ib st a n len, assocDecl_name st hd, hloop,
    fpSum_multiset_eq ib fuel st a n len hm hn hlen hfuel,
    fun I env => ⟨eval_bagTerm I env ib st a len, card_elems I env ib a len⟩, rfl, ?_⟩
  intro b
  refine ⟨⟨_, fpSum_multiset_eq ib fuel st b n len hm hn hlen hfuel, rfl⟩, ?_, ?_⟩
  · have hm1 : ((assocState ib st a n len).isFpAddAssociative
        && (assocState ib st a n len).useMultiset) = true := hm
    have h := fpSum_multiset_eq ib fuel (assocState ib st a n len) b n len hm1 hn hlen hfuel
    exact ⟨_, h, rfl⟩
  · intro I env he
    rw [eval_app1, eval_app1, eval_bagTerm, eval_bagTerm, he]

/-- The C20 theorem applies: in multiset mode after `setAbstraction(.., 8)`,
`fpSum(a, 2)` returns the application of `fp_assoc_sum` to the bag built from
`a[0]` and `a[1]`, and appends one triple to the empty registry. -/
theorem multiset_sum_witness :
    Started sessionMultiset ∧
    (sessionMultiset.isFpAddAssociative && sessionMultiset.useMultiset) = true ∧
    (Expr.bv 2 64).isUInt = some 2 ∧
    ∃ d st1, d.name = "fp_assoc_sum" ∧
      fpSum 32 3 sessionMultiset sampleA (.bv 2 64)
        = .ok (.app1 d (bagTerm 32 sessionMultiset sampleA 2), st1) ∧
      st1.staticArrays = sessionMultiset.staticArrays ++
        [(bagTerm 32 sessionMultiset sampleA 2, .bv 2 64,
          .app1 d (bagTerm 32 sessionMultiset sampleA 2))] := by
  obtain ⟨d, st1, h1, _, h3, _, h5, _⟩ :=
    multiset_sum 32 3 sessionMultiset sessionMultiset_started rfl sampleA (.bv 2 64) 2 rfl
      (by decide) (by decide)
  exact ⟨sessionMultiset_started, rfl, rfl, d, st1, h1, h3, h5⟩

/-! ### C15: the precondition outside multiset mode -/

end AbstractOps
